import Mathlib

/-!
# Decomposition of an ASCII figure into rectangles

A shallow embedding of `getFigureRectangles` from `task/11-katas-2-tasks.js`
together with its inner functions `myLoop`, `rec` and `getFigure`.

A JavaScript string is a sequence of UTF-16 code units, so a string is a
`List Nat` here and `+`, `-`, `|`, the space and the line feed are the numbers
43, 45, 124, 32 and 10.  Indices are `Int`, as `col - dRow` and `i += dRow` can
leave the natural numbers.  Reading a property of `undefined` throws a
`TypeError`, `String.prototype.repeat` with a negative count throws a
`RangeError`; both are values of `Err`.  A `for` loop runs on fuel, and running
out of fuel is a third value of `Err`.
-/

namespace Katas

/-- Code unit of `+`. -/
abbrev plus : Nat := 43
/-- Code unit of `-`. -/
abbrev minus : Nat := 45
/-- Code unit of `|`. -/
abbrev bar : Nat := 124
/-- Code unit of the space character. -/
abbrev space : Nat := 32
/-- Code unit of the line feed. -/
abbrev newline : Nat := 10

/-- The code units of a text whose characters are all ASCII. -/
def units (s : String) : List Nat := s.toList.map Char.toNat

/-- What can stop an evaluation: a read of a property of `undefined`, a negative
repeat count, or a loop of the model that used up its fuel. -/
inductive Err where
  | typeError
  | rangeError
  | fuel
  deriving DecidableEq, Repr

/-- The method `split` of a string, for a separator of one code unit. -/
def split (sep : Nat) : List Nat → List (List Nat)
  | [] => [[]]
  | c :: cs =>
    if c = sep then [] :: split sep cs
    else
      match split sep cs with
      | [] => [[c]]
      | l :: ls => (c :: l) :: ls

/-- The element `figure[i]` of the array of lines: `none` is `undefined`. -/
def rowAt (figure : List (List Nat)) (i : Int) : Option (List Nat) :=
  if i < 0 then none else figure[i.toNat]?

/-- The code unit `str[j]` of a string: `none` is `undefined`. -/
def charAt (str : List Nat) (j : Int) : Option Nat :=
  if j < 0 then none else str[j.toNat]?

/-- The read `figure[i][j]`: it throws when `figure[i]` is `undefined`. -/
def cellAt (figure : List (List Nat)) (i j : Int) : Except Err (Option Nat) :=
  match rowAt figure i with
  | none => .error .typeError
  | some line => .ok (charAt line j)

/-- Truthiness of `figure[i]`: a string that is not empty. -/
def truthy : Option (List Nat) → Bool
  | some (_ :: _) => true
  | _ => false

/-- How a loop of `myLoop` ends: by a `return` (of an index, or of `false`,
which is `none`), or by its condition becoming false. -/
inductive Flow where
  | ret (v : Option Int)
  | done
  deriving DecidableEq, Repr

/-- The first loop of `myLoop`, `for (i = row + dRow; i < figure.length && i >= 0; i += dRow)`,
entered at index `i`. -/
def loopRows (figure : List (List Nat)) (col dRow : Int) (s : Nat) :
    Nat → Int → Except Err Flow
  | 0, _ => .error .fuel
  | fuel + 1, i =>
    if i < (figure.length : Int) ∧ i ≥ 0 then
      match cellAt figure i col with
      | .error e => .error e
      | .ok c =>
        if c = some plus then
          match cellAt figure i (col - dRow) with
          | .error e => .error e
          | .ok p =>
            if p = some plus ∨ p = some s then .ok (.ret (some i))
            else loopRows figure col dRow s fuel (i + dRow)
        else if c = some space then .ok (.ret none)
        else loopRows figure col dRow s fuel (i + dRow)
    else .ok .done

/-- The second loop of `myLoop`, `for (i = col + dCol; i < figure[row].length && i >= 0; i += dCol)`,
entered at index `i`. -/
def loopCols (figure : List (List Nat)) (row dCol : Int) (s : Nat) :
    Nat → Int → Except Err Flow
  | 0, _ => .error .fuel
  | fuel + 1, i =>
    match rowAt figure row with
    | none => .error .typeError
    | some line =>
      if i < (line.length : Int) ∧ i ≥ 0 then
        match cellAt figure row i with
        | .error e => .error e
        | .ok c =>
          if c = some plus then
            match cellAt figure (row + dCol) i with
            | .error e => .error e
            | .ok p =>
              if p = some plus ∨ p = some s then .ok (.ret (some i))
              else loopCols figure row dCol s fuel (i + dCol)
          else if c = some space then .ok (.ret none)
          else loopCols figure row dCol s fuel (i + dCol)
      else .ok .done

/-- The length of `figure[row]`, or 0 when there is no such line (the loop
that uses it as fuel then throws at its first test). -/
def lineLength (figure : List (List Nat)) (row : Int) : Nat :=
  match rowAt figure row with
  | none => 0
  | some line => line.length

/-- The edge tracer `myLoop(row, col, dRow, dCol, s)`; `none` is `false`. -/
def myLoop (figure : List (List Nat)) (row col dRow dCol : Int) (s : Nat) :
    Except Err (Option Int) :=
  match (if dRow ≠ 0 then loopRows figure col dRow s (figure.length + 1) (row + dRow)
         else .ok .done) with
  | .error e => .error e
  | .ok (.ret v) => .ok v
  | .ok .done =>
    if dCol ≠ 0 ∧ truthy (rowAt figure (row + dCol)) = true then
      match loopCols figure row dCol s (lineLength figure row + 1) (col + dCol) with
      | .error e => .error e
      | .ok (.ret v) => .ok v
      | .ok .done => .ok none
    else .ok none

/-- The object `{width, height}` that `rec` returns. -/
structure Rect where
  width : Int
  height : Int
  deriving DecidableEq, Repr

/-- The validator `rec(row, col)`; `none` is `false`. -/
def rec (figure : List (List Nat)) (row col : Int) : Except Err (Option Rect) :=
  match myLoop figure row col 0 1 bar with
  | .error e => .error e
  | .ok none => .ok none
  | .ok (some column) =>
    match myLoop figure row column 1 0 minus with
    | .error e => .error e
    | .ok none => .ok none
    | .ok (some rowumn) =>
      match myLoop figure rowumn column 0 (-1) bar with
      | .error e => .error e
      | .ok none => .ok none
      | .ok (some column2) =>
        match myLoop figure rowumn column2 (-1) 0 minus with
        | .error e => .error e
        | .ok none => .ok none
        | .ok (some rowumn2) =>
          if rowumn2 = row ∧ column2 = col then
            .ok (some { width := column - col + 1, height := rowumn - row + 1 })
          else .ok none

/-- The method `repeat` of a string: a negative count throws. -/
def jsRepeat (s : List Nat) (n : Int) : Except Err (List Nat) :=
  if n < 0 then .error .rangeError else .ok (List.replicate n.toNat s).flatten

/-- The renderer `getFigure(obj)`. -/
def getFigure (obj : Rect) : Except Err (List Nat) :=
  match jsRepeat [minus] (obj.width - 2) with
  | .error e => .error e
  | .ok dashes =>
    let line := [plus] ++ dashes ++ [plus, newline]
    match jsRepeat [space] (obj.width - 2) with
    | .error e => .error e
    | .ok blanks =>
      match jsRepeat ([bar] ++ blanks ++ [bar, newline]) (obj.height - 2) with
      | .error e => .error e
      | .ok middle => .ok (line ++ middle ++ line)

/-- The test of the scan loop at `(i, j)`: a `+` with `|` or `+` below it, in a
line that is there and not empty, and `-` or `+` to its right. -/
def isCandidate (figure : List (List Nat)) (i j : Nat) : Except Err Bool :=
  match cellAt figure i j with
  | .error e => .error e
  | .ok c =>
    if c = some plus ∧ truthy (rowAt figure (i + 1)) = true then
      match cellAt figure (i + 1) j with
      | .error e => .error e
      | .ok b =>
        if b = some bar ∨ b = some plus then
          match cellAt figure i (j + 1) with
          | .error e => .error e
          | .ok r => .ok (decide (r = some minus ∨ r = some plus))
        else .ok false
    else .ok false

/-- The body of the inner scan loop at `(i, j)`: what it yields, with the
position it yields it for. -/
def scanCell (figure : List (List Nat)) (i j : Nat) :
    Except Err (List ((Nat × Nat) × List Nat)) :=
  match isCandidate figure i j with
  | .error e => .error e
  | .ok false => .ok []
  | .ok true =>
    match rec figure i j with
    | .error e => .error e
    | .ok none => .ok []
    | .ok (some obj) =>
      match getFigure obj with
      | .error e => .error e
      | .ok block => .ok [((i, j), block)]

/-- A loop `for (let k = start; k < start + n; k++)` whose body yields the
elements of `body k`. -/
def forUp {α : Type} (body : Nat → Except Err (List α)) : Nat → Nat → Except Err (List α)
  | 0, _ => .ok []
  | n + 1, k =>
    match body k with
    | .error e => .error e
    | .ok out =>
      match forUp body n (k + 1) with
      | .error e => .error e
      | .ok rest => .ok (out ++ rest)

/-- The scan of line `i`: `for (let j = 0; j < figure[i].length; j++)`. -/
def scanRow (figure : List (List Nat)) (i : Nat) :
    Except Err (List ((Nat × Nat) × List Nat)) :=
  match rowAt figure i with
  | none => .error .typeError
  | some line => forUp (scanCell figure i) line.length 0

/-- The scan of the array of lines, `for (let i = 0; i < figure.length; i++)`,
with every yielded block next to the position it was yielded for. -/
def scan (figure : List (List Nat)) : Except Err (List ((Nat × Nat) × List Nat)) :=
  forUp (scanRow figure) figure.length 0

/-- The blocks `getFigureRectangles(figure)` yields, each with the position of
the scan at which it is yielded. -/
def getFigureRectanglesAt (figure : List Nat) : Except Err (List ((Nat × Nat) × List Nat)) :=
  scan (split newline figure)

/-- The sequence `getFigureRectangles(figure)` yields. -/
def getFigureRectangles (figure : List Nat) : Except Err (List (List Nat)) :=
  match getFigureRectanglesAt figure with
  | .error e => .error e
  | .ok out => .ok (out.map Prod.snd)

/-- The read `figure[i][j]` where it cannot throw: `none` is `undefined`, also
for a line that is not there. -/
def peek (figure : List (List Nat)) (i j : Int) : Option Nat :=
  match rowAt figure i with
  | none => none
  | some l => charAt l j

/-- The test `c === '+' && (p === '+' || p === s)` of both loops of `myLoop`,
on the cell `c` of the edge and its neighbour `p` across the edge. -/
def Hit (c p : Option Nat) (s : Nat) : Prop :=
  c = some plus ∧ (p = some plus ∨ p = some s)

instance (c p : Option Nat) (s : Nat) : Decidable (Hit c p s) := by
  unfold Hit; infer_instance

/-- The first and the last line of the rendering of a rectangle of width `w`:
`+`, then `w - 2` times `-`, then `+`. -/
def edgeLine (w : Nat) : List Nat :=
  [plus] ++ List.replicate (w - 2) minus ++ [plus]

/-- An interior line of the rendering of a rectangle of width `w`: `|`, then
`w - 2` spaces, then `|`. -/
def innerLine (w : Nat) : List Nat :=
  [bar] ++ List.replicate (w - 2) space ++ [bar]

/-- The `h` lines of the canonical rendering of a `w` by `h` rectangle. -/
def canonicalLines (w h : Nat) : List (List Nat) :=
  [edgeLine w] ++ List.replicate (h - 2) (innerLine w) ++ [edgeLine w]

/-- The text made of the given lines, each followed by a line feed. -/
def unlines (lines : List (List Nat)) : List Nat :=
  (lines.map (fun l => l ++ [newline])).flatten

/-- The canonical rendering of a `w` by `h` rectangle. -/
def canonical (w h : Nat) : List Nat :=
  unlines (canonicalLines w h)

/-- The elements a loop body yields; none when it throws. -/
def yields {α : Type} (e : Except Err (List α)) : List α :=
  match e with
  | .ok out => out
  | .error _ => []

/-- The positions `(i, j)` of the lines of a figure, line after line from the
top and from left to right in each line. -/
def positions (figure : List (List Nat)) : List (Nat × Nat) :=
  (List.range figure.length).flatMap fun i =>
    (List.range (lineLength figure i)).map fun j => (i, j)

/-- The order of the scan: an earlier line, or the same line and further left. -/
def lexLt (a b : Nat × Nat) : Prop :=
  a.1 < b.1 ∨ (a.1 = b.1 ∧ a.2 < b.2)

/-- The first example of the documentation of `getFigureRectangles`: a wide
rectangle above two narrower ones. -/
def exampleTee : List Nat :=
  units ("+------------+\n" ++
         "|            |\n" ++
         "|            |\n" ++
         "|            |\n" ++
         "+------+-----+\n" ++
         "|      |     |\n" ++
         "|      |     |\n" ++
         "+------+-----+\n")

/-- The second example of the documentation of `getFigureRectangles`: a small
rectangle on top of a wide one. -/
def exampleStacked : List Nat :=
  units ("   +-----+     \n" ++
         "   |     |     \n" ++
         "+--+-----+----+\n" ++
         "|             |\n" ++
         "|             |\n" ++
         "+-------------+\n")

/-- The cell at line `i` and column `j` of a figure of height `H` made of
rectangles side by side whose dividers stand at the columns `C`: on the first
and the last line `+` at a divider and `-` elsewhere, on the other lines `|` at
a divider and a space elsewhere. -/
def boxCell (C : Nat → Bool) (H i j : Nat) : Nat :=
  if i = 0 ∨ i + 1 = H then (if C j = true then plus else minus)
  else (if C j = true then bar else space)

/-- The lines `F` are those of the text of a figure of width `W` and height `H`
made of rectangles side by side, each line followed by a line feed: `H` lines of
`W` cells each, as `boxCell` gives them for the divider columns `C`, and the
empty string after the last line feed. -/
structure BoxRow (F : List (List Nat)) (W H : Nat) (C : Nat → Bool) : Prop where
  two_le_width : 2 ≤ W
  two_le_height : 2 ≤ H
  length_eq : F.length = H + 1
  last : F[H]? = some []
  row : ∀ i, i < H → ∃ l, F[i]? = some l ∧ l.length = W ∧
    ∀ j, j < W → l[j]? = some (boxCell C H i j)

/-- The first and the last line of two rectangles of widths `w1` and `w2`
that share a divider. -/
def edgeLine2 (w1 w2 : Nat) : List Nat :=
  [plus] ++ List.replicate (w1 - 2) minus ++ [plus] ++ List.replicate (w2 - 2) minus ++ [plus]

/-- An interior line of two rectangles of widths `w1` and `w2` that share a
divider. -/
def innerLine2 (w1 w2 : Nat) : List Nat :=
  [bar] ++ List.replicate (w1 - 2) space ++ [bar] ++ List.replicate (w2 - 2) space ++ [bar]

/-- The `h` lines of the figure of two rectangles of widths `w1` and `w2` and
height `h` that share a divider. -/
def abuttingLines (w1 w2 h : Nat) : List (List Nat) :=
  [edgeLine2 w1 w2] ++ List.replicate (h - 2) (innerLine2 w1 w2) ++ [edgeLine2 w1 w2]

/-- The text of the figure of two rectangles of widths `w1` and `w2` and height
`h` that share a divider. -/
def abutting (w1 w2 h : Nat) : List Nat :=
  unlines (abuttingLines w1 w2 h)

/-- A 3 by 5 rectangle whose middle line is empty. -/
def exampleGap : List Nat :=
  units ("+-+\n" ++
         "| |\n" ++
         "\n" ++
         "| |\n" ++
         "+-+\n")

/-- The lines with `n` spaces appended to the end of line `k`. -/
def padLine : List (List Nat) → Nat → Nat → List (List Nat)
  | [], _, _ => []
  | l :: ls, 0, n => (l ++ List.replicate n space) :: ls
  | l :: ls, k + 1, n => l :: padLine ls k n

/-- The lines `F2` are the lines `F`, each with some spaces appended to its end. -/
def Padded (F F2 : List (List Nat)) : Prop :=
  List.Forall₂ (fun l l2 => ∃ m, l2 = l ++ List.replicate m space) F F2

/-- A 3 by 5 rectangle whose middle line stops after its first cell. -/
def exampleRagged : List Nat :=
  units ("+-+\n" ++
         "| |\n" ++
         "|\n" ++
         "| |\n" ++
         "+-+\n")

/-- The text `exampleRagged` with two spaces appended to its middle line. -/
def examplePadded : List Nat :=
  units ("+-+\n" ++
         "| |\n" ++
         "|  \n" ++
         "| |\n" ++
         "+-+\n")

/-- The text `exampleRagged` with two spaces appended to its first line. -/
def examplePaddedTop : List Nat :=
  units ("+-+  \n" ++
         "| |\n" ++
         "|\n" ++
         "| |\n" ++
         "+-+\n")

/-- The position `(i, j)` is a top-left-corner candidate: its cell is `+`, the
cell directly below is `|` or `+`, the cell directly to the right is `-` or `+`. -/
def IsCandidate (figure : List (List Nat)) (i j : Nat) : Prop :=
  peek figure i j = some plus ∧
  (peek figure (i + 1) j = some bar ∨ peek figure (i + 1) j = some plus) ∧
  (peek figure i (j + 1) = some minus ∨ peek figure i (j + 1) = some plus)

instance (figure : List (List Nat)) (i j : Nat) : Decidable (IsCandidate figure i j) := by
  unfold IsCandidate; infer_instance

/-- The loops of `wrapText` as one recursion on the words not yet shifted, with
the line that is being built: when no word is left the line is yielded and both
loops end; when the test `line.length + words[0].length < columns` of the inner
loop holds, the next word is appended after a space; otherwise the line is
yielded and the outer loop starts a line with the next word. -/
def wrapLoop (columns : Int) : List Nat → List (List Nat) → List (List Nat)
  | ln, [] => [ln]
  | ln, w :: ws =>
    if ((ln.length + w.length : Nat) : Int) < columns then
      wrapLoop columns (ln ++ space :: w) ws
    else ln :: wrapLoop columns w ws

/-- The sequence `wrapText(text, columns)` yields. -/
def wrapText (text : List Nat) (columns : Int) : List (List Nat) :=
  match split space text with
  | [] => []
  | w :: ws => wrapLoop columns w ws

/-- The method `join` of an array of strings. -/
def jsJoin (sep : List Nat) : List (List Nat) → List Nat
  | [] => []
  | [a] => a
  | a :: b :: rest => a ++ sep ++ jsJoin sep (b :: rest)

/-- The text of the examples of the documentation of `wrapText`. -/
def exampleSentence : List Nat :=
  units "The String global object is a constructor for strings, or a sequence of characters."

/-- A number as `parseBankAccount` can return it: a natural number that a
double holds exactly, `NaN`, or a number of more than 15 digits, whose rounding
to a double the model does not compute. -/
inductive JsNumber where
  | int (n : Nat)
  | nan
  | float
  deriving DecidableEq, Repr

/-- The line terminators, which `.` of a regular expression does not match. -/
def isLineTerminator (c : Nat) : Bool :=
  c == 10 || c == 13 || c == 0x2028 || c == 0x2029

/-- The matches of `/.../g` in a string, from left to right: three code units
in a row none of which is a line terminator; after a match the search goes on
behind it, after a failure one code unit further. -/
def matchTriples : List Nat → List (List Nat)
  | a :: b :: c :: rest =>
    if isLineTerminator a || isLineTerminator b || isLineTerminator c then
      matchTriples (b :: c :: rest)
    else [a, b, c] :: matchTriples rest
  | _ => []

/-- The call `item.match(/.../g)`: `none` is `null`, returned when nothing
matches. -/
def jsMatch (item : List Nat) : Option (List (List Nat)) :=
  match matchTriples item with
  | [] => none
  | ms => some ms

/-- The table `numbers` of `parseBankAccount`: the three rows of a glyph, one
after the other, and its digit. -/
def numbers : List (List Nat × Nat) :=
  [(units " _ | ||_|", 0),
   (units "     |  |", 1),
   (units " _  _||_ ", 2),
   (units " _  _| _|", 3),
   (units "   |_|  |", 4),
   (units " _ |_  _|", 5),
   (units " _ |_ |_|", 6),
   (units " _   |  |", 7),
   (units " _ |_||_|", 8),
   (units " _ |_| _|", 9)]

/-- What `numbers[key]` can be: a digit of the table, `Object.prototype` for the
key `__proto__`, or `undefined`. -/
inductive Entry where
  | digit (d : Nat)
  | proto
  | undefined
  deriving DecidableEq, Repr

/-- The read `numbers[key]`. -/
def lookupNumber (key : List Nat) : Entry :=
  match numbers.find? (fun e => e.1 == key) with
  | some e => .digit e.2
  | none => if key = units "__proto__" then .proto else .undefined

/-- A chunk as a string in a concatenation: `undefined` becomes the text
`undefined`. -/
def chunkText : Option (List Nat) → List Nat
  | some s => s
  | none => units "undefined"

/-- An element of the array as `join` writes it: a digit of the table (below
10) as its character, `undefined` as nothing, `Object.prototype` as
`[object Object]`. -/
def entryText : Entry → List Nat
  | .digit d => [48 + d]
  | .proto => units "[object Object]"
  | .undefined => []

/-- The method `map` of an array with a callback of the element and its index,
from index `i` on. -/
def mapWithIndex {α β : Type} (f : α → Nat → β) : Nat → List α → List β
  | _, [] => []
  | i, a :: l => f a i :: mapWithIndex f (i + 1) l

/-- The value of a string of decimal digits. -/
def decimalValue (s : List Nat) : Nat :=
  s.foldl (fun acc c => 10 * acc + (c - 48)) 0

/-- The unary `+` on the joined string, which holds decimal digits and copies
of `[object Object]` only: 0 for the empty string, `NaN` when a code unit is not
a digit, else the value of the digits. -/
def toNumber (s : List Nat) : JsNumber :=
  if s = [] then .int 0
  else if s.all (fun c => decide (48 ≤ c ∧ c ≤ 57)) = true then
    (if s.length ≤ 15 then .int (decimalValue s) else .float)
  else .nan

/-- The function `parseBankAccount(bankAccount)`. -/
def parseBankAccount (bankAccount : List Nat) : Except Err JsNumber :=
  let res := ((split newline bankAccount).take 3).map jsMatch
  match res[0]? with
  | some (some r0) =>
    match res[1]?, res[2]? with
    | some (some r1), some (some r2) =>
      .ok (toNumber (mapWithIndex
        (fun item index =>
          entryText (lookupNumber (item ++ chunkText r1[index]? ++ chunkText r2[index]?)))
        0 r0).flatten)
    | _, _ => .error .typeError
  | _ => .error .typeError

/-- The glyph of a digit: its key in the table `numbers`. -/
def glyph (d : Nat) : List Nat :=
  match numbers.find? (fun e => e.2 == d) with
  | some e => e.1
  | none => []

/-- Row `k` (0, 1 or 2) of the glyph of a digit. -/
def glyphRow (k d : Nat) : List Nat :=
  ((glyph d).drop (3 * k)).take 3

/-- Row `k` of an account number: row `k` of the glyphs of its digits, one
after the other. -/
def accountRow (k : Nat) (ds : List Nat) : List Nat :=
  (ds.map (glyphRow k)).flatten

/-- The text of an account number: its three rows, each followed by a line
feed. -/
def renderAccount (ds : List Nat) : List Nat :=
  unlines [accountRow 0 ds, accountRow 1 ds, accountRow 2 ds]

/-- The number whose decimal digits are `ds`. -/
def digitsValue (ds : List Nat) : Nat :=
  ds.foldl (fun acc d => 10 * acc + d) 0

/-- The string `_ranks` of `getPokerHandRank`. -/
def pokerRanks : List Nat := units "A234567891JQKA"

/-- The method `indexOf` of an array, and of a string for a search string of
one code unit: the first index of `x`, or -1. -/
def indexOfInt {α : Type} [DecidableEq α] : List α → α → Int
  | [], _ => -1
  | y :: ys, x =>
    if y = x then 0 else if indexOfInt ys x < 0 then -1 else indexOfInt ys x + 1

/-- The method `lastIndexOf` of a string for a search string of one code unit:
the last index of `x`, or -1. -/
def lastIndexOfInt {α : Type} [DecidableEq α] : List α → α → Int
  | [], _ => -1
  | y :: ys, x =>
    if 0 ≤ lastIndexOfInt ys x then lastIndexOfInt ys x + 1
    else if y = x then 0 else -1

/-- The call `_ranks.indexOf(a)` for `a = v[0]`: a string of one code unit, or
`undefined`, which is searched as the text `undefined` and not found. -/
def rankIndex : Option Nat → Int
  | some c => indexOfInt pokerRanks c
  | none => -1

/-- The call `_ranks.lastIndexOf(a)` for `a = v[0]`. -/
def rankLastIndex : Option Nat → Int
  | some c => lastIndexOfInt pokerRanks c
  | none => -1

/-- The string `v.slice(-1)`: the last code unit of `v`, or the empty string. -/
def lastUnit (v : List Nat) : List Nat :=
  v.drop (v.length - 1)

/-- The statement `count[i]++`. -/
def incrementAt : Nat → List Nat → List Nat
  | _, [] => []
  | 0, c :: cs => (c + 1) :: cs
  | i + 1, c :: cs => c :: incrementAt i cs

/-- The arrays that the loop of `get` fills: `quolities.values`,
`quolities.count` and `spines`. -/
structure Quolities where
  values : List (Option Nat)
  count : List Nat
  spines : List (List Nat)
  deriving DecidableEq, Repr

/-- One turn of the loop `for (let v of hand)` of `get`. -/
def getStep (q : Quolities) (v : List Nat) : Quolities :=
  let q1 : Quolities :=
    if indexOfInt q.values v[0]? < 0 then
      { q with values := q.values ++ [v[0]?], count := q.count ++ [1] }
    else
      { q with count := incrementAt (indexOfInt q.values v[0]?).toNat q.count }
  if indexOfInt q1.spines (lastUnit v) < 0 then
    { q1 with spines := q1.spines ++ [lastUnit v] }
  else q1

/-- The insertion of an element into a list sorted by `key`, before the first
element whose key is not smaller. -/
def insertBy {α : Type} (key : α → Int) (a : α) : List α → List α
  | [] => [a]
  | b :: l => if key a ≤ key b then a :: b :: l else b :: insertBy key a l

/-- The method `sort` of an array with the comparator
`(a, b) => key(a) - key(b)`: the stable sort by `key`. -/
def sortBy {α : Type} (key : α → Int) : List α → List α
  | [] => []
  | a :: l => insertBy key a (sortBy key l)

/-- The array `quolities.sorted` of `get`: the values sorted by their index in
`_ranks`, with a leading `A` moved to the end when `2` does not follow it. -/
def sortedValues (q : Quolities) : List (Option Nat) :=
  let sorted := sortBy rankIndex q.values
  if sorted[0]? = some (some 65) ∧ sorted[1]? ≠ some (some 50) then
    sorted.drop 1 ++ [some 65]
  else sorted

/-- The method `getCount(cnt)`. -/
def getCount (q : Quolities) (cnt : Nat) : Nat :=
  q.count.count cnt

/-- The method `isFlush()`. -/
def isFlush (q : Quolities) : Prop :=
  q.spines.length = 1

instance (q : Quolities) : Decidable (isFlush q) := by
  unfold isFlush; infer_instance

/-- The test of the loop of `isStraight()` at index `i`, negated: the entry `i`
follows the entry `i - 1` in `_ranks`. -/
def follows (sorted : List (Option Nat)) (i : Nat) : Prop :=
  rankIndex (sorted.getD (i - 1) none) + 1 = rankIndex (sorted.getD i none) ∨
  rankIndex (sorted.getD (i - 1) none) + 1 = rankLastIndex (sorted.getD i none)

instance (sorted : List (Option Nat)) (i : Nat) : Decidable (follows sorted i) := by
  unfold follows; infer_instance

/-- The method `isStraight()`. -/
def isStraight (q : Quolities) : Prop :=
  ¬ (sortedValues q).length < 5 ∧ ∀ i ∈ [1, 2, 3, 4], follows (sortedValues q) i

instance (q : Quolities) : Decidable (isStraight q) := by
  unfold isStraight; infer_instance

/-- The function `getPokerHandRank(hand)`, on an array of strings; the result is
the value of `PokerRank`. -/
def getPokerHandRank (hand : List (List Nat)) : Nat :=
  let q := hand.foldl getStep { values := [], count := [], spines := [] }
  if isFlush q ∧ isStraight q then 8
  else if getCount q 4 ≠ 0 then 7
  else if getCount q 3 ≠ 0 ∧ getCount q 2 ≠ 0 then 6
  else if isFlush q then 5
  else if isStraight q then 4
  else if getCount q 3 ≠ 0 then 3
  else if getCount q 2 = 2 then 2
  else if getCount q 2 ≠ 0 then 1
  else 0

/-- A card of the standard deck: a rank, numbered from the ace (0), the two
(1), ... to the ten (9), the jack (10), the queen (11) and the king (12), and
one of four suits. -/
structure Card where
  rank : Fin 13
  suit : Fin 4
  deriving DecidableEq, Repr

/-- The ranks as they are written: `A`, `2`, ..., `10`, `J`, `Q`, `K`. -/
def rankTexts : List (List Nat) :=
  [units "A", units "2", units "3", units "4", units "5", units "6", units "7",
    units "8", units "9", units "10", units "J", units "Q", units "K"]

/-- The suits as they are written: the code units of `♠`, `♥`, `♦` and `♣`. -/
def suitUnits : List Nat := units "♠♥♦♣"

/-- A card as a string: its rank followed by the character of its suit. -/
def Card.text (c : Card) : List Nat :=
  rankTexts.getD c.rank.val [] ++ [suitUnits.getD c.suit.val 0]

/-- The number of cards of rank `r` in a hand. -/
def rankCount (hand : List Card) (r : Fin 13) : Nat :=
  (hand.map Card.rank).count r

/-- All cards of the hand are of one suit. -/
def OneSuit (hand : List Card) : Prop :=
  ∃ s : Fin 4, ∀ c ∈ hand, c.suit = s

/-- The ranks of the hand are, in some order, five ranks in a row that start at
one of the ace, the two, ..., the ten; after the king comes the ace, so the run
from the ten ends with the ace, and no run goes on beyond it. -/
def Consecutive (hand : List Card) : Prop :=
  ∃ s : Fin 10, (hand.map fun c => c.rank.val).Perm ((List.range' s.val 5).map (· % 13))

/-- Some rank has exactly `k` cards in the hand. -/
def OfAKind (hand : List Card) (k : Nat) : Prop :=
  ∃ r : Fin 13, rankCount hand r = k

/-- Two ranks have exactly two cards each in the hand. -/
def TwoPairs (hand : List Card) : Prop :=
  ∃ r r2 : Fin 13, r ≠ r2 ∧ rankCount hand r = 2 ∧ rankCount hand r2 = 2

instance (hand : List Card) : Decidable (OneSuit hand) := by
  unfold OneSuit; infer_instance

instance (hand : List Card) : Decidable (Consecutive hand) := by
  unfold Consecutive; infer_instance

instance (hand : List Card) (k : Nat) : Decidable (OfAKind hand k) := by
  unfold OfAKind; infer_instance

instance (hand : List Card) : Decidable (TwoPairs hand) := by
  unfold TwoPairs; infer_instance

/-- The rank the standard rules give a hand of five cards, as a value of
`PokerRank`: the first that applies of straight flush (8), four of a kind (7),
full house (6), flush (5), straight (4), three of a kind (3), two pairs (2), one
pair (1), and else high card (0). -/
def standardRank (hand : List Card) : Nat :=
  if OneSuit hand ∧ Consecutive hand then 8
  else if OfAKind hand 4 then 7
  else if OfAKind hand 3 ∧ OfAKind hand 2 then 6
  else if OneSuit hand then 5
  else if Consecutive hand then 4
  else if OfAKind hand 3 then 3
  else if TwoPairs hand then 2
  else if OfAKind hand 2 then 1
  else 0

/-- The character of a rank that `v[0]` reads: the first code unit of its text. -/
def rankUnit (r : Fin 13) : Nat :=
  (rankTexts.getD r.val []).headD 0

/-- The character of a suit. -/
def suitUnit (s : Fin 4) : Nat :=
  suitUnits.getD s.val 0

/-- What the loop of `get` has made of the strings `pre` it has gone through:
`values` holds each first code unit once, `count` holds next to it how often it
came, and `spines` holds each last code unit once. -/
def Tallied (q : Quolities) (pre : List (List Nat)) : Prop :=
  q.values.Nodup ∧ (∀ x, x ∈ q.values ↔ x ∈ pre.map (fun v => v[0]?)) ∧
  q.count = q.values.map (fun x => (pre.map (fun v => v[0]?)).count x) ∧
  q.count.sum = pre.length ∧
  q.spines.Nodup ∧ (∀ y, y ∈ q.spines ↔ y ∈ pre.map lastUnit)

/-- The hands of the examples of the documentation with the ranks the
documentation gives them. -/
def documentedHands : List (List (List Nat) × Nat) :=
  [([units "4♥", units "5♥", units "6♥", units "7♥", units "8♥"], 8),
   ([units "A♠", units "4♠", units "3♠", units "5♠", units "2♠"], 8),
   ([units "4♣", units "4♦", units "4♥", units "4♠", units "10♥"], 7),
   ([units "4♣", units "4♦", units "5♦", units "5♠", units "5♥"], 6),
   ([units "4♣", units "5♣", units "6♣", units "7♣", units "Q♣"], 5),
   ([units "2♠", units "3♥", units "4♥", units "5♥", units "6♥"], 4),
   ([units "2♥", units "4♦", units "5♥", units "A♦", units "3♠"], 4),
   ([units "2♥", units "2♠", units "2♦", units "7♥", units "A♥"], 3),
   ([units "2♥", units "4♦", units "4♥", units "A♦", units "A♠"], 2),
   ([units "3♥", units "4♥", units "10♥", units "3♦", units "A♠"], 1),
   ([units "A♥", units "K♥", units "Q♥", units "2♦", units "3♠"], 0)]

/-- The hands of the examples of the documentation as cards, with the ranks the
documentation gives them. -/
def documentedCards : List (List Card × Nat) :=
  [([⟨3, 1⟩, ⟨4, 1⟩, ⟨5, 1⟩, ⟨6, 1⟩, ⟨7, 1⟩], 8),
   ([⟨0, 0⟩, ⟨3, 0⟩, ⟨2, 0⟩, ⟨4, 0⟩, ⟨1, 0⟩], 8),
   ([⟨3, 3⟩, ⟨3, 2⟩, ⟨3, 1⟩, ⟨3, 0⟩, ⟨9, 1⟩], 7),
   ([⟨3, 3⟩, ⟨3, 2⟩, ⟨4, 2⟩, ⟨4, 0⟩, ⟨4, 1⟩], 6),
   ([⟨3, 3⟩, ⟨4, 3⟩, ⟨5, 3⟩, ⟨6, 3⟩, ⟨11, 3⟩], 5),
   ([⟨1, 0⟩, ⟨2, 1⟩, ⟨3, 1⟩, ⟨4, 1⟩, ⟨5, 1⟩], 4),
   ([⟨1, 1⟩, ⟨3, 2⟩, ⟨4, 1⟩, ⟨0, 2⟩, ⟨2, 0⟩], 4),
   ([⟨1, 1⟩, ⟨1, 0⟩, ⟨1, 2⟩, ⟨6, 1⟩, ⟨0, 1⟩], 3),
   ([⟨1, 1⟩, ⟨3, 2⟩, ⟨3, 1⟩, ⟨0, 2⟩, ⟨0, 0⟩], 2),
   ([⟨2, 1⟩, ⟨3, 1⟩, ⟨9, 1⟩, ⟨2, 2⟩, ⟨0, 0⟩], 1),
   ([⟨0, 1⟩, ⟨12, 1⟩, ⟨11, 1⟩, ⟨1, 2⟩, ⟨2, 0⟩], 0)]

/-! ## Reads -/

theorem rowAt_eq_some_iff {figure : List (List Nat)} {i : Int} {l : List Nat} :
    rowAt figure i = some l ↔ 0 ≤ i ∧ figure[i.toNat]? = some l := by
  unfold rowAt
  by_cases h : i < 0
  · simp [h]
  · simp [h]; omega

theorem rowAt_inRange {figure : List (List Nat)} {i : Int}
    (h0 : 0 ≤ i) (h1 : i < figure.length) : ∃ l, rowAt figure i = some l := by
  have h2 : i.toNat < figure.length := by omega
  refine ⟨figure[i.toNat], ?_⟩
  rw [rowAt_eq_some_iff]
  exact ⟨h0, List.getElem?_eq_getElem h2⟩

theorem rowAt_some_inRange {figure : List (List Nat)} {i : Int} {l : List Nat}
    (h : rowAt figure i = some l) : 0 ≤ i ∧ i < figure.length := by
  rw [rowAt_eq_some_iff] at h
  obtain ⟨h0, h1⟩ := h
  have := (List.getElem?_eq_some_iff.1 h1).1
  exact ⟨h0, by omega⟩

theorem rowAt_natCast (figure : List (List Nat)) (i : Nat) :
    rowAt figure (i : Int) = figure[i]? := by
  simp [rowAt]

theorem charAt_natCast (l : List Nat) (j : Nat) : charAt l (j : Int) = l[j]? := by
  simp [charAt]

theorem charAt_some_inRange {l : List Nat} {j : Int} {c : Nat}
    (h : charAt l j = some c) : 0 ≤ j ∧ j < l.length := by
  unfold charAt at h
  by_cases hj : j < 0
  · simp [hj] at h
  · simp only [hj, if_false] at h
    have := (List.getElem?_eq_some_iff.1 h).1
    omega

theorem cellAt_of_rowAt {figure : List (List Nat)} {i : Int} {l : List Nat}
    (h : rowAt figure i = some l) (j : Int) : cellAt figure i j = .ok (peek figure i j) := by
  simp [cellAt, peek, h]

theorem cellAt_inRange {figure : List (List Nat)} {i : Int}
    (h0 : 0 ≤ i) (h1 : i < figure.length) (j : Int) :
    cellAt figure i j = .ok (peek figure i j) := by
  obtain ⟨l, hl⟩ := rowAt_inRange h0 h1
  exact cellAt_of_rowAt hl j

theorem peek_of_rowAt {figure : List (List Nat)} {i : Int} {l : List Nat}
    (h : rowAt figure i = some l) (j : Int) : peek figure i j = charAt l j := by
  simp [peek, h]

theorem truthy_some {r : Option (List Nat)} (h : truthy r = true) : ∃ l, r = some l := by
  cases r with
  | none => simp [truthy] at h
  | some l => exact ⟨l, rfl⟩

/-! ## One turn of each loop of `myLoop` -/

theorem loopRows_step {figure : List (List Nat)} {col d : Int} {s : Nat} {i : Int}
    (fuel : Nat) (h0 : 0 ≤ i) (h1 : i < figure.length) :
    loopRows figure col d s (fuel + 1) i =
      if Hit (peek figure i col) (peek figure i (col - d)) s then .ok (.ret (some i))
      else if peek figure i col = some space then .ok (.ret none)
      else loopRows figure col d s fuel (i + d) := by
  have hc : i < (figure.length : Int) ∧ i ≥ 0 := ⟨h1, h0⟩
  simp only [loopRows, hc, and_self, if_true, cellAt_inRange h0 h1, Hit]
  by_cases hp : peek figure i col = some plus
  · simp only [hp, if_true, true_and]
    split_ifs <;> simp_all
  · simp [hp]

theorem loopRows_exit {figure : List (List Nat)} {col d : Int} {s : Nat} {i : Int}
    (fuel : Nat) (h : ¬ (0 ≤ i ∧ i < figure.length)) :
    loopRows figure col d s (fuel + 1) i = .ok .done := by
  have hc : ¬ (i < (figure.length : Int) ∧ i ≥ 0) := fun hh => h ⟨hh.2, hh.1⟩
  simp only [loopRows, hc, if_false]

theorem loopCols_step {figure : List (List Nat)} {row d : Int} {s : Nat} {i : Int}
    {l a : List Nat} (fuel : Nat) (hl : rowAt figure row = some l)
    (ha : rowAt figure (row + d) = some a) (h0 : 0 ≤ i) (h1 : i < l.length) :
    loopCols figure row d s (fuel + 1) i =
      if Hit (peek figure row i) (peek figure (row + d) i) s then .ok (.ret (some i))
      else if peek figure row i = some space then .ok (.ret none)
      else loopCols figure row d s fuel (i + d) := by
  have hc : i < (l.length : Int) ∧ i ≥ 0 := ⟨h1, h0⟩
  simp only [loopCols, hl, hc, and_self, if_true, cellAt_of_rowAt hl, cellAt_of_rowAt ha, Hit]
  by_cases hp : peek figure row i = some plus
  · simp only [hp, if_true, true_and]
    split_ifs <;> simp_all
  · simp [hp]

theorem loopCols_exit {figure : List (List Nat)} {row d : Int} {s : Nat} {i : Int}
    {l : List Nat} (fuel : Nat) (hl : rowAt figure row = some l)
    (h : ¬ (0 ≤ i ∧ i < l.length)) :
    loopCols figure row d s (fuel + 1) i = .ok .done := by
  have hc : ¬ (i < (l.length : Int) ∧ i ≥ 0) := fun hh => h ⟨hh.2, hh.1⟩
  simp only [loopCols, hl, hc, if_false]

/-! ## What a loop of `myLoop` returns -/

theorem loopRows_ret_some {figure : List (List Nat)} {col d : Int} {s : Nat} :
    ∀ (fuel : Nat) (i p : Int), loopRows figure col d s fuel i = .ok (.ret (some p)) →
      ∃ n : Nat, p = i + n * d ∧
        (∀ k : Nat, k ≤ n → 0 ≤ i + k * d ∧ i + k * d < figure.length) ∧
        Hit (peek figure p col) (peek figure p (col - d)) s ∧
        ∀ k : Nat, k < n →
          ¬ Hit (peek figure (i + k * d) col) (peek figure (i + k * d) (col - d)) s ∧
          peek figure (i + k * d) col ≠ some space := by
  intro fuel
  induction fuel with
  | zero => intro i p h; simp [loopRows] at h
  | succ fuel ih =>
    intro i p h
    by_cases hr : 0 ≤ i ∧ i < figure.length
    · rw [loopRows_step fuel hr.1 hr.2] at h
      by_cases hh : Hit (peek figure i col) (peek figure i (col - d)) s
      · simp only [hh, if_true, Except.ok.injEq, Flow.ret.injEq, Option.some.injEq] at h
        subst h
        refine ⟨0, by simp, ?_, hh, ?_⟩
        · intro k hk
          have : k = 0 := by omega
          subst this
          simpa using hr
        · intro k hk; omega
      · simp only [hh, if_false] at h
        by_cases hs : peek figure i col = some space
        · simp [hs] at h
        · simp only [hs, if_false] at h
          obtain ⟨n, hp, hrange, hhit, hbefore⟩ := ih (i + d) p h
          refine ⟨n + 1, ?_, ?_, hhit, ?_⟩
          · rw [hp]; push_cast; ring
          · intro k hk
            cases k with
            | zero => simpa using hr
            | succ k =>
              have e : i + ((k + 1 : Nat) : Int) * d = i + d + (k : Int) * d := by
                push_cast; ring
              rw [e]
              exact hrange k (by omega)
          · intro k hk
            cases k with
            | zero => simpa using ⟨hh, hs⟩
            | succ k =>
              have e : i + ((k + 1 : Nat) : Int) * d = i + d + (k : Int) * d := by
                push_cast; ring
              rw [e]
              exact hbefore k (by omega)
    · rw [loopRows_exit fuel hr] at h
      simp at h

theorem loopCols_ret_some {figure : List (List Nat)} {row d : Int} {s : Nat}
    {l a : List Nat} (hl : rowAt figure row = some l) (ha : rowAt figure (row + d) = some a) :
    ∀ (fuel : Nat) (i p : Int), loopCols figure row d s fuel i = .ok (.ret (some p)) →
      ∃ n : Nat, p = i + n * d ∧
        (∀ k : Nat, k ≤ n → 0 ≤ i + k * d ∧ i + k * d < l.length) ∧
        Hit (peek figure row p) (peek figure (row + d) p) s ∧
        ∀ k : Nat, k < n →
          ¬ Hit (peek figure row (i + k * d)) (peek figure (row + d) (i + k * d)) s ∧
          peek figure row (i + k * d) ≠ some space := by
  intro fuel
  induction fuel with
  | zero => intro i p h; simp [loopCols] at h
  | succ fuel ih =>
    intro i p h
    by_cases hr : 0 ≤ i ∧ i < l.length
    · rw [loopCols_step fuel hl ha hr.1 hr.2] at h
      by_cases hh : Hit (peek figure row i) (peek figure (row + d) i) s
      · simp only [hh, if_true, Except.ok.injEq, Flow.ret.injEq, Option.some.injEq] at h
        subst h
        refine ⟨0, by simp, ?_, hh, ?_⟩
        · intro k hk
          have : k = 0 := by omega
          subst this
          simpa using hr
        · intro k hk; omega
      · simp only [hh, if_false] at h
        by_cases hs : peek figure row i = some space
        · simp [hs] at h
        · simp only [hs, if_false] at h
          obtain ⟨n, hp, hrange, hhit, hbefore⟩ := ih (i + d) p h
          refine ⟨n + 1, ?_, ?_, hhit, ?_⟩
          · rw [hp]; push_cast; ring
          · intro k hk
            cases k with
            | zero => simpa using hr
            | succ k =>
              have e : i + ((k + 1 : Nat) : Int) * d = i + d + (k : Int) * d := by
                push_cast; ring
              rw [e]
              exact hrange k (by omega)
          · intro k hk
            cases k with
            | zero => simpa using ⟨hh, hs⟩
            | succ k =>
              have e : i + ((k + 1 : Nat) : Int) * d = i + d + (k : Int) * d := by
                push_cast; ring
              rw [e]
              exact hbefore k (by omega)
    · rw [loopCols_exit fuel hl hr] at h
      simp at h

/-- A loop over the lines finds the first index, `n` steps on, at which the
test of the loop holds, when no cell before it is a space. -/
theorem loopRows_found {figure : List (List Nat)} {col d : Int} {s : Nat} :
    ∀ (n fuel : Nat) (i : Int), n < fuel →
      (∀ k : Nat, k ≤ n → 0 ≤ i + k * d ∧ i + k * d < figure.length) →
      (∀ k : Nat, k < n →
          ¬ Hit (peek figure (i + k * d) col) (peek figure (i + k * d) (col - d)) s ∧
          peek figure (i + k * d) col ≠ some space) →
      Hit (peek figure (i + n * d) col) (peek figure (i + n * d) (col - d)) s →
      loopRows figure col d s fuel i = .ok (.ret (some (i + n * d))) := by
  intro n
  induction n with
  | zero =>
    intro fuel i hf hrange _ hhit
    obtain ⟨fuel, rfl⟩ : ∃ f, fuel = f + 1 := ⟨fuel - 1, by omega⟩
    have hr := hrange 0 (le_refl 0)
    simp only [Nat.cast_zero, zero_mul, add_zero] at hr hhit ⊢
    rw [loopRows_step fuel hr.1 hr.2, if_pos hhit]
  | succ n ih =>
    intro fuel i hf hrange hbefore hhit
    obtain ⟨fuel, rfl⟩ : ∃ f, fuel = f + 1 := ⟨fuel - 1, by omega⟩
    have hr := hrange 0 (Nat.zero_le _)
    have hb := hbefore 0 (Nat.succ_pos _)
    simp only [Nat.cast_zero, zero_mul, add_zero] at hr hb
    have e : ∀ k : Nat, i + ((k + 1 : Nat) : Int) * d = i + d + (k : Int) * d := by
      intro k; push_cast; ring
    rw [loopRows_step fuel hr.1 hr.2, if_neg hb.1, if_neg hb.2, e n]
    apply ih fuel (i + d) (by omega)
    · intro k hk; rw [← e k]; exact hrange (k + 1) (by omega)
    · intro k hk; rw [← e k]; exact hbefore (k + 1) (by omega)
    · rw [← e n]; exact hhit

/-- A loop along a line finds the first index, `n` steps on, at which the test
of the loop holds, when no cell before it is a space. -/
theorem loopCols_found {figure : List (List Nat)} {row d : Int} {s : Nat}
    {l a : List Nat} (hl : rowAt figure row = some l) (ha : rowAt figure (row + d) = some a) :
    ∀ (n fuel : Nat) (i : Int), n < fuel →
      (∀ k : Nat, k ≤ n → 0 ≤ i + k * d ∧ i + k * d < l.length) →
      (∀ k : Nat, k < n →
          ¬ Hit (peek figure row (i + k * d)) (peek figure (row + d) (i + k * d)) s ∧
          peek figure row (i + k * d) ≠ some space) →
      Hit (peek figure row (i + n * d)) (peek figure (row + d) (i + n * d)) s →
      loopCols figure row d s fuel i = .ok (.ret (some (i + n * d))) := by
  intro n
  induction n with
  | zero =>
    intro fuel i hf hrange _ hhit
    obtain ⟨fuel, rfl⟩ : ∃ f, fuel = f + 1 := ⟨fuel - 1, by omega⟩
    have hr := hrange 0 (le_refl 0)
    simp only [Nat.cast_zero, zero_mul, add_zero] at hr hhit ⊢
    rw [loopCols_step fuel hl ha hr.1 hr.2, if_pos hhit]
  | succ n ih =>
    intro fuel i hf hrange hbefore hhit
    obtain ⟨fuel, rfl⟩ : ∃ f, fuel = f + 1 := ⟨fuel - 1, by omega⟩
    have hr := hrange 0 (Nat.zero_le _)
    have hb := hbefore 0 (Nat.succ_pos _)
    simp only [Nat.cast_zero, zero_mul, add_zero] at hr hb
    have e : ∀ k : Nat, i + ((k + 1 : Nat) : Int) * d = i + d + (k : Int) * d := by
      intro k; push_cast; ring
    rw [loopCols_step fuel hl ha hr.1 hr.2, if_neg hb.1, if_neg hb.2, e n]
    apply ih fuel (i + d) (by omega)
    · intro k hk; rw [← e k]; exact hrange (k + 1) (by omega)
    · intro k hk; rw [← e k]; exact hbefore (k + 1) (by omega)
    · rw [← e n]; exact hhit

/-! ## The loops of `myLoop` end, and read no line that is not there -/

theorem loopRows_ok_pos {figure : List (List Nat)} {col d : Int} {s : Nat} (hd : 0 < d) :
    ∀ (fuel : Nat) (i : Int), 0 < fuel → (figure.length : Int) - i < fuel →
      ∃ f, loopRows figure col d s fuel i = .ok f := by
  intro fuel
  induction fuel with
  | zero => intro i h; omega
  | succ fuel ih =>
    intro i _ hf
    by_cases hr : 0 ≤ i ∧ i < figure.length
    · rw [loopRows_step fuel hr.1 hr.2]
      split_ifs
      · exact ⟨_, rfl⟩
      · exact ⟨_, rfl⟩
      · exact ih (i + d) (by omega) (by omega)
    · exact ⟨_, loopRows_exit fuel hr⟩

theorem loopRows_ok_neg {figure : List (List Nat)} {col d : Int} {s : Nat} (hd : d < 0) :
    ∀ (fuel : Nat) (i : Int), 0 < fuel → i + 1 < fuel →
      ∃ f, loopRows figure col d s fuel i = .ok f := by
  intro fuel
  induction fuel with
  | zero => intro i h; omega
  | succ fuel ih =>
    intro i _ hf
    by_cases hr : 0 ≤ i ∧ i < figure.length
    · rw [loopRows_step fuel hr.1 hr.2]
      split_ifs
      · exact ⟨_, rfl⟩
      · exact ⟨_, rfl⟩
      · exact ih (i + d) (by omega) (by omega)
    · exact ⟨_, loopRows_exit fuel hr⟩

theorem loopCols_ok_pos {figure : List (List Nat)} {row d : Int} {s : Nat}
    {l a : List Nat} (hl : rowAt figure row = some l) (ha : rowAt figure (row + d) = some a)
    (hd : 0 < d) :
    ∀ (fuel : Nat) (i : Int), 0 < fuel → (l.length : Int) - i < fuel →
      ∃ f, loopCols figure row d s fuel i = .ok f := by
  intro fuel
  induction fuel with
  | zero => intro i h; omega
  | succ fuel ih =>
    intro i _ hf
    by_cases hr : 0 ≤ i ∧ i < l.length
    · rw [loopCols_step fuel hl ha hr.1 hr.2]
      split_ifs
      · exact ⟨_, rfl⟩
      · exact ⟨_, rfl⟩
      · exact ih (i + d) (by omega) (by omega)
    · exact ⟨_, loopCols_exit fuel hl hr⟩

theorem loopCols_ok_neg {figure : List (List Nat)} {row d : Int} {s : Nat}
    {l a : List Nat} (hl : rowAt figure row = some l) (ha : rowAt figure (row + d) = some a)
    (hd : d < 0) :
    ∀ (fuel : Nat) (i : Int), 0 < fuel → i + 1 < fuel →
      ∃ f, loopCols figure row d s fuel i = .ok f := by
  intro fuel
  induction fuel with
  | zero => intro i h; omega
  | succ fuel ih =>
    intro i _ hf
    by_cases hr : 0 ≤ i ∧ i < l.length
    · rw [loopCols_step fuel hl ha hr.1 hr.2]
      split_ifs
      · exact ⟨_, rfl⟩
      · exact ⟨_, rfl⟩
      · exact ih (i + d) (by omega) (by omega)
    · exact ⟨_, loopCols_exit fuel hl hr⟩

/-- The first loop of `myLoop` as `myLoop` runs it ends without an error. -/
theorem loopRows_ok {figure : List (List Nat)} {col d : Int} {s : Nat} (hd : d ≠ 0)
    (row : Int) : ∃ f, loopRows figure col d s (figure.length + 1) (row + d) = .ok f := by
  by_cases hr : 0 ≤ row + d ∧ row + d < figure.length
  · rcases lt_or_gt_of_ne hd with h | h
    · exact loopRows_ok_neg h _ _ (by omega) (by push_cast; omega)
    · exact loopRows_ok_pos h _ _ (by omega) (by push_cast; omega)
  · exact ⟨_, loopRows_exit _ hr⟩

/-- The second loop of `myLoop` as `myLoop` runs it ends without an error, on
a line that is there and next to a line that is there. -/
theorem loopCols_ok {figure : List (List Nat)} {row d : Int} {s : Nat}
    {l a : List Nat} (hl : rowAt figure row = some l) (ha : rowAt figure (row + d) = some a)
    (hd : d ≠ 0) (col : Int) :
    ∃ f, loopCols figure row d s (lineLength figure row + 1) (col + d) = .ok f := by
  have hlen : lineLength figure row = l.length := by simp [lineLength, hl]
  rw [hlen]
  by_cases hr : 0 ≤ col + d ∧ col + d < l.length
  · rcases lt_or_gt_of_ne hd with h | h
    · exact loopCols_ok_neg hl ha h _ _ (by omega) (by push_cast; omega)
    · exact loopCols_ok_pos hl ha h _ _ (by omega) (by push_cast; omega)
  · exact ⟨_, loopCols_exit _ hl hr⟩

/-! ## `myLoop` in terms of its loops -/

theorem myLoop_rows {figure : List (List Nat)} {row col d : Int} {s : Nat} (hd : d ≠ 0) :
    myLoop figure row col d 0 s =
      match loopRows figure col d s (figure.length + 1) (row + d) with
      | .error e => .error e
      | .ok (.ret v) => .ok v
      | .ok .done => .ok none := by
  simp only [myLoop, hd, ne_eq, not_false_eq_true, if_true, not_true_eq_false, false_and,
    if_false]

theorem myLoop_cols {figure : List (List Nat)} {row col d : Int} {s : Nat} :
    myLoop figure row col 0 d s =
      if d ≠ 0 ∧ truthy (rowAt figure (row + d)) = true then
        match loopCols figure row d s (lineLength figure row + 1) (col + d) with
        | .error e => .error e
        | .ok (.ret v) => .ok v
        | .ok .done => .ok none
      else .ok none := by
  simp only [myLoop, ne_eq, not_true_eq_false, if_false]

theorem myLoop_rows_ok {figure : List (List Nat)} {d : Int} (hd : d ≠ 0)
    (row col : Int) (s : Nat) : ∃ v, myLoop figure row col d 0 s = .ok v := by
  rw [myLoop_rows hd]
  obtain ⟨f, hf⟩ := @loopRows_ok figure col d s hd row
  rw [hf]
  cases f with
  | ret v => exact ⟨v, rfl⟩
  | done => exact ⟨none, rfl⟩

theorem myLoop_cols_ok {figure : List (List Nat)} {row : Int} {l : List Nat}
    (hl : rowAt figure row = some l) (col d : Int) (s : Nat) :
    ∃ v, myLoop figure row col 0 d s = .ok v := by
  rw [myLoop_cols]
  by_cases hc : d ≠ 0 ∧ truthy (rowAt figure (row + d)) = true
  · rw [if_pos hc]
    obtain ⟨a, ha⟩ := truthy_some hc.2
    obtain ⟨f, hf⟩ := loopCols_ok (s := s) hl ha hc.1 col
    rw [hf]
    cases f with
    | ret v => exact ⟨v, rfl⟩
    | done => exact ⟨none, rfl⟩
  · rw [if_neg hc]; exact ⟨none, rfl⟩

/-- What a trace along a column returns when it returns an index. -/
theorem myLoop_rows_some {figure : List (List Nat)} {row col d p : Int} {s : Nat}
    (hd : d ≠ 0) (h : myLoop figure row col d 0 s = .ok (some p)) :
    ∃ n : Nat, p = row + d + n * d ∧
      (∀ k : Nat, k ≤ n → 0 ≤ row + d + k * d ∧ row + d + k * d < figure.length) ∧
      Hit (peek figure p col) (peek figure p (col - d)) s ∧
      ∀ k : Nat, k < n →
        ¬ Hit (peek figure (row + d + k * d) col) (peek figure (row + d + k * d) (col - d)) s ∧
        peek figure (row + d + k * d) col ≠ some space := by
  rw [myLoop_rows hd] at h
  cases hf : loopRows figure col d s (figure.length + 1) (row + d) with
  | error e => rw [hf] at h; simp at h
  | ok f =>
    rw [hf] at h
    cases f with
    | done => simp at h
    | ret v =>
      simp only [Except.ok.injEq] at h
      subst h
      exact loopRows_ret_some _ _ _ hf

/-- What a trace along a line returns when it returns an index. -/
theorem myLoop_cols_some {figure : List (List Nat)} {row col d p : Int} {s : Nat}
    (h : myLoop figure row col 0 d s = .ok (some p)) :
    ∃ (l a : List Nat) (n : Nat), rowAt figure row = some l ∧
      rowAt figure (row + d) = some a ∧ a ≠ [] ∧ p = col + d + n * d ∧
      (∀ k : Nat, k ≤ n → 0 ≤ col + d + k * d ∧ col + d + k * d < l.length) ∧
      Hit (peek figure row p) (peek figure (row + d) p) s ∧
      ∀ k : Nat, k < n →
        ¬ Hit (peek figure row (col + d + k * d)) (peek figure (row + d) (col + d + k * d)) s ∧
        peek figure row (col + d + k * d) ≠ some space := by
  rw [myLoop_cols] at h
  by_cases hc : d ≠ 0 ∧ truthy (rowAt figure (row + d)) = true
  · rw [if_pos hc] at h
    obtain ⟨a, ha⟩ := truthy_some hc.2
    have hne : a ≠ [] := by
      intro e; rw [ha, e] at hc; simp [truthy] at hc
    cases hl : rowAt figure row with
    | none =>
      have : loopCols figure row d s (lineLength figure row + 1) (col + d) =
          .error .typeError := by simp [loopCols, hl]
      rw [this] at h; simp at h
    | some l =>
      cases hf : loopCols figure row d s (lineLength figure row + 1) (col + d) with
      | error e => rw [hf] at h; simp at h
      | ok f =>
        rw [hf] at h
        cases f with
        | done => simp at h
        | ret v =>
          simp only [Except.ok.injEq] at h
          subst h
          obtain ⟨n, hn⟩ := loopCols_ret_some hl ha _ _ _ hf
          exact ⟨l, a, n, rfl, ha, hne, hn⟩
  · rw [if_neg hc] at h; simp at h

/-! ## The validator `rec` -/

/-- The four traces behind a rectangle that `rec` returns. -/
theorem rec_some {figure : List (List Nat)} {row col : Int} {r : Rect}
    (h : rec figure row col = .ok (some r)) :
    ∃ column rowumn : Int,
      myLoop figure row col 0 1 bar = .ok (some column) ∧
      myLoop figure row column 1 0 minus = .ok (some rowumn) ∧
      myLoop figure rowumn column 0 (-1) bar = .ok (some col) ∧
      myLoop figure rowumn col (-1) 0 minus = .ok (some row) ∧
      r = { width := column - col + 1, height := rowumn - row + 1 } := by
  unfold rec at h
  cases h1 : myLoop figure row col 0 1 bar with
  | error e => rw [h1] at h; simp at h
  | ok v1 =>
    cases v1 with
    | none => rw [h1] at h; simp at h
    | some column =>
      rw [h1] at h
      simp only at h
      cases h2 : myLoop figure row column 1 0 minus with
      | error e => rw [h2] at h; simp at h
      | ok v2 =>
        cases v2 with
        | none => rw [h2] at h; simp at h
        | some rowumn =>
          rw [h2] at h
          simp only at h
          cases h3 : myLoop figure rowumn column 0 (-1) bar with
          | error e => rw [h3] at h; simp at h
          | ok v3 =>
            cases v3 with
            | none => rw [h3] at h; simp at h
            | some column2 =>
              rw [h3] at h
              simp only at h
              cases h4 : myLoop figure rowumn column2 (-1) 0 minus with
              | error e => rw [h4] at h; simp at h
              | ok v4 =>
                cases v4 with
                | none => rw [h4] at h; simp at h
                | some rowumn2 =>
                  rw [h4] at h
                  simp only at h
                  by_cases hc : rowumn2 = row ∧ column2 = col
                  · rw [if_pos hc] at h
                    simp only [Except.ok.injEq, Option.some.injEq] at h
                    obtain ⟨rfl, rfl⟩ := hc
                    exact ⟨column, rowumn, rfl, h2, h3, h4, h.symm⟩
                  · rw [if_neg hc] at h; simp at h

/-- The rectangle `rec` returns when its four traces close the loop. -/
theorem rec_of_traces {figure : List (List Nat)} {row col column rowumn : Int}
    (h1 : myLoop figure row col 0 1 bar = .ok (some column))
    (h2 : myLoop figure row column 1 0 minus = .ok (some rowumn))
    (h3 : myLoop figure rowumn column 0 (-1) bar = .ok (some col))
    (h4 : myLoop figure rowumn col (-1) 0 minus = .ok (some row)) :
    rec figure row col =
      .ok (some { width := column - col + 1, height := rowumn - row + 1 }) := by
  simp [rec, h1, h2, h3, h4]

/-- On a line that is there `rec` reads no line that is not there and its loops
end: it returns a rectangle or `false`. -/
theorem rec_ok {figure : List (List Nat)} {row : Int} {l : List Nat}
    (hl : rowAt figure row = some l) (col : Int) : ∃ r, rec figure row col = .ok r := by
  unfold rec
  obtain ⟨v1, h1⟩ := myLoop_cols_ok hl col 1 bar
  rw [h1]
  cases v1 with
  | none => exact ⟨none, rfl⟩
  | some column =>
    obtain ⟨v2, h2⟩ := @myLoop_rows_ok figure 1 (by decide) row column minus
    simp only [h2]
    cases v2 with
    | none => exact ⟨none, rfl⟩
    | some rowumn =>
      obtain ⟨n, hn, hrange, -, -⟩ := myLoop_rows_some (by decide) h2
      have hin := hrange n (le_refl n)
      rw [← hn] at hin
      obtain ⟨l2, hl2⟩ := rowAt_inRange hin.1 hin.2
      obtain ⟨v3, h3⟩ := myLoop_cols_ok hl2 column (-1) bar
      simp only [h3]
      cases v3 with
      | none => exact ⟨none, rfl⟩
      | some column2 =>
        obtain ⟨v4, h4⟩ :=
          @myLoop_rows_ok figure (-1) (by decide) rowumn column2 minus
        simp only [h4]
        cases v4 with
        | none => exact ⟨none, rfl⟩
        | some rowumn2 =>
          simp only
          split_ifs
          · exact ⟨_, rfl⟩
          · exact ⟨_, rfl⟩

/-! ## Lists of the shape `a, b, ..., b, c` and the renderer -/

theorem sandwich_getElem? {α : Type} (a b c : α) (n k : Nat) :
    ([a] ++ List.replicate n b ++ [c])[k]? =
      if k = 0 then some a else if k ≤ n then some b
      else if k = n + 1 then some c else none := by
  cases k with
  | zero => simp
  | succ k =>
    simp only [List.singleton_append, List.cons_append, List.getElem?_cons_succ]
    by_cases h1 : k < n
    · rw [List.getElem?_append_left (by simpa using h1)]
      have h2 : k + 1 ≤ n := h1
      simp [List.getElem?_replicate, h1, h2]
    · rw [List.getElem?_append_right (by simpa using h1)]
      by_cases h2 : k = n
      · subst h2
        have h5 : ([] ++ List.replicate k b).length = k := by simp
        rw [h5]; simp
      · have h3 : k - n = (k - n - 1) + 1 := by omega
        have h4 : ¬ (k + 1 ≤ n) := by omega
        have h5 : ([] ++ List.replicate n b).length = n := by simp
        rw [h5, h3]; simp [h2, h4]

theorem flatten_replicate_singleton {α : Type} (x : α) (n : Nat) :
    (List.replicate n [x]).flatten = List.replicate n x := by
  induction n with
  | zero => rfl
  | succ n ih => simp [List.replicate_succ, ih]

theorem unlines_append (xs ys : List (List Nat)) :
    unlines (xs ++ ys) = unlines xs ++ unlines ys := by
  simp [unlines]

theorem unlines_replicate (n : Nat) (l : List Nat) :
    unlines (List.replicate n l) = (List.replicate n (l ++ [newline])).flatten := by
  simp [unlines]

theorem length_unlines (w : Nat) (lines : List (List Nat))
    (h : ∀ l ∈ lines, l.length = w) : (unlines lines).length = lines.length * (w + 1) := by
  induction lines with
  | nil => simp [unlines]
  | cons l ls ih =>
    have h1 : l.length = w := h l (List.mem_cons_self _ _)
    have h2 := ih (fun x hx => h x (List.mem_cons_of_mem _ hx))
    have e : unlines (l :: ls) = l ++ [newline] ++ unlines ls := by simp [unlines]
    rw [e]
    simp only [List.length_append, List.length_cons, List.length_nil, h1, h2]
    ring

theorem length_edgeLine {w : Nat} (hw : 2 ≤ w) : (edgeLine w).length = w := by
  simp [edgeLine]; omega

theorem length_innerLine {w : Nat} (hw : 2 ≤ w) : (innerLine w).length = w := by
  simp [innerLine]; omega

theorem length_canonicalLines {h : Nat} (hh : 2 ≤ h) (w : Nat) :
    (canonicalLines w h).length = h := by
  simp [canonicalLines]; omega

theorem mem_canonicalLines {w h : Nat} {l : List Nat} (hl : l ∈ canonicalLines w h) :
    l = edgeLine w ∨ l = innerLine w := by
  simp only [canonicalLines, List.mem_append, List.mem_singleton, List.mem_replicate] at hl
  rcases hl with (h1 | h1) | h1
  · exact Or.inl h1
  · exact Or.inr h1.2
  · exact Or.inl h1

theorem canonicalLines_getElem? (w h k : Nat) :
    (canonicalLines w h)[k]? =
      if k = 0 then some (edgeLine w) else if k ≤ h - 2 then some (innerLine w)
      else if k = h - 2 + 1 then some (edgeLine w) else none :=
  sandwich_getElem? _ _ _ _ _

/-- The renderer on a rectangle of width and height at least 2. -/
theorem getFigure_eq {w h : Nat} (hw : 2 ≤ w) (hh : 2 ≤ h) :
    getFigure { width := w, height := h } = .ok (canonical w h) := by
  have h1 : ¬ ((w : Int) - 2 < 0) := by omega
  have h2 : ¬ ((h : Int) - 2 < 0) := by omega
  have e1 : ((w : Int) - 2).toNat = w - 2 := by omega
  have e2 : ((h : Int) - 2).toNat = h - 2 := by omega
  simp only [getFigure, jsRepeat, h1, h2, if_false, e1, e2, flatten_replicate_singleton]
  simp only [canonical, canonicalLines, unlines_append, unlines_replicate, edgeLine, innerLine]
  simp [unlines]

theorem getFigure_ok {r : Rect} (hw : 2 ≤ r.width) (hh : 2 ≤ r.height) :
    ∃ block, getFigure r = .ok block := by
  obtain ⟨w, h⟩ := r
  simp only at hw hh
  obtain ⟨w, rfl⟩ := Int.eq_ofNat_of_zero_le (by omega : 0 ≤ w)
  obtain ⟨h, rfl⟩ := Int.eq_ofNat_of_zero_le (by omega : 0 ≤ h)
  exact ⟨_, getFigure_eq (by omega) (by omega)⟩

/-! ## The scan -/

theorem forUp_eq {α : Type} (body : Nat → Except Err (List α)) :
    ∀ (n start : Nat), (∀ k, start ≤ k → k < start + n → ∃ out, body k = .ok out) →
      forUp body n start = .ok ((List.range' start n).flatMap fun k => yields (body k)) := by
  intro n
  induction n with
  | zero => intro start _; simp [forUp]
  | succ n ih =>
    intro start h
    obtain ⟨out, ho⟩ := h start (le_refl _) (by omega)
    have hrest := ih (start + 1) (fun k h1 h2 => h k (by omega) (by omega))
    simp [forUp, ho, hrest, List.range'_succ, yields]

/-- The test of the scan loop, on a line that is there. -/
theorem isCandidate_eq {figure : List (List Nat)} {i : Nat} {l : List Nat}
    (hl : rowAt figure i = some l) (j : Nat) :
    isCandidate figure i j = .ok (decide (peek figure i j = some plus ∧
      (peek figure (i + 1) j = some bar ∨ peek figure (i + 1) j = some plus) ∧
      (peek figure i (j + 1) = some minus ∨ peek figure i (j + 1) = some plus))) := by
  unfold isCandidate
  rw [cellAt_of_rowAt hl, cellAt_of_rowAt hl]
  simp only
  by_cases hc : peek figure i j = some plus ∧ truthy (rowAt figure (i + 1)) = true
  · obtain ⟨a, ha⟩ := truthy_some hc.2
    rw [if_pos hc, cellAt_of_rowAt ha]
    simp only
    split_ifs with hb
    · simp [hc.1, hb]
    · simp [hb]
  · rw [if_neg hc]
    have : ¬ (peek figure i j = some plus ∧
        (peek figure (i + 1) j = some bar ∨ peek figure (i + 1) j = some plus) ∧
        (peek figure i (j + 1) = some minus ∨ peek figure i (j + 1) = some plus)) := by
      rintro ⟨h1, h2, -⟩
      apply hc
      refine ⟨h1, ?_⟩
      cases ha : rowAt figure (i + 1) with
      | none => simp [peek, ha] at h2
      | some a =>
        cases a with
        | nil => simp [peek, ha, charAt] at h2
        | cons x xs => rfl
    simp [this]

/-- A rectangle that `rec` returns has width and height at least 2. -/
theorem rec_dims {figure : List (List Nat)} {row col : Int} {r : Rect}
    (h : rec figure row col = .ok (some r)) : 2 ≤ r.width ∧ 2 ≤ r.height := by
  obtain ⟨column, rowumn, h1, h2, -, -, rfl⟩ := rec_some h
  obtain ⟨-, -, n, -, -, -, hn, -⟩ := myLoop_cols_some h1
  obtain ⟨m, hm, -⟩ := myLoop_rows_some (by decide) h2
  simp only
  constructor <;> omega

theorem scanCell_ok {figure : List (List Nat)} {i : Nat} {l : List Nat}
    (hl : rowAt figure i = some l) (j : Nat) : ∃ out, scanCell figure i j = .ok out := by
  unfold scanCell
  rw [isCandidate_eq hl]
  split
  · rename_i e he; simp at he
  · exact ⟨_, rfl⟩
  · obtain ⟨r, hr⟩ := rec_ok hl (j : Int)
    rw [hr]
    cases r with
    | none => exact ⟨_, rfl⟩
    | some r =>
      obtain ⟨hw, hh⟩ := rec_dims hr
      obtain ⟨b, hb⟩ := getFigure_ok hw hh
      simp only [hb]
      exact ⟨_, rfl⟩

/-- What the body of the scan yields at `(i, j)`: nothing, or one block, the
rendering of the rectangle `rec(i, j)` returns, when the test of the scan holds. -/
theorem scanCell_yields (figure : List (List Nat)) (i j : Nat) :
    yields (scanCell figure i j) = [] ∨
      ∃ r block, isCandidate figure i j = .ok true ∧ rec figure i j = .ok (some r) ∧
        getFigure r = .ok block ∧ yields (scanCell figure i j) = [((i, j), block)] := by
  unfold scanCell
  cases hc : isCandidate figure i j with
  | error e => left; rfl
  | ok c =>
    cases c with
    | false => left; rfl
    | true =>
      cases hr : rec figure i j with
      | error e => left; rfl
      | ok r =>
        cases r with
        | none => left; rfl
        | some r =>
          cases hb : getFigure r with
          | error e => left; simp [hb, yields]
          | ok b => right; exact ⟨r, b, rfl, rfl, hb, by simp [hb, yields]⟩

theorem scanRow_eq {figure : List (List Nat)} {i : Nat} {l : List Nat}
    (hl : rowAt figure i = some l) :
    scanRow figure i =
      .ok ((List.range (lineLength figure i)).flatMap fun j => yields (scanCell figure i j)) := by
  have hlen : lineLength figure i = l.length := by simp [lineLength, hl]
  simp only [scanRow, hl, hlen]
  rw [forUp_eq _ _ _ (fun k _ _ => scanCell_ok hl k), List.range_eq_range']

theorem scan_eq (figure : List (List Nat)) :
    scan figure =
      .ok ((positions figure).flatMap fun p => yields (scanCell figure p.1 p.2)) := by
  have hrow : ∀ k, 0 ≤ k → k < 0 + figure.length → ∃ out, scanRow figure k = .ok out := by
    intro k _ hk
    obtain ⟨l, hl⟩ := @rowAt_inRange figure (k : Int) (by omega) (by omega)
    exact ⟨_, scanRow_eq hl⟩
  unfold scan
  rw [forUp_eq _ _ _ hrow, ← List.range_eq_range', positions, List.flatMap_assoc]
  congr 1
  apply List.flatMap_congr
  intro k hk
  have hk2 : k < figure.length := List.mem_range.1 hk
  obtain ⟨l, hl⟩ := @rowAt_inRange figure (k : Int) (by omega) (by omega)
  rw [scanRow_eq hl, List.flatMap_map]
  rfl

theorem lexLt_positions (figure : List (List Nat)) :
    List.Pairwise lexLt (positions figure) := by
  unfold positions
  rw [List.pairwise_flatMap]
  constructor
  · intro i _
    rw [List.pairwise_map]
    have := List.pairwise_lt_range (lineLength figure i)
    exact this.imp (fun h => Or.inr ⟨rfl, h⟩)
  · have := List.pairwise_lt_range figure.length
    refine this.imp ?_
    intro a b hab x hx y hy
    simp only [List.mem_map, List.mem_range] at hx hy
    obtain ⟨_, _, rfl⟩ := hx
    obtain ⟨_, _, rfl⟩ := hy
    exact Or.inl hab

theorem mem_positions {figure : List (List Nat)} {p : Nat × Nat} (h : p ∈ positions figure) :
    p.1 < figure.length ∧ p.2 < lineLength figure p.1 := by
  simp only [positions, List.mem_flatMap, List.mem_range, List.mem_map] at h
  obtain ⟨i, hi, j, hj, rfl⟩ := h
  exact ⟨hi, hj⟩

/-- The positions of the blocks, in the order the blocks are yielded, go
strictly forward in the order of the scan. -/
theorem lexLt_yields (figure : List (List Nat)) :
    ∀ ps : List (Nat × Nat), List.Pairwise lexLt ps →
      List.Pairwise lexLt
        ((ps.flatMap fun p => yields (scanCell figure p.1 p.2)).map Prod.fst) := by
  intro ps
  induction ps with
  | nil => intro _; simp
  | cons p ps ih =>
    intro h
    rw [List.pairwise_cons] at h
    rw [List.flatMap_cons, List.map_append, List.pairwise_append]
    refine ⟨?_, ih h.2, ?_⟩
    · rcases scanCell_yields figure p.1 p.2 with h0 | ⟨_, _, _, _, _, h1⟩
      · rw [h0]; simp
      · rw [h1]; simp
    · intro a ha b hb
      simp only [List.mem_map, List.mem_flatMap] at ha hb
      obtain ⟨ea, hea, rfl⟩ := ha
      obtain ⟨eb, ⟨q, hq, heb⟩, rfl⟩ := hb
      have e1 : ea.1 = p := by
        rcases scanCell_yields figure p.1 p.2 with h0 | ⟨_, _, _, _, _, h1⟩
        · rw [h0] at hea; simp at hea
        · rw [h1] at hea; simp at hea; rw [hea]
      have e2 : eb.1 = q := by
        rcases scanCell_yields figure q.1 q.2 with h0 | ⟨_, _, _, _, _, h1⟩
        · rw [h0] at heb; simp at heb
        · rw [h1] at heb; simp at heb; rw [heb]
      rw [e1, e2]
      exact h.1 q hq

/-! ## The four traces of `rec`, on natural numbers -/

/-- A trace to the right from `(row, col)` returns the column `p` of the first
terminating corner when no cell before it is a space. -/
theorem myLoop_right {figure : List (List Nat)} {row col p : Nat} {s : Nat}
    {l a : List Nat} (hl : rowAt figure row = some l)
    (ha : rowAt figure ((row + 1 : Nat) : Int) = some a) (hne : a ≠ [])
    (hcp : col < p) (hp : p < l.length)
    (hbefore : ∀ k : Nat, col < k → k < p →
      ¬ Hit (peek figure row k) (peek figure ((row + 1 : Nat) : Int) k) s ∧
      peek figure row k ≠ some space)
    (hhit : Hit (peek figure row p) (peek figure ((row + 1 : Nat) : Int) p) s) :
    myLoop figure row col 0 1 s = .ok (some (p : Int)) := by
  have e0 : ((row + 1 : Nat) : Int) = (row : Int) + 1 := by push_cast; ring
  rw [e0] at ha hbefore hhit
  have ht : truthy (rowAt figure ((row : Int) + 1)) = true := by
    rw [ha]; cases a with
    | nil => exact absurd rfl hne
    | cons x xs => rfl
  have hlen : lineLength figure row = l.length := by simp [lineLength, hl]
  have e : ∀ k : Nat, (col : Int) + 1 + (k : Int) * 1 = ((col + 1 + k : Nat) : Int) := by
    intro k; push_cast; ring
  have hfound := loopCols_found (s := s) hl ha (p - col - 1) (l.length + 1) ((col : Int) + 1)
    (by omega)
    (by intro k hk; rw [e]; constructor <;> omega)
    (by intro k hk; rw [e]; exact hbefore _ (by omega) (by omega))
    (by rw [e]; have : col + 1 + (p - col - 1) = p := by omega
        rw [this]; exact hhit)
  have e2 : (col : Int) + 1 + ((p - col - 1 : Nat) : Int) * 1 = (p : Int) := by omega
  rw [e2] at hfound
  rw [myLoop_cols, if_pos ⟨by decide, ht⟩, hlen, hfound]

/-- A trace to the left from `(row, col)` returns the column `p` of the first
terminating corner when no cell before it is a space. -/
theorem myLoop_left {figure : List (List Nat)} {row col p : Nat} {s : Nat}
    {l a : List Nat} (hrow : 1 ≤ row) (hl : rowAt figure row = some l)
    (ha : rowAt figure ((row - 1 : Nat) : Int) = some a) (hne : a ≠ [])
    (hpc : p < col) (hcol : col ≤ l.length)
    (hbefore : ∀ k : Nat, p < k → k < col →
      ¬ Hit (peek figure row k) (peek figure ((row - 1 : Nat) : Int) k) s ∧
      peek figure row k ≠ some space)
    (hhit : Hit (peek figure row p) (peek figure ((row - 1 : Nat) : Int) p) s) :
    myLoop figure row col 0 (-1) s = .ok (some (p : Int)) := by
  have e0 : ((row - 1 : Nat) : Int) = (row : Int) + -1 := by omega
  rw [e0] at ha hbefore hhit
  have ht : truthy (rowAt figure ((row : Int) + -1)) = true := by
    rw [ha]; cases a with
    | nil => exact absurd rfl hne
    | cons x xs => rfl
  have hlen : lineLength figure row = l.length := by simp [lineLength, hl]
  have e : ∀ k : Nat, k ≤ col - p - 1 →
      (col : Int) + -1 + (k : Int) * -1 = ((col - 1 - k : Nat) : Int) := by
    intro k hk; omega
  have hfound := loopCols_found (s := s) hl ha (col - p - 1) (l.length + 1) ((col : Int) + -1)
    (by omega)
    (by intro k hk; rw [e k hk]; constructor <;> omega)
    (by intro k hk; rw [e k (by omega)]; exact hbefore _ (by omega) (by omega))
    (by rw [e _ (le_refl _)]; have : col - 1 - (col - p - 1) = p := by omega
        rw [this]; exact hhit)
  have e2 : (col : Int) + -1 + ((col - p - 1 : Nat) : Int) * -1 = (p : Int) := by omega
  rw [e2] at hfound
  rw [myLoop_cols, if_pos ⟨by decide, ht⟩, hlen, hfound]

/-- A trace down from `(row, col)` returns the line `p` of the first
terminating corner when no cell before it is a space. -/
theorem myLoop_down {figure : List (List Nat)} {row col p : Nat} {s : Nat}
    (hcol : 1 ≤ col) (hrp : row < p) (hp : p < figure.length)
    (hbefore : ∀ k : Nat, row < k → k < p →
      ¬ Hit (peek figure k col) (peek figure k ((col - 1 : Nat) : Int)) s ∧
      peek figure k col ≠ some space)
    (hhit : Hit (peek figure p col) (peek figure p ((col - 1 : Nat) : Int)) s) :
    myLoop figure row col 1 0 s = .ok (some (p : Int)) := by
  have e0 : ((col - 1 : Nat) : Int) = (col : Int) - 1 := by omega
  rw [e0] at hbefore hhit
  have e : ∀ k : Nat, (row : Int) + 1 + (k : Int) * 1 = ((row + 1 + k : Nat) : Int) := by
    intro k; push_cast; ring
  have hfound := @loopRows_found figure (col : Int) 1 s
    (p - row - 1) (figure.length + 1) ((row : Int) + 1)
    (by omega)
    (by intro k hk; rw [e]; constructor <;> omega)
    (by intro k hk; rw [e]; exact hbefore _ (by omega) (by omega))
    (by rw [e]; have : row + 1 + (p - row - 1) = p := by omega
        rw [this]; exact hhit)
  have e2 : (row : Int) + 1 + ((p - row - 1 : Nat) : Int) * 1 = (p : Int) := by omega
  rw [e2] at hfound
  rw [myLoop_rows (by decide), hfound]

/-- A trace up from `(row, col)` returns the line `p` of the first terminating
corner when no cell before it is a space. -/
theorem myLoop_up {figure : List (List Nat)} {row col p : Nat} {s : Nat}
    (hpr : p < row) (hrow : row ≤ figure.length)
    (hbefore : ∀ k : Nat, p < k → k < row →
      ¬ Hit (peek figure k col) (peek figure k ((col + 1 : Nat) : Int)) s ∧
      peek figure k col ≠ some space)
    (hhit : Hit (peek figure p col) (peek figure p ((col + 1 : Nat) : Int)) s) :
    myLoop figure row col (-1) 0 s = .ok (some (p : Int)) := by
  have e0 : ((col + 1 : Nat) : Int) = (col : Int) - -1 := by omega
  rw [e0] at hbefore hhit
  have e : ∀ k : Nat, k ≤ row - p - 1 →
      (row : Int) + -1 + (k : Int) * -1 = ((row - 1 - k : Nat) : Int) := by
    intro k hk; omega
  have hfound := @loopRows_found figure (col : Int) (-1) s
    (row - p - 1) (figure.length + 1) ((row : Int) + -1)
    (by omega)
    (by intro k hk; rw [e k hk]; constructor <;> omega)
    (by intro k hk; rw [e k (by omega)]; exact hbefore _ (by omega) (by omega))
    (by rw [e _ (le_refl _)]; have : row - 1 - (row - p - 1) = p := by omega
        rw [this]; exact hhit)
  have e2 : (row : Int) + -1 + ((row - p - 1 : Nat) : Int) * -1 = (p : Int) := by omega
  rw [e2] at hfound
  rw [myLoop_rows (by decide), hfound]

/-! ## A figure of rectangles side by side -/

theorem split_append_newline (l rest : List Nat) (h : newline ∉ l) :
    split newline (l ++ newline :: rest) = l :: split newline rest := by
  induction l with
  | nil => simp [split]
  | cons c l ih =>
    have hc : c ≠ newline := fun e => h (e ▸ List.mem_cons_self _ _)
    have hl : newline ∉ l := fun e => h (List.mem_cons_of_mem _ e)
    simp [split, hc, ih hl]

/-- The lines of a text made of lines that hold no line feed, each followed by
a line feed: these lines, and the empty string after the last line feed. -/
theorem split_unlines (lines : List (List Nat)) (h : ∀ l ∈ lines, newline ∉ l) :
    split newline (unlines lines) = lines ++ [[]] := by
  induction lines with
  | nil => simp [unlines, split]
  | cons l ls ih =>
    have e : unlines (l :: ls) = l ++ newline :: unlines ls := by simp [unlines]
    rw [e, split_append_newline l _ (h l (List.mem_cons_self _ _)),
      ih (fun x hx => h x (List.mem_cons_of_mem _ hx))]
    rfl

theorem BoxRow.rowAt_lt {F : List (List Nat)} {W H : Nat} {C : Nat → Bool}
    (hF : BoxRow F W H C) {i : Nat} (hi : i < H) :
    ∃ l, rowAt F (i : Int) = some l ∧ l.length = W ∧ l ≠ [] := by
  obtain ⟨l, h1, h2, -⟩ := hF.row i hi
  refine ⟨l, by rw [rowAt_natCast]; exact h1, h2, ?_⟩
  intro e
  have := hF.two_le_width
  rw [e] at h2
  simp at h2
  omega

theorem BoxRow.peek_lt {F : List (List Nat)} {W H : Nat} {C : Nat → Bool}
    (hF : BoxRow F W H C) {i j : Nat} (hi : i < H) (hj : j < W) :
    peek F (i : Int) (j : Int) = some (boxCell C H i j) := by
  obtain ⟨l, h1, -, h3⟩ := hF.row i hi
  have hr : rowAt F (i : Int) = some l := by rw [rowAt_natCast]; exact h1
  rw [peek_of_rowAt hr, charAt_natCast]
  exact h3 j hj

theorem BoxRow.peek_ge {F : List (List Nat)} {W H : Nat} {C : Nat → Bool}
    (hF : BoxRow F W H C) {i j : Nat} (hj : W ≤ j) : peek F (i : Int) (j : Int) = none := by
  by_cases hi : i < H
  · obtain ⟨l, h1, h2, -⟩ := hF.row i hi
    have hr : rowAt F (i : Int) = some l := by rw [rowAt_natCast]; exact h1
    rw [peek_of_rowAt hr, charAt_natCast]
    exact List.getElem?_eq_none (by omega)
  · by_cases hi2 : i = H
    · have hr : rowAt F (i : Int) = some [] := by rw [rowAt_natCast, hi2]; exact hF.last
      rw [peek_of_rowAt hr, charAt_natCast]
      rfl
    · have hr : rowAt F (i : Int) = none := by
        rw [rowAt_natCast]
        exact List.getElem?_eq_none (by have := hF.length_eq; omega)
      simp [peek, hr]

theorem BoxRow.peek_last {F : List (List Nat)} {W H : Nat} {C : Nat → Bool}
    (hF : BoxRow F W H C) (j : Nat) : peek F (H : Int) (j : Int) = none := by
  have hr : rowAt F (H : Int) = some [] := by rw [rowAt_natCast]; exact hF.last
  rw [peek_of_rowAt hr, charAt_natCast]
  rfl

theorem BoxRow.lineLength_lt {F : List (List Nat)} {W H : Nat} {C : Nat → Bool}
    (hF : BoxRow F W H C) {i : Nat} (hi : i < H) : lineLength F (i : Int) = W := by
  obtain ⟨l, h1, h2, -⟩ := hF.rowAt_lt hi
  simp [lineLength, h1, h2]

theorem BoxRow.lineLength_last {F : List (List Nat)} {W H : Nat} {C : Nat → Bool}
    (hF : BoxRow F W H C) : lineLength F (H : Int) = 0 := by
  have hr : rowAt F (H : Int) = some [] := by rw [rowAt_natCast]; exact hF.last
  simp [lineLength, hr]

/-- In a figure of rectangles side by side `rec`, started on the first line at
a divider `c`, returns the rectangle that reaches to the next divider `c2`. -/
theorem rec_boxRow {F : List (List Nat)} {W H : Nat} {C : Nat → Bool}
    (hF : BoxRow F W H C) {c c2 : Nat} (hcc : c < c2) (hc2 : c2 < W)
    (hC : C c = true) (hC2 : C c2 = true) (hbetween : ∀ j, c < j → j < c2 → C j = false) :
    rec F ((0 : Nat) : Int) (c : Int) =
      .ok (some { width := ((c2 - c + 1 : Nat) : Int), height := (H : Int) }) := by
  have hH := hF.two_le_height
  have hlenF := hF.length_eq
  obtain ⟨l0, hl0, hlen0, -⟩ := hF.rowAt_lt (i := 0) (by omega)
  obtain ⟨l1, hl1, -, hne1⟩ := hF.rowAt_lt (i := 0 + 1) (by omega)
  obtain ⟨lb, hlb, hlenb, -⟩ := hF.rowAt_lt (i := H - 1) (by omega)
  obtain ⟨la, hla, -, hnea⟩ := hF.rowAt_lt (i := H - 1 - 1) (by omega)
  have t1 : myLoop F ((0 : Nat) : Int) c 0 1 bar = .ok (some (c2 : Int)) := by
    refine myLoop_right hl0 hl1 hne1 hcc (by omega) ?_ ?_
    · intro k hk1 hk2
      rw [hF.peek_lt (by omega) (by omega)]
      simp [boxCell, hbetween k hk1 hk2, Hit]
    · rw [hF.peek_lt (by omega) hc2, hF.peek_lt (by omega) hc2]
      simp only [boxCell, hC2, Hit]
      split_ifs <;> simp_all
  have t2 : myLoop F ((0 : Nat) : Int) c2 1 0 minus = .ok (some ((H - 1 : Nat) : Int)) := by
    refine myLoop_down (by omega) (by omega) (by omega) ?_ ?_
    · intro k hk1 hk2
      rw [hF.peek_lt (by omega) hc2]
      have hk : ¬ (k = 0 ∨ k + 1 = H) := by omega
      simp [boxCell, hC2, hk, Hit]
    · rw [hF.peek_lt (by omega) hc2, hF.peek_lt (by omega) (by omega)]
      have hk : H - 1 + 1 = H := by omega
      simp only [boxCell, hC2, hk, Hit]
      split_ifs <;> simp_all
  have t3 : myLoop F ((H - 1 : Nat) : Int) c2 0 (-1) bar = .ok (some (c : Int)) := by
    refine myLoop_left (by omega) hlb hla hnea hcc (by omega) ?_ ?_
    · intro k hk1 hk2
      rw [hF.peek_lt (by omega) (by omega)]
      have hk : H - 1 + 1 = H := by omega
      simp [boxCell, hbetween k hk1 hk2, hk, Hit]
    · rw [hF.peek_lt (by omega) (by omega), hF.peek_lt (by omega) (by omega)]
      have hk : H - 1 + 1 = H := by omega
      simp only [boxCell, hC, hk, Hit]
      split_ifs <;> simp_all
  have t4 : myLoop F ((H - 1 : Nat) : Int) c (-1) 0 minus = .ok (some ((0 : Nat) : Int)) := by
    refine myLoop_up (by omega) (by omega) ?_ ?_
    · intro k hk1 hk2
      rw [hF.peek_lt (by omega) (by omega)]
      have hk : ¬ (k = 0 ∨ k + 1 = H) := by omega
      simp [boxCell, hC, hk, Hit]
    · rw [hF.peek_lt (by omega) (by omega), hF.peek_lt (by omega) (by omega)]
      simp only [boxCell, hC, Hit]
      split_ifs <;> simp_all
  have hrec := rec_of_traces t1 t2 t3 t4
  have e1 : (c2 : Int) - (c : Int) + 1 = ((c2 - c + 1 : Nat) : Int) := by omega
  have e2 : ((H - 1 : Nat) : Int) - ((0 : Nat) : Int) + 1 = (H : Int) := by omega
  rw [hrec, e1, e2]

theorem yields_scanCell_of_not {figure : List (List Nat)} {i j : Nat} {l : List Nat}
    (hl : rowAt figure i = some l)
    (h : ¬ (peek figure i j = some plus ∧
      (peek figure (i + 1) j = some bar ∨ peek figure (i + 1) j = some plus) ∧
      (peek figure i (j + 1) = some minus ∨ peek figure i (j + 1) = some plus))) :
    yields (scanCell figure i j) = [] := by
  unfold scanCell
  rw [isCandidate_eq hl]
  simp only [h, decide_False]
  rfl

theorem yields_scanCell_of_rec {figure : List (List Nat)} {i j w h : Nat} {l : List Nat}
    (hl : rowAt figure i = some l)
    (hc : peek figure i j = some plus ∧
      (peek figure (i + 1) j = some bar ∨ peek figure (i + 1) j = some plus) ∧
      (peek figure i (j + 1) = some minus ∨ peek figure i (j + 1) = some plus))
    (hrec : rec figure i j = .ok (some { width := (w : Int), height := (h : Int) }))
    (hw : 2 ≤ w) (hh : 2 ≤ h) :
    yields (scanCell figure i j) = [((i, j), canonical w h)] := by
  unfold scanCell
  rw [isCandidate_eq hl]
  simp only [hc, and_self, decide_True, hrec, getFigure_eq hw hh]
  rfl

theorem flatMap_range_single {α : Type} (g : Nat → List α) (a : Nat) :
    ∀ (n s : Nat), s ≤ a → a < s + n → (∀ j, s ≤ j → j < s + n → j ≠ a → g j = []) →
      (List.range' s n).flatMap g = g a := by
  intro n
  induction n with
  | zero => intro s h1 h2; omega
  | succ n ih =>
    intro s h1 h2 h
    rw [List.range'_succ, List.flatMap_cons]
    by_cases hs : s = a
    · subst hs
      have hrest : (List.range' (s + 1) n).flatMap g = [] := by
        rw [List.flatMap_eq_nil_iff]
        intro j hj
        rw [List.mem_range'_1] at hj
        exact h j (by omega) (by omega) (by omega)
      rw [hrest, List.append_nil]
    · rw [h s (le_refl _) (by omega) hs, List.nil_append]
      exact ih (s + 1) (by omega) (by omega) (fun j h3 h4 h5 => h j (by omega) (by omega) h5)

/-- The scan of a figure of rectangles side by side yields what it yields on
the first line. -/
theorem scan_boxRow {F : List (List Nat)} {W H : Nat} {C : Nat → Bool}
    (hF : BoxRow F W H C) :
    scan F = .ok ((List.range W).flatMap fun j => yields (scanCell F 0 j)) := by
  have hH := hF.two_le_height
  rw [scan_eq, positions, List.flatMap_assoc, hF.length_eq, List.range_eq_range',
    List.range'_succ, List.flatMap_cons]
  have hrest : (List.range' (0 + 1) H).flatMap (fun i =>
      ((List.range (lineLength F (i : Int))).map fun j => (i, j)).flatMap
        fun p => yields (scanCell F p.1 p.2)) = [] := by
    rw [List.flatMap_eq_nil_iff]
    intro i hi
    rw [List.mem_range'_1] at hi
    rw [List.flatMap_eq_nil_iff]
    intro p hp
    simp only [List.mem_map, List.mem_range] at hp
    obtain ⟨j, hj, rfl⟩ := hp
    simp only
    by_cases hi2 : i < H
    · obtain ⟨l, hl, -, -⟩ := hF.rowAt_lt hi2
      rw [hF.lineLength_lt hi2] at hj
      apply yields_scanCell_of_not hl
      rintro ⟨h1, h2, -⟩
      by_cases hi3 : i + 1 = H
      · have e : (i : Int) + 1 = (H : Int) := by omega
        rw [e, hF.peek_last] at h2
        simp at h2
      · rw [hF.peek_lt hi2 hj] at h1
        have hk : ¬ (i = 0 ∨ i + 1 = H) := by omega
        simp only [boxCell, hk, if_false] at h1
        split_ifs at h1 <;> simp at h1
    · have e : i = H := by omega
      rw [e, hF.lineLength_last] at hj
      omega
  rw [hrest, List.append_nil, List.flatMap_map, hF.lineLength_lt (by omega)]

theorem yields_boxRow_divider {F : List (List Nat)} {W H : Nat} {C : Nat → Bool}
    (hF : BoxRow F W H C) {c c2 : Nat} (hcc : c < c2) (hc2 : c2 < W)
    (hC : C c = true) (hC2 : C c2 = true) (hbetween : ∀ j, c < j → j < c2 → C j = false) :
    yields (scanCell F 0 c) = [((0, c), canonical (c2 - c + 1) H)] := by
  have hH := hF.two_le_height
  obtain ⟨l, hl, -, -⟩ := hF.rowAt_lt (i := 0) (by omega)
  refine yields_scanCell_of_rec hl ?_ (rec_boxRow hF hcc hc2 hC hC2 hbetween) (by omega) hH
  have e1 : ((0 : Nat) : Int) + 1 = ((0 + 1 : Nat) : Int) := by simp
  have e2 : (c : Int) + 1 = ((c + 1 : Nat) : Int) := by simp
  rw [e1, e2, hF.peek_lt (by omega) (by omega), hF.peek_lt (by omega) (by omega),
    hF.peek_lt (by omega) (by omega)]
  simp only [boxCell, hC]
  refine ⟨by simp, ?_, ?_⟩ <;> split_ifs <;> simp_all

theorem yields_boxRow_not_divider {F : List (List Nat)} {W H : Nat} {C : Nat → Bool}
    (hF : BoxRow F W H C) {j : Nat} (hj : j < W) (hC : C j = false) :
    yields (scanCell F 0 j) = [] := by
  have hH := hF.two_le_height
  obtain ⟨l, hl, -, -⟩ := hF.rowAt_lt (i := 0) (by omega)
  apply yields_scanCell_of_not hl
  rintro ⟨h1, -, -⟩
  rw [hF.peek_lt (by omega) hj] at h1
  simp [boxCell, hC] at h1

theorem yields_boxRow_last {F : List (List Nat)} {W H : Nat} {C : Nat → Bool}
    (hF : BoxRow F W H C) {j : Nat} (hj : j + 1 = W) :
    yields (scanCell F 0 j) = [] := by
  have hH := hF.two_le_height
  obtain ⟨l, hl, -, -⟩ := hF.rowAt_lt (i := 0) (by omega)
  apply yields_scanCell_of_not hl
  rintro ⟨-, -, h3⟩
  have e2 : (j : Int) + 1 = ((j + 1 : Nat) : Int) := by simp
  rw [e2, hF.peek_ge (by omega)] at h3
  simp at h3

/-! ## One rectangle, and two rectangles that share a divider -/

theorem newline_not_mem_canonicalLines {w h : Nat} {l : List Nat}
    (hl : l ∈ canonicalLines w h) : newline ∉ l := by
  rcases mem_canonicalLines hl with rfl | rfl
  · simp [edgeLine]
  · simp [innerLine]

theorem split_canonical (w h : Nat) :
    split newline (canonical w h) = canonicalLines w h ++ [[]] :=
  split_unlines _ (fun _ hl => newline_not_mem_canonicalLines hl)

theorem boxRow_canonical {w h : Nat} (hw : 2 ≤ w) (hh : 2 ≤ h) :
    BoxRow (canonicalLines w h ++ [[]]) w h (fun j => decide (j = 0 ∨ j + 1 = w)) where
  two_le_width := hw
  two_le_height := hh
  length_eq := by simp [length_canonicalLines hh]
  last := by
    rw [List.getElem?_append_right (by simp [length_canonicalLines hh])]
    simp [length_canonicalLines hh]
  row := by
    intro i hi
    rw [List.getElem?_append_left (by simp [length_canonicalLines hh, hi]),
      canonicalLines_getElem?]
    by_cases h0 : i = 0
    · refine ⟨edgeLine w, by simp [h0], length_edgeLine hw, ?_⟩
      intro j hj
      rw [edgeLine, sandwich_getElem?]
      simp only [boxCell, h0, true_or, if_true, decide_eq_true_eq]
      split_ifs <;> first | rfl | omega
    · by_cases h1 : i ≤ h - 2
      · refine ⟨innerLine w, by simp [h0, h1], length_innerLine hw, ?_⟩
        intro j hj
        rw [innerLine, sandwich_getElem?]
        have hk : ¬ (i = 0 ∨ i + 1 = h) := by omega
        simp only [boxCell, hk, if_false, decide_eq_true_eq]
        split_ifs <;> first | rfl | omega
      · have h2 : i = h - 2 + 1 := by omega
        refine ⟨edgeLine w, by simp [h0, h1, h2], length_edgeLine hw, ?_⟩
        intro j hj
        rw [edgeLine, sandwich_getElem?]
        have hk : (i = 0 ∨ i + 1 = h) := by omega
        simp only [boxCell, hk, if_true, decide_eq_true_eq]
        split_ifs <;> first | rfl | omega

theorem scan_canonical {w h : Nat} (hw : 2 ≤ w) (hh : 2 ≤ h) :
    scan (canonicalLines w h ++ [[]]) = .ok [((0, 0), canonical w h)] := by
  have hF := boxRow_canonical hw hh
  rw [scan_boxRow hF, List.range_eq_range',
    flatMap_range_single _ 0 w 0 (le_refl 0) (by omega)]
  · have hy := @yields_boxRow_divider _ _ _ _ hF (0) (w - 1) (by omega) (by omega)
      (by simp) (by simp; omega) (by intro j h1 h2; simp; omega)
    have e : w - 1 - 0 + 1 = w := by omega
    rw [e] at hy
    rw [hy]
  · intro j _ hj1 hj2
    by_cases hl : j + 1 = w
    · exact yields_boxRow_last hF hl
    · exact yields_boxRow_not_divider hF (by omega) (by simp; omega)

theorem sandwich2_getElem? {α : Type} (a b : α) (n m k : Nat) :
    ([a] ++ List.replicate n b ++ [a] ++ List.replicate m b ++ [a])[k]? =
      if k = 0 ∨ k = n + 1 ∨ k = n + m + 2 then some a
      else if k < n + m + 2 then some b else none := by
  have hlen : ([a] ++ List.replicate n b ++ [a]).length = n + 2 := by simp
  rw [List.append_assoc ([a] ++ List.replicate n b ++ [a])]
  by_cases h1 : k < n + 2
  · rw [List.getElem?_append_left (by omega), sandwich_getElem?]
    split_ifs <;> first | rfl | omega
  · rw [List.getElem?_append_right (by omega), hlen]
    by_cases h2 : k - (n + 2) < m
    · rw [List.getElem?_append_left (by simpa using h2), List.getElem?_replicate]
      simp only [h2, if_true]
      split_ifs <;> first | rfl | omega
    · rw [List.getElem?_append_right (by simpa using h2), List.length_replicate]
      by_cases h3 : k = n + m + 2
      · have e : k - (n + 2) - m = 0 := by omega
        rw [e]; simp [h3]
      · have e : k - (n + 2) - m = (k - (n + 2) - m - 1) + 1 := by omega
        rw [e]
        simp only [List.getElem?_cons_succ, List.getElem?_nil]
        split_ifs <;> first | rfl | omega

theorem length_edgeLine2 {w1 w2 : Nat} (h1 : 2 ≤ w1) (h2 : 2 ≤ w2) :
    (edgeLine2 w1 w2).length = w1 + w2 - 1 := by
  simp [edgeLine2]; omega

theorem length_innerLine2 {w1 w2 : Nat} (h1 : 2 ≤ w1) (h2 : 2 ≤ w2) :
    (innerLine2 w1 w2).length = w1 + w2 - 1 := by
  simp [innerLine2]; omega

theorem length_abuttingLines {h : Nat} (hh : 2 ≤ h) (w1 w2 : Nat) :
    (abuttingLines w1 w2 h).length = h := by
  simp [abuttingLines]; omega

theorem newline_not_mem_abuttingLines {w1 w2 h : Nat} {l : List Nat}
    (hl : l ∈ abuttingLines w1 w2 h) : newline ∉ l := by
  simp only [abuttingLines, List.mem_append, List.mem_singleton, List.mem_replicate] at hl
  rcases hl with (rfl | ⟨-, rfl⟩) | rfl
  · simp [edgeLine2]
  · simp [innerLine2]
  · simp [edgeLine2]

theorem split_abutting (w1 w2 h : Nat) :
    split newline (abutting w1 w2 h) = abuttingLines w1 w2 h ++ [[]] :=
  split_unlines _ (fun _ hl => newline_not_mem_abuttingLines hl)

theorem boxRow_abutting {w1 w2 h : Nat} (hw1 : 2 ≤ w1) (hw2 : 2 ≤ w2) (hh : 2 ≤ h) :
    BoxRow (abuttingLines w1 w2 h ++ [[]]) (w1 + w2 - 1) h
      (fun j => decide (j = 0 ∨ j + 1 = w1 ∨ j + 2 = w1 + w2)) where
  two_le_width := by omega
  two_le_height := hh
  length_eq := by simp [length_abuttingLines hh]
  last := by
    rw [List.getElem?_append_right (by simp [length_abuttingLines hh])]
    simp [length_abuttingLines hh]
  row := by
    intro i hi
    rw [List.getElem?_append_left (by simp [length_abuttingLines hh, hi]),
      abuttingLines, sandwich_getElem?]
    by_cases h0 : i = 0
    · refine ⟨edgeLine2 w1 w2, by simp [h0], length_edgeLine2 hw1 hw2, ?_⟩
      intro j hj
      rw [edgeLine2, sandwich2_getElem?]
      simp only [boxCell, h0, true_or, if_true, decide_eq_true_eq]
      split_ifs <;> first | rfl | omega
    · by_cases h1 : i ≤ h - 2
      · refine ⟨innerLine2 w1 w2, by simp [h0, h1], length_innerLine2 hw1 hw2, ?_⟩
        intro j hj
        rw [innerLine2, sandwich2_getElem?]
        have hk : ¬ (i = 0 ∨ i + 1 = h) := by omega
        simp only [boxCell, hk, if_false, decide_eq_true_eq]
        split_ifs <;> first | rfl | omega
      · have h2 : i = h - 2 + 1 := by omega
        refine ⟨edgeLine2 w1 w2, by simp [h0, h1, h2], length_edgeLine2 hw1 hw2, ?_⟩
        intro j hj
        rw [edgeLine2, sandwich2_getElem?]
        have hk : (i = 0 ∨ i + 1 = h) := by omega
        simp only [boxCell, hk, if_true, decide_eq_true_eq]
        split_ifs <;> first | rfl | omega

theorem scan_abutting {w1 w2 h : Nat} (hw1 : 2 ≤ w1) (hw2 : 2 ≤ w2) (hh : 2 ≤ h) :
    scan (abuttingLines w1 w2 h ++ [[]]) =
      .ok [((0, 0), canonical w1 h), ((0, w1 - 1), canonical w2 h)] := by
  have hF := boxRow_abutting hw1 hw2 hh
  have hW : w1 + w2 - 1 = (w1 + w2 - 2) + 1 := by omega
  rw [scan_boxRow hF, List.range_eq_range', hW, List.range'_succ, List.flatMap_cons,
    flatMap_range_single _ (w1 - 1) (w1 + w2 - 2) (0 + 1) (by omega) (by omega)]
  · have hy1 := @yields_boxRow_divider _ _ _ _ hF (0) (w1 - 1) (by omega) (by omega)
      (by simp) (by simp; omega) (by intro j h1 h2; simp; omega)
    have hy2 := @yields_boxRow_divider _ _ _ _ hF (w1 - 1) (w1 + w2 - 2) (by omega) (by omega)
      (by simp; omega) (by simp; omega) (by intro j h1 h2; simp; omega)
    have e1 : w1 - 1 - 0 + 1 = w1 := by omega
    have e2 : w1 + w2 - 2 - (w1 - 1) + 1 = w2 := by omega
    rw [e1] at hy1
    rw [e2] at hy2
    rw [hy1, hy2]
    rfl
  · intro j hj0 hj1 hj2
    by_cases hl : j + 1 = w1 + w2 - 1
    · exact yields_boxRow_last hF hl
    · exact yields_boxRow_not_divider hF (by omega) (by simp; omega)

/-! ## Traces that fail, and lines with spaces appended -/

theorem myLoop_rows_none {figure : List (List Nat)} {row col d : Int} {s : Nat}
    (h : ∀ n : Nat, 0 ≤ row + d + n * d → row + d + n * d < figure.length →
      ¬ Hit (peek figure (row + d + n * d) col) (peek figure (row + d + n * d) (col - d)) s) :
    myLoop figure row col d 0 s = .ok none := by
  by_cases hd : d = 0
  · subst hd; simp [myLoop]
  · obtain ⟨v, hv⟩ := myLoop_rows_ok hd row col s
    cases v with
    | none => exact hv
    | some p =>
      obtain ⟨n, hp, hrange, hhit, -⟩ := myLoop_rows_some hd hv
      have hr := hrange n (le_refl n)
      rw [hp] at hhit
      exact absurd hhit (h n hr.1 hr.2)

theorem myLoop_cols_none {figure : List (List Nat)} {row col d : Int} {s : Nat}
    {l : List Nat} (hl : rowAt figure row = some l)
    (h : ∀ n : Nat, 0 ≤ col + d + n * d → col + d + n * d < l.length →
      ¬ Hit (peek figure row (col + d + n * d)) (peek figure (row + d) (col + d + n * d)) s) :
    myLoop figure row col 0 d s = .ok none := by
  obtain ⟨v, hv⟩ := myLoop_cols_ok hl col d s
  cases v with
  | none => exact hv
  | some p =>
    obtain ⟨l2, a, n, hl2, -, -, hp, hrange, hhit, -⟩ := myLoop_cols_some hv
    rw [hl] at hl2
    obtain rfl : l = l2 := by simpa using hl2
    have hr := hrange n (le_refl n)
    rw [hp] at hhit
    exact absurd hhit (h n hr.1 hr.2)

theorem yields_of_rec_none {figure : List (List Nat)} {i j : Nat}
    (h : rec figure i j = .ok none) : yields (scanCell figure i j) = [] := by
  unfold scanCell
  rw [h]
  cases isCandidate figure i j with
  | error e => rfl
  | ok c => cases c <;> rfl

theorem loopRows_pass {figure : List (List Nat)} {col d : Int} {s : Nat} {i : Int}
    (fuel : Nat) (h0 : 0 ≤ i) (h1 : i < figure.length) (h : peek figure i col = none) :
    loopRows figure col d s (fuel + 1) i = loopRows figure col d s fuel (i + d) := by
  rw [loopRows_step fuel h0 h1, h]
  simp [Hit]

theorem padded_refl (F : List (List Nat)) : Padded F F := by
  induction F with
  | nil => exact List.Forall₂.nil
  | cons l ls ih => exact List.Forall₂.cons ⟨0, by simp⟩ ih

theorem padded_padLine (F : List (List Nat)) (k n : Nat) : Padded F (padLine F k n) := by
  induction F generalizing k with
  | nil => exact List.Forall₂.nil
  | cons l ls ih =>
    cases k with
    | zero => exact List.Forall₂.cons ⟨n, rfl⟩ (padded_refl ls)
    | succ k => exact List.Forall₂.cons ⟨0, by simp⟩ (ih k)

theorem padded_getElem? {F F2 : List (List Nat)} (h : Padded F F2) :
    ∀ k : Nat, (F[k]? = none ∧ F2[k]? = none) ∨
      ∃ l m, F[k]? = some l ∧ F2[k]? = some (l ++ List.replicate m space) := by
  induction h with
  | nil => intro k; left; simp
  | @cons a b _ _ hl _ ih =>
    intro k
    cases k with
    | zero =>
      obtain ⟨m, rfl⟩ := hl
      exact Or.inr ⟨a, m, by simp, by simp⟩
    | succ k => simpa using ih k

theorem padded_rowAt {F F2 : List (List Nat)} (h : Padded F F2) (i : Int) :
    (rowAt F i = none ∧ rowAt F2 i = none) ∨
      ∃ l m, rowAt F i = some l ∧ rowAt F2 i = some (l ++ List.replicate m space) := by
  unfold rowAt
  by_cases hi : i < 0
  · left; simp [hi]
  · simp only [hi, if_false]
    exact padded_getElem? h _

theorem padded_length {F F2 : List (List Nat)} (h : Padded F F2) : F2.length = F.length :=
  (List.Forall₂.length_eq h).symm

theorem charAt_append_replicate (l : List Nat) (m : Nat) (j : Int) :
    charAt (l ++ List.replicate m space) j = charAt l j ∨
      (charAt l j = none ∧ charAt (l ++ List.replicate m space) j = some space) := by
  unfold charAt
  by_cases hj : j < 0
  · left; simp [hj]
  · simp only [hj, if_false]
    by_cases h1 : j.toNat < l.length
    · left; rw [List.getElem?_append_left h1]
    · rw [List.getElem?_append_right (by omega), List.getElem?_replicate,
        List.getElem?_eq_none (by omega : l.length ≤ j.toNat)]
      by_cases h2 : j.toNat - l.length < m
      · right; simp [h2]
      · left; simp [h2]

theorem padded_peek {F F2 : List (List Nat)} (h : Padded F F2) (i j : Int) :
    peek F2 i j = peek F i j ∨ (peek F i j = none ∧ peek F2 i j = some space) := by
  rcases padded_rowAt h i with ⟨h1, h2⟩ | ⟨l, m, h1, h2⟩
  · left; simp [peek, h1, h2]
  · rw [peek_of_rowAt h1, peek_of_rowAt h2]
    exact charAt_append_replicate l m j

theorem padded_peek_eq {F F2 : List (List Nat)} (h : Padded F F2) {i j : Int} {c : Nat}
    (hc : c ≠ space) (hp : peek F2 i j = some c) : peek F i j = some c := by
  rcases padded_peek h i j with e | ⟨-, e⟩
  · rw [← e]; exact hp
  · rw [hp] at e; simp at e; exact absurd e hc

theorem padded_hit {F F2 : List (List Nat)} (h : Padded F F2) {s : Nat} (hs : s ≠ space)
    (i j i2 j2 : Int) :
    Hit (peek F2 i j) (peek F2 i2 j2) s ↔ Hit (peek F i j) (peek F i2 j2) s := by
  have hs2 : space ≠ s := fun e => hs e.symm
  rcases padded_peek h i j with e1 | ⟨e1, e3⟩ <;>
    rcases padded_peek h i2 j2 with e2 | ⟨e2, e4⟩
  · rw [e1, e2]
  · rw [e1, e2, e4]; simp [Hit, hs2]
  · rw [e1, e3]; simp [Hit]
  · rw [e1, e3]; simp [Hit]

theorem padded_space {F F2 : List (List Nat)} (h : Padded F F2) {i j : Int}
    (hp : peek F2 i j ≠ some space) : peek F i j ≠ some space := by
  intro e
  rcases padded_peek h i j with e1 | ⟨e1, -⟩
  · rw [e1] at hp; exact hp e
  · rw [e1] at e; simp at e

theorem charAt_inRange {l : List Nat} {j : Int} (h0 : 0 ≤ j) (h1 : j < l.length) :
    ∃ c, charAt l j = some c := by
  unfold charAt
  have hj : ¬ j < 0 := by omega
  have h2 : j.toNat < l.length := by omega
  exact ⟨l[j.toNat], by simp only [hj, if_false]; exact List.getElem?_eq_getElem h2⟩

/-- A trace along a column that returns an index on the padded lines returns
the same index on the lines as they were. -/
theorem padded_myLoop_rows {F F2 : List (List Nat)} (h : Padded F F2) {s : Nat}
    (hs : s ≠ space) {row col d p : Int} (hd : d = 1 ∨ d = -1)
    (hv : myLoop F2 row col d 0 s = .ok (some p)) :
    myLoop F row col d 0 s = .ok (some p) := by
  have hd0 : d ≠ 0 := by rcases hd with rfl | rfl <;> decide
  obtain ⟨n, hp, hrange, hhit, hbefore⟩ := myLoop_rows_some hd0 hv
  rw [padded_length h] at hrange
  have hfuel : n < F.length + 1 := by
    have h0 := hrange 0 (Nat.zero_le _)
    have hn := hrange n (le_refl _)
    rcases hd with rfl | rfl <;> simp at h0 hn <;> omega
  have hfound := @loopRows_found F col d s n (F.length + 1) (row + d) hfuel hrange
    (fun k hk => ⟨fun hh => (hbefore k hk).1 ((padded_hit h hs _ _ _ _).2 hh),
      padded_space h (hbefore k hk).2⟩)
    (by rw [← hp]; exact (padded_hit h hs _ _ _ _).1 hhit)
  rw [myLoop_rows hd0, hfound, hp]

/-- A trace along a line that returns an index on the padded lines returns the
same index on the lines as they were. -/
theorem padded_myLoop_cols {F F2 : List (List Nat)} (h : Padded F F2) {s : Nat}
    (hs : s ≠ space) {row col d p : Int} (hd : d = 1 ∨ d = -1)
    (hv : myLoop F2 row col 0 d s = .ok (some p)) :
    myLoop F row col 0 d s = .ok (some p) := by
  have hd0 : d ≠ 0 := by rcases hd with rfl | rfl <;> decide
  obtain ⟨l2, a2, n, hl2, ha2, -, hp, hrange, hhit, hbefore⟩ := myLoop_cols_some hv
  have hhitF := (padded_hit h hs _ _ _ _).1 hhit
  -- the two lines, before the padding
  obtain ⟨l, hl⟩ : ∃ l, rowAt F row = some l := by
    rcases padded_rowAt h row with ⟨-, e⟩ | ⟨l, -, e, -⟩
    · rw [e] at hl2; simp at hl2
    · exact ⟨l, e⟩
  obtain ⟨a, ha⟩ : ∃ a, rowAt F (row + d) = some a := by
    rcases padded_rowAt h (row + d) with ⟨-, e⟩ | ⟨a, -, e, -⟩
    · rw [e] at ha2; simp at ha2
    · exact ⟨a, e⟩
  have hne : truthy (rowAt F (row + d)) = true := by
    rw [ha]
    cases a with
    | nil =>
      have hpk : peek F (row + d) p = none := by rw [peek_of_rowAt ha]; simp [charAt]
      rw [hpk] at hhitF
      simp [Hit] at hhitF
    | cons x xs => rfl
  have hrangeF : ∀ k : Nat, k ≤ n → 0 ≤ col + d + k * d ∧ col + d + k * d < l.length := by
    intro k hk
    have hr := hrange k hk
    obtain ⟨c, hc⟩ := charAt_inRange hr.1 hr.2
    rw [← peek_of_rowAt hl2] at hc
    have hcs : c ≠ space ∧ peek F2 row (col + d + k * d) = some c := by
      rcases Nat.lt_or_ge k n with hlt | hge
      · exact ⟨fun e => (hbefore k hlt).2 (e ▸ hc), hc⟩
      · have e : k = n := by omega
        subst e
        rw [← hp] at hc
        have := hhit.1
        rw [hc] at this
        simp at this
        subst this
        rw [← hp]
        exact ⟨by decide, hc⟩
    have hF := padded_peek_eq h hcs.1 hcs.2
    rw [peek_of_rowAt hl] at hF
    exact charAt_some_inRange hF
  have hfuel : n < l.length + 1 := by
    have h0 := hrangeF 0 (Nat.zero_le _)
    have hn := hrangeF n (le_refl _)
    rcases hd with rfl | rfl <;> simp at h0 hn <;> omega
  have hfound := loopCols_found (s := s) hl ha n (l.length + 1) (col + d) hfuel hrangeF
    (fun k hk => ⟨fun hh => (hbefore k hk).1 ((padded_hit h hs _ _ _ _).2 hh),
      padded_space h (hbefore k hk).2⟩)
    (by rw [← hp]; exact hhitF)
  have hlen : lineLength F row = l.length := by simp [lineLength, hl]
  rw [myLoop_cols, if_pos ⟨hd0, hne⟩, hlen, hfound, hp]

/-- A rectangle `rec` returns on the padded lines is returned on the lines as
they were. -/
theorem padded_rec {F F2 : List (List Nat)} (h : Padded F F2) {row col : Int} {r : Rect}
    (hr : rec F2 row col = .ok (some r)) : rec F row col = .ok (some r) := by
  obtain ⟨column, rowumn, h1, h2, h3, h4, rfl⟩ := rec_some hr
  exact rec_of_traces
    (padded_myLoop_cols h (by decide) (Or.inl rfl) h1)
    (padded_myLoop_rows h (by decide) (Or.inl rfl) h2)
    (padded_myLoop_cols h (by decide) (Or.inr rfl) h3)
    (padded_myLoop_rows h (by decide) (Or.inr rfl) h4)

theorem isCandidate_true {figure : List (List Nat)} {i j : Nat}
    (h : isCandidate figure i j = .ok true) :
    (∃ l, rowAt figure i = some l) ∧ peek figure i j = some plus ∧
      (peek figure (i + 1) j = some bar ∨ peek figure (i + 1) j = some plus) ∧
      (peek figure i (j + 1) = some minus ∨ peek figure i (j + 1) = some plus) := by
  cases hl : rowAt figure i with
  | none => simp [isCandidate, cellAt, hl] at h
  | some l =>
    rw [isCandidate_eq hl] at h
    simp only [Except.ok.injEq, decide_eq_true_eq] at h
    exact ⟨⟨l, rfl⟩, h⟩

theorem yields_scanCell_of {figure : List (List Nat)} {i j : Nat} {r : Rect}
    {block : List Nat} (hc : isCandidate figure i j = .ok true)
    (hrec : rec figure i j = .ok (some r)) (hb : getFigure r = .ok block) :
    yields (scanCell figure i j) = [((i, j), block)] := by
  unfold scanCell
  simp only [hc, hrec, hb]
  rfl

/-- What the scan yields at a position of the padded lines: nothing, or what it
yields there on the lines as they were. -/
theorem padded_yields {F F2 : List (List Nat)} (h : Padded F F2) (i j : Nat) :
    yields (scanCell F2 i j) = [] ∨
      (yields (scanCell F2 i j) = yields (scanCell F i j) ∧
        (j : Int) < lineLength F i) := by
  rcases scanCell_yields F2 i j with h0 | ⟨r, b, hc, hr, hb, hy⟩
  · exact Or.inl h0
  · right
    obtain ⟨-, c1, c2, c3⟩ := isCandidate_true hc
    have d1 := padded_peek_eq h (by decide) c1
    have d2 : peek F (i + 1) j = some bar ∨ peek F (i + 1) j = some plus := by
      rcases c2 with e | e
      · exact Or.inl (padded_peek_eq h (by decide) e)
      · exact Or.inr (padded_peek_eq h (by decide) e)
    have d3 : peek F i (j + 1) = some minus ∨ peek F i (j + 1) = some plus := by
      rcases c3 with e | e
      · exact Or.inl (padded_peek_eq h (by decide) e)
      · exact Or.inr (padded_peek_eq h (by decide) e)
    cases hl : rowAt F i with
    | none => simp [peek, hl] at d1
    | some l =>
      have hcF : isCandidate F i j = .ok true := by
        rw [isCandidate_eq hl]; simp [d1, d2, d3]
      refine ⟨by rw [hy, yields_scanCell_of hcF (padded_rec h hr) hb], ?_⟩
      rw [peek_of_rowAt hl] at d1
      have := (charAt_some_inRange d1).2
      simpa [lineLength, hl] using this

theorem padded_lineLength {F F2 : List (List Nat)} (h : Padded F F2) (i : Int) :
    lineLength F i ≤ lineLength F2 i := by
  rcases padded_rowAt h i with ⟨h1, h2⟩ | ⟨l, m, h1, h2⟩
  · simp [lineLength, h1, h2]
  · simp [lineLength, h1, h2]

theorem flatMap_positions_padded {α : Type} {F F2 : List (List Nat)}
    (g : Nat × Nat → List α) (hlen : F2.length = F.length)
    (hle : ∀ i : Nat, lineLength F i ≤ lineLength F2 i)
    (hnil : ∀ i j : Nat, lineLength F i ≤ j → g (i, j) = []) :
    (positions F2).flatMap g = (positions F).flatMap g := by
  simp only [positions, List.flatMap_assoc, hlen]
  apply List.flatMap_congr
  intro i _
  rw [List.flatMap_map, List.flatMap_map]
  obtain ⟨m, hm⟩ : ∃ m, lineLength F2 i = m + lineLength F i :=
    ⟨lineLength F2 i - lineLength F i, by have := hle i; omega⟩
  rw [hm, List.range_eq_range', List.range_eq_range', ← List.range'_append_1,
    List.flatMap_append]
  have hrest : (List.range' (0 + lineLength F i) m).flatMap (fun a => g (i, a)) = [] := by
    rw [List.flatMap_eq_nil_iff]
    intro j hj
    rw [List.mem_range'_1] at hj
    exact hnil i j (by omega)
  rw [hrest, List.append_nil]

theorem sublist_flatMap {α β : Type} (g2 g : α → List β) :
    ∀ ps : List α, (∀ p ∈ ps, g2 p = [] ∨ g2 p = g p) →
      (ps.flatMap g2).Sublist (ps.flatMap g) := by
  intro ps
  induction ps with
  | nil => intro _; simp
  | cons p ps ih =>
    intro h
    rw [List.flatMap_cons, List.flatMap_cons]
    apply List.Sublist.append
    · rcases h p (List.mem_cons_self _ _) with e | e
      · rw [e]; exact List.nil_sublist _
      · rw [e]
    · exact ih (fun q hq => h q (List.mem_cons_of_mem _ hq))

/-- The scan of the padded lines yields a subsequence of what the scan of the
lines as they were yields. -/
theorem padded_scan {F F2 : List (List Nat)} (h : Padded F F2) :
    ∃ out out2, scan F = .ok out ∧ scan F2 = .ok out2 ∧ out2.Sublist out := by
  refine ⟨_, _, scan_eq F, scan_eq F2, ?_⟩
  rw [flatMap_positions_padded _ (padded_length h) (fun i => padded_lineLength h i)]
  · apply sublist_flatMap
    intro p _
    rcases padded_yields h p.1 p.2 with e | ⟨e, -⟩
    · exact Or.inl e
    · exact Or.inr e
  · intro i j hij
    rcases padded_yields h i j with e | ⟨-, e⟩
    · exact e
    · omega

theorem padded_peek_of_some {F F2 : List (List Nat)} (h : Padded F F2) {i j : Int} {c : Nat}
    (hp : peek F i j = some c) : peek F2 i j = some c := by
  rcases padded_peek h i j with e | ⟨e, -⟩
  · rw [e]; exact hp
  · rw [hp] at e; simp at e

/-- A trace along a line that returns an index returns the same index on the
padded lines. -/
theorem myLoop_cols_padded {F F2 : List (List Nat)} (h : Padded F F2) {s : Nat}
    (hs : s ≠ space) {row col d p : Int} (hd : d = 1 ∨ d = -1)
    (hv : myLoop F row col 0 d s = .ok (some p)) :
    myLoop F2 row col 0 d s = .ok (some p) := by
  have hd0 : d ≠ 0 := by rcases hd with rfl | rfl <;> decide
  obtain ⟨l, a, n, hl, ha, hne, hp, hrange, hhit, hbefore⟩ := myLoop_cols_some hv
  obtain ⟨m, hl2⟩ : ∃ m, rowAt F2 row = some (l ++ List.replicate m space) := by
    rcases padded_rowAt h row with ⟨e, -⟩ | ⟨l', m, e, e2⟩
    · rw [e] at hl; simp at hl
    · rw [hl] at e; simp at e; subst e; exact ⟨m, e2⟩
  obtain ⟨ma, ha2⟩ : ∃ m, rowAt F2 (row + d) = some (a ++ List.replicate m space) := by
    rcases padded_rowAt h (row + d) with ⟨e, -⟩ | ⟨a', m, e, e2⟩
    · rw [e] at ha; simp at ha
    · rw [ha] at e; simp at e; subst e; exact ⟨m, e2⟩
  have hne2 : truthy (rowAt F2 (row + d)) = true := by
    rw [ha2]
    cases a with
    | nil => exact absurd rfl hne
    | cons x xs => rfl
  have hrange2 : ∀ k : Nat, k ≤ n →
      0 ≤ col + d + k * d ∧ col + d + k * d < (l ++ List.replicate m space).length := by
    intro k hk
    have := hrange k hk
    rw [List.length_append]
    constructor <;> omega
  have hfuel : n < (l ++ List.replicate m space).length + 1 := by
    have h0 := hrange 0 (Nat.zero_le _)
    have hn := hrange n (le_refl _)
    rw [List.length_append]
    rcases hd with rfl | rfl <;> simp at h0 hn <;> omega
  have hfound := loopCols_found (s := s) hl2 ha2 n _ (col + d) hfuel hrange2
    (fun k hk => by
      refine ⟨fun hh => (hbefore k hk).1 ((padded_hit h hs _ _ _ _).1 hh), ?_⟩
      have hr := hrange k (by omega)
      obtain ⟨c, hc⟩ := charAt_inRange hr.1 hr.2
      rw [← peek_of_rowAt hl] at hc
      rw [padded_peek_of_some h hc]
      have := (hbefore k hk).2
      rw [hc] at this
      exact this)
    (by rw [← hp]; exact (padded_hit h hs _ _ _ _).2 hhit)
  have hlen : lineLength F2 row = (l ++ List.replicate m space).length := by
    simp [lineLength, hl2]
  rw [myLoop_cols, if_pos ⟨hd0, hne2⟩, hlen, hfound, hp]

/-- A trace along a column that returns an index returns the same index on the
padded lines, when the padding adds no cell to the column. -/
theorem myLoop_rows_padded {F F2 : List (List Nat)} (h : Padded F F2) {s : Nat}
    (hs : s ≠ space) {row col d p : Int} (hd : d = 1 ∨ d = -1)
    (hcol : ∀ i, peek F i col = none → peek F2 i col = none)
    (hv : myLoop F row col d 0 s = .ok (some p)) :
    myLoop F2 row col d 0 s = .ok (some p) := by
  have hd0 : d ≠ 0 := by rcases hd with rfl | rfl <;> decide
  obtain ⟨n, hp, hrange, hhit, hbefore⟩ := myLoop_rows_some hd0 hv
  rw [← padded_length h] at hrange
  have hfuel : n < F2.length + 1 := by
    have h0 := hrange 0 (Nat.zero_le _)
    have hn := hrange n (le_refl _)
    rcases hd with rfl | rfl <;> simp at h0 hn <;> omega
  have hfound := @loopRows_found F2 col d s n (F2.length + 1) (row + d) hfuel hrange
    (fun k hk => by
      refine ⟨fun hh => (hbefore k hk).1 ((padded_hit h hs _ _ _ _).1 hh), ?_⟩
      intro e
      rcases padded_peek h (row + d + k * d) col with e1 | ⟨e1, -⟩
      · rw [e1] at e; exact (hbefore k hk).2 e
      · rw [hcol _ e1] at e; simp at e)
    (by rw [← hp]; exact (padded_hit h hs _ _ _ _).2 hhit)
  rw [myLoop_rows hd0, hfound, hp]

/-- A rectangle `rec` returns is returned on the padded lines, when the padding
adds no cell to a column in which a line has a cell. -/
theorem rec_padded {F F2 : List (List Nat)} (h : Padded F F2)
    (hcols : ∀ (i j : Int) (c : Nat), peek F i j = some c →
      ∀ i2, peek F i2 j = none → peek F2 i2 j = none)
    {row col : Int} {r : Rect}
    (hr : rec F row col = .ok (some r)) : rec F2 row col = .ok (some r) := by
  obtain ⟨column, rowumn, h1, h2, h3, h4, rfl⟩ := rec_some hr
  obtain ⟨-, -, -, -, -, -, -, -, hit1, -⟩ := myLoop_cols_some h1
  obtain ⟨-, -, -, -, -, -, -, -, hit3, -⟩ := myLoop_cols_some h3
  exact rec_of_traces
    (myLoop_cols_padded h (by decide) (Or.inl rfl) h1)
    (myLoop_rows_padded h (by decide) (Or.inl rfl) (hcols _ _ _ hit1.1) h2)
    (myLoop_cols_padded h (by decide) (Or.inr rfl) h3)
    (myLoop_rows_padded h (by decide) (Or.inr rfl) (hcols _ _ _ hit3.1) h4)

theorem yields_padded {F F2 : List (List Nat)} (h : Padded F F2)
    (hcols : ∀ (i j : Int) (c : Nat), peek F i j = some c →
      ∀ i2, peek F i2 j = none → peek F2 i2 j = none) (i j : Nat) :
    yields (scanCell F2 i j) = yields (scanCell F i j) := by
  rcases scanCell_yields F i j with h0 | ⟨r, b, hc, hr, hb, hy⟩
  · rcases padded_yields h i j with e | ⟨e, -⟩
    · rw [e, h0]
    · exact e
  · obtain ⟨⟨l, hl⟩, c1, c2, c3⟩ := isCandidate_true hc
    obtain ⟨l2, hl2⟩ : ∃ l2, rowAt F2 i = some l2 := by
      rcases padded_rowAt h i with ⟨e, -⟩ | ⟨_, _, -, e2⟩
      · rw [e] at hl; simp at hl
      · exact ⟨_, e2⟩
    have hc2 : isCandidate F2 i j = .ok true := by
      rw [isCandidate_eq hl2]
      have d1 := padded_peek_of_some h c1
      have d2 : peek F2 (i + 1) j = some bar ∨ peek F2 (i + 1) j = some plus := by
        rcases c2 with e | e
        · exact Or.inl (padded_peek_of_some h e)
        · exact Or.inr (padded_peek_of_some h e)
      have d3 : peek F2 i (j + 1) = some minus ∨ peek F2 i (j + 1) = some plus := by
        rcases c3 with e | e
        · exact Or.inl (padded_peek_of_some h e)
        · exact Or.inr (padded_peek_of_some h e)
      simp [d1, d2, d3]
    rw [hy, yields_scanCell_of hc2 (rec_padded h hcols hr) hb]

theorem scan_padded {F F2 : List (List Nat)} (h : Padded F F2)
    (hcols : ∀ (i j : Int) (c : Nat), peek F i j = some c →
      ∀ i2, peek F i2 j = none → peek F2 i2 j = none) :
    scan F2 = scan F := by
  rw [scan_eq, scan_eq, flatMap_positions_padded _ (padded_length h)
    (fun i => padded_lineLength h i)]
  · congr 1
    apply List.flatMap_congr
    intro p _
    exact yields_padded h hcols p.1 p.2
  · intro i j hij
    rcases padded_yields h i j with e | ⟨-, e⟩
    · exact e
    · omega

theorem padLine_getElem?_ne (F : List (List Nat)) (k n i : Nat) (hi : i ≠ k) :
    (padLine F k n)[i]? = F[i]? := by
  induction F generalizing k i with
  | nil => simp [padLine]
  | cons l ls ih =>
    cases k with
    | zero =>
      cases i with
      | zero => exact absurd rfl hi
      | succ i => simp [padLine]
    | succ k =>
      cases i with
      | zero => simp [padLine]
      | succ i => simpa [padLine] using ih k i (by omega)

/-- Padding a line that is at least as long as every other line adds no cell to
a column in which a line has a cell. -/
theorem padLine_longest (F : List (List Nat)) (k n : Nat)
    (hmax : ∀ i : Nat, lineLength F i ≤ lineLength F k) :
    ∀ (i j : Int) (c : Nat), peek F i j = some c →
      ∀ i2, peek F i2 j = none → peek (padLine F k n) i2 j = none := by
  intro i j c hc i2 h2
  -- the column lies inside line `k`
  have hj : 0 ≤ j ∧ j < lineLength F k := by
    cases hl : rowAt F i with
    | none => simp [peek, hl] at hc
    | some l =>
      rw [peek_of_rowAt hl] at hc
      have hr := charAt_some_inRange hc
      obtain ⟨h0, -⟩ := rowAt_some_inRange hl
      have := hmax i.toNat
      have e : ((i.toNat : Nat) : Int) = i := by omega
      rw [e] at this
      have hlen : lineLength F i = l.length := by simp [lineLength, hl]
      omega
  by_cases hi2 : i2 = (k : Int)
  · subst hi2
    exfalso
    cases hl : rowAt F (k : Int) with
    | none => simp [lineLength, hl] at hj; omega
    | some l =>
      have hlen : lineLength F (k : Int) = l.length := by simp [lineLength, hl]
      obtain ⟨c2, hc2⟩ := charAt_inRange hj.1 (by omega : j < l.length)
      rw [peek_of_rowAt hl, hc2] at h2
      simp at h2
  · have hrow : rowAt (padLine F k n) i2 = rowAt F i2 := by
      unfold rowAt
      by_cases hneg : i2 < 0
      · simp [hneg]
      · simp only [hneg, if_false]
        exact padLine_getElem?_ne F k n _ (by omega)
    simp only [peek, hrow] at h2 ⊢
    exact h2

theorem exampleRagged_longest (i : Nat) :
    lineLength (split newline exampleRagged) i ≤ lineLength (split newline exampleRagged) (0 : Nat) := by
  have hlen : (split newline exampleRagged).length = 6 := by rfl
  have h0 : lineLength (split newline exampleRagged) (0 : Nat) = 3 := by rfl
  rw [h0]
  by_cases hi : i < 6
  · interval_cases i <;> decide
  · have hr : rowAt (split newline exampleRagged) (i : Int) = none := by
      rw [rowAt_natCast]; exact List.getElem?_eq_none (by omega)
    simp [lineLength, hr]

/-! ## The renderer, the size of a rectangle, the order of the scan, no error -/

/-- C6: for a width `w` and a height `h` of at least 2, `getFigure` returns the
text of `h` lines, each `w` code units long and followed by a line feed, of
length `h * (w + 1)` in all; the first and the last line are `+`, `w - 2` times
`-`, `+`, and each of the `h - 2` lines between them is `|`, `w - 2` spaces,
`|`. -/
theorem getFigure_format (w h : Nat) (hw : 2 ≤ w) (hh : 2 ≤ h) :
    ∃ lines : List (List Nat),
      getFigure { width := w, height := h } = .ok (unlines lines) ∧
      lines.length = h ∧ (∀ l ∈ lines, l.length = w) ∧
      (unlines lines).length = h * (w + 1) ∧
      lines[0]? = some ([plus] ++ List.replicate (w - 2) minus ++ [plus]) ∧
      lines[h - 1]? = some ([plus] ++ List.replicate (w - 2) minus ++ [plus]) ∧
      ∀ k, 1 ≤ k → k < h - 1 →
        lines[k]? = some ([bar] ++ List.replicate (w - 2) space ++ [bar]) := by
  have hlen : ∀ l ∈ canonicalLines w h, l.length = w := by
    intro l hl
    rcases mem_canonicalLines hl with rfl | rfl
    · exact length_edgeLine hw
    · exact length_innerLine hw
  refine ⟨canonicalLines w h, getFigure_eq hw hh, length_canonicalLines hh w, hlen, ?_, ?_, ?_, ?_⟩
  · rw [length_unlines w _ hlen, length_canonicalLines hh]
  · rw [canonicalLines_getElem?]; simp [edgeLine]
  · rw [canonicalLines_getElem?]
    by_cases h2 : h = 2
    · subst h2; simp [edgeLine]
    · have h3 : ¬ (h - 1 = 0) := by omega
      have h4 : ¬ (h - 1 ≤ h - 2) := by omega
      have h5 : h - 1 = h - 2 + 1 := by omega
      simp [h3, h4, h5, edgeLine]
  · intro k hk1 hk2
    rw [canonicalLines_getElem?]
    have h3 : ¬ (k = 0) := by omega
    have h4 : k ≤ h - 2 := by omega
    simp [h3, h4, innerLine]

/-- C7: a rectangle that `rec` returns, on any grid and from any position, has
width at least 2 and height at least 2, so that `getFigure` renders it without a
negative repeat count. -/
theorem rec_size (figure : List (List Nat)) (row col : Int) (r : Rect)
    (h : rec figure row col = .ok (some r)) :
    2 ≤ r.width ∧ 2 ≤ r.height ∧ ∃ block, getFigure r = .ok block := by
  obtain ⟨hw, hh⟩ := rec_dims h
  exact ⟨hw, hh, getFigure_ok hw hh⟩

/-- C8: on every text `getFigureRectangles` runs to its end without an error
and yields a finite sequence: no read of the scan loop indexes a line that is
not there, and at every position of the grid `rec`, with the traces it starts,
returns a rectangle or `false`. -/
theorem getFigureRectangles_total (text : List Nat) :
    (∃ blocks, getFigureRectangles text = .ok blocks) ∧
    ∀ p ∈ positions (split newline text),
      (∃ c, isCandidate (split newline text) p.1 p.2 = .ok c) ∧
      (∃ r, rec (split newline text) p.1 p.2 = .ok r) := by
  constructor
  · simp only [getFigureRectangles, getFigureRectanglesAt, scan_eq]
    exact ⟨_, rfl⟩
  · intro p hp
    obtain ⟨h1, -⟩ := mem_positions hp
    obtain ⟨l, hl⟩ := @rowAt_inRange (split newline text) (p.1 : Int)
      (by omega) (by omega)
    exact ⟨⟨_, isCandidate_eq hl p.2⟩, rec_ok hl _⟩

/-- C5: the sequence `getFigureRectangles` yields is made by going through the
positions of the grid line after line from the top, from left to right in each
line, and yielding at each position nothing or one block, the rendering of the
rectangle `rec` returns there; so the positions of the yielded blocks, in the
order they are yielded, go strictly forward in that order and none comes twice. -/
theorem getFigureRectangles_order (text : List Nat) :
    ∃ out : List ((Nat × Nat) × List Nat),
      getFigureRectanglesAt text = .ok out ∧
      getFigureRectangles text = .ok (out.map Prod.snd) ∧
      out = (positions (split newline text)).flatMap
        (fun p => yields (scanCell (split newline text) p.1 p.2)) ∧
      List.Pairwise lexLt (positions (split newline text)) ∧
      (∀ p : Nat × Nat, yields (scanCell (split newline text) p.1 p.2) = [] ∨
        ∃ r block, rec (split newline text) p.1 p.2 = .ok (some r) ∧
          getFigure r = .ok block ∧
          yields (scanCell (split newline text) p.1 p.2) = [(p, block)]) ∧
      List.Pairwise lexLt (out.map Prod.fst) ∧ (out.map Prod.fst).Nodup := by
  have hord := lexLt_yields (split newline text) _ (lexLt_positions (split newline text))
  refine ⟨_, scan_eq _, ?_, rfl, lexLt_positions _, ?_, hord, ?_⟩
  · simp only [getFigureRectangles, getFigureRectanglesAt, scan_eq]
  · intro p
    rcases scanCell_yields (split newline text) p.1 p.2 with h | ⟨r, b, -, h1, h2, h3⟩
    · exact Or.inl h
    · exact Or.inr ⟨r, b, h1, h2, h3⟩
  · refine hord.imp ?_
    intro a b hab e
    subst e
    rcases hab with h | ⟨-, h⟩ <;> exact lt_irrefl _ h

/-- The renderer on a 3 by 2 rectangle, as an instance of `getFigure_format`. -/
theorem getFigure_format_witness :
    2 ≤ 3 ∧ 2 ≤ 2 ∧
    ∃ lines : List (List Nat),
      getFigure { width := (3 : Nat), height := (2 : Nat) } = .ok (unlines lines) ∧
      lines.length = 2 ∧ (∀ l ∈ lines, l.length = 3) ∧
      (unlines lines).length = 2 * (3 + 1) ∧
      lines[0]? = some ([plus] ++ List.replicate (3 - 2) minus ++ [plus]) ∧
      lines[2 - 1]? = some ([plus] ++ List.replicate (3 - 2) minus ++ [plus]) ∧
      ∀ k, 1 ≤ k → k < 2 - 1 →
        lines[k]? = some ([bar] ++ List.replicate (3 - 2) space ++ [bar]) :=
  ⟨by decide, by decide, getFigure_format 3 2 (by decide) (by decide)⟩

/-- The validator on the lines `+-+`, `| |`, `+-+`, as an instance of `rec_size`. -/
theorem rec_size_witness :
    rec [units "+-+", units "| |", units "+-+"] 0 0 = .ok (some { width := 3, height := 3 }) ∧
    (2 ≤ (Rect.mk 3 3).width ∧ 2 ≤ (Rect.mk 3 3).height ∧
      ∃ block, getFigure (Rect.mk 3 3) = .ok block) :=
  ⟨by rfl, rec_size [units "+-+", units "| |", units "+-+"] 0 0 (Rect.mk 3 3) (by rfl)⟩

/-! ## The two examples of the documentation -/

/-- C3: the first example of the documentation, a 14 by 5 rectangle above an
8 by 4 and a 7 by 4 rectangle that share a divider, yields exactly three blocks,
which are, as a multiset, the canonical renderings of these three rectangles. -/
theorem exampleTee_blocks :
    ∃ blocks, getFigureRectangles exampleTee = .ok blocks ∧ blocks.length = 3 ∧
      blocks.Perm [canonical 14 5, canonical 8 4, canonical 7 4] :=
  ⟨[canonical 14 5, canonical 8 4, canonical 7 4], by rfl, by rfl, List.Perm.refl _⟩

/-- C4: the second example of the documentation yields exactly two blocks,
which are, as a multiset, the canonical renderings of a 7 by 3 and a 15 by 4
rectangle, found at the positions (0, 3) and (2, 0); the `+` at the columns 3
and 9 of the third line have a space below them, the trace of the top edge of
the large rectangle passes them and ends at column 14, and neither passes the
test of the scan loop. -/
theorem exampleStacked_blocks :
    (∃ blocks, getFigureRectangles exampleStacked = .ok blocks ∧ blocks.length = 2 ∧
      blocks.Perm [canonical 7 3, canonical 15 4]) ∧
    getFigureRectanglesAt exampleStacked =
      .ok [((0, 3), canonical 7 3), ((2, 0), canonical 15 4)] ∧
    peek (split newline exampleStacked) 2 3 = some plus ∧
    peek (split newline exampleStacked) 3 3 = some space ∧
    peek (split newline exampleStacked) 2 9 = some plus ∧
    peek (split newline exampleStacked) 3 9 = some space ∧
    myLoop (split newline exampleStacked) 2 0 0 1 bar = .ok (some 14) ∧
    isCandidate (split newline exampleStacked) 2 3 = .ok false ∧
    isCandidate (split newline exampleStacked) 2 9 = .ok false :=
  ⟨⟨[canonical 7 3, canonical 15 4], by rfl, by rfl, List.Perm.refl _⟩,
    by rfl, by rfl, by rfl, by rfl, by rfl, by rfl, by rfl, by rfl⟩

/-! ## One rectangle and two abutting rectangles, of any size -/

/-- C1: for a width `w` and a height `h` of at least 2, `getFigureRectangles` on
the canonical rendering of a `w` by `h` rectangle (`h` lines, each followed by
a line feed, the first and the last `+`, `w - 2` times `-`, `+`, the others `|`,
`w - 2` spaces, `|`) yields exactly one block, and the block is the input. -/
theorem roundTrip_single (w h : Nat) (hw : 2 ≤ w) (hh : 2 ≤ h) :
    getFigureRectangles (canonical w h) = .ok [canonical w h] := by
  simp only [getFigureRectangles, getFigureRectanglesAt, split_canonical, scan_canonical hw hh,
    List.map_cons, List.map_nil]

/-- The 8 by 3 rectangle of the first literal scenario, as an instance of
`roundTrip_single`. -/
theorem roundTrip_single_witness :
    2 ≤ 8 ∧ 2 ≤ 3 ∧ canonical 8 3 = units "+------+\n|      |\n+------+\n" ∧
    getFigureRectangles (canonical 8 3) = .ok [canonical 8 3] :=
  ⟨by decide, by decide, by rfl, roundTrip_single 8 3 (by decide) (by decide)⟩

/-- C2: for widths `w1`, `w2` and a height `h` of at least 2, the figure of two
rectangles that share one vertical divider (first and last line `+`, `w1 - 2`
times `-`, `+`, `w2 - 2` times `-`, `+`; the other lines `|`, `w1 - 2` spaces,
`|`, `w2 - 2` spaces, `|`) yields exactly two blocks, which are, as a multiset,
the canonical renderings of a `w1` by `h` and a `w2` by `h` rectangle. -/
theorem abutting_blocks (w1 w2 h : Nat) (hw1 : 2 ≤ w1) (hw2 : 2 ≤ w2) (hh : 2 ≤ h) :
    ∃ blocks, getFigureRectangles (abutting w1 w2 h) = .ok blocks ∧ blocks.length = 2 ∧
      blocks.Perm [canonical w1 h, canonical w2 h] := by
  refine ⟨[canonical w1 h, canonical w2 h], ?_, rfl, List.Perm.refl _⟩
  simp only [getFigureRectangles, getFigureRectanglesAt, split_abutting,
    scan_abutting hw1 hw2 hh, List.map_cons, List.map_nil]

/-- The figure of the second literal scenario, an 8 by 3 next to a 7 by 3
rectangle, as an instance of `abutting_blocks`. -/
theorem abutting_blocks_witness :
    2 ≤ 8 ∧ 2 ≤ 7 ∧ 2 ≤ 3 ∧
    abutting 8 7 3 = units "+------+-----+\n|      |     |\n+------+-----+\n" ∧
    ∃ blocks, getFigureRectangles (abutting 8 7 3) = .ok blocks ∧ blocks.length = 2 ∧
      blocks.Perm [canonical 8 3, canonical 7 3] :=
  ⟨by decide, by decide, by decide, by rfl,
    abutting_blocks 8 7 3 (by decide) (by decide) (by decide)⟩

/-! ## Cells past the end of a line -/

/-- The claim C10 as it was stated fails: in `exampleGap` the middle line is
empty, so its length 0 is at most 2 and at most 0; the trace down column 2 from
line 0 and the trace up column 0 from line 4 both reach that line and, instead
of failing, pass over it and return the lines 4 and 0; `rec` accepts the
candidate (0, 0) and a 3 by 5 rectangle is yielded. -/
theorem gap_passed :
    lineLength (split newline exampleGap) 2 = 0 ∧
    myLoop (split newline exampleGap) 0 2 1 0 minus = .ok (some 4) ∧
    myLoop (split newline exampleGap) 4 0 (-1) 0 minus = .ok (some 0) ∧
    rec (split newline exampleGap) 0 0 = .ok (some { width := 3, height := 5 }) ∧
    getFigureRectanglesAt exampleGap = .ok [((0, 0), canonical 3 5)] :=
  ⟨by rfl, by rfl, by rfl, by rfl, by rfl⟩

/-- C10, amended: a trace that walks off the grid fails. For every grid, start
and step `d`: when no position inside the grid in the direction of travel is a
terminating corner (down to the last or up to the first line for a trace along
a column, up to the end or the start of the line for a trace along a line that
is there), `myLoop` returns `false`; a rectangle is returned by `rec` only when
none of its four traces failed, and nothing is yielded where `rec` returns
`false`. A line too short to have a cell in the column of a vertical trace does
not make the trace fail: the loop goes on to the next line. -/
theorem trace_off_grid (figure : List (List Nat)) (row col d : Int) (s : Nat) :
    ((∀ n : Nat, 0 ≤ row + d + n * d → row + d + n * d < figure.length →
        ¬ Hit (peek figure (row + d + n * d) col) (peek figure (row + d + n * d) (col - d)) s) →
      myLoop figure row col d 0 s = .ok none) ∧
    (∀ l, rowAt figure row = some l →
      (∀ n : Nat, 0 ≤ col + d + n * d → col + d + n * d < l.length →
        ¬ Hit (peek figure row (col + d + n * d)) (peek figure (row + d) (col + d + n * d)) s) →
      myLoop figure row col 0 d s = .ok none) ∧
    (∀ r, rec figure row col = .ok (some r) → ∃ column rowumn : Int,
      myLoop figure row col 0 1 bar = .ok (some column) ∧
      myLoop figure row column 1 0 minus = .ok (some rowumn) ∧
      myLoop figure rowumn column 0 (-1) bar = .ok (some col) ∧
      myLoop figure rowumn col (-1) 0 minus = .ok (some row)) ∧
    (∀ i j : Nat, rec figure i j = .ok none → yields (scanCell figure i j) = []) ∧
    (∀ (fuel : Nat) (i : Int), 0 ≤ i → i < figure.length → peek figure i col = none →
      loopRows figure col d s (fuel + 1) i = loopRows figure col d s fuel (i + d)) := by
  refine ⟨myLoop_rows_none, fun l hl => myLoop_cols_none hl, ?_, fun i j => yields_of_rec_none,
    fun fuel i => loopRows_pass fuel⟩
  intro r hr
  obtain ⟨column, rowumn, h1, h2, h3, h4, -⟩ := rec_some hr
  exact ⟨column, rowumn, h1, h2, h3, h4⟩

/-- The trace to the right from the corner of `+--` over `|  ` runs off the end
of the line and fails, as an instance of `trace_off_grid`. -/
theorem trace_off_grid_witness :
    myLoop [units "+--", units "|  "] 0 0 0 1 bar = .ok none := by
  refine (trace_off_grid [units "+--", units "|  "] 0 0 1 bar).2.1 (units "+--") (by rfl) ?_
  intro n h1 h2
  have h3 : (n : Int) < 2 := by
    have : ((units "+--").length : Int) = 3 := by rfl
    omega
  have h4 : n = 0 ∨ n = 1 := by omega
  rcases h4 with rfl | rfl <;> decide

/-- The claim C9 as it was stated fails: `examplePadded` is `exampleRagged`
with two spaces appended to its middle line, the first text yields a 3 by 5
rectangle and the second yields nothing. -/
theorem padding_removes_block :
    split newline examplePadded = padLine (split newline exampleRagged) 2 2 ∧
    getFigureRectangles exampleRagged = .ok [canonical 3 5] ∧
    getFigureRectangles examplePadded = .ok [] ∧
    getFigureRectangles examplePadded ≠ getFigureRectangles exampleRagged := by
  have h1 : getFigureRectangles exampleRagged = .ok [canonical 3 5] := by rfl
  have h2 : getFigureRectangles examplePadded = .ok [] := by rfl
  refine ⟨by rfl, h1, h2, ?_⟩
  rw [h1, h2]
  simp

/-- C9, amended: when spaces are appended to the end of a line, a cell of the
grid keeps what it read, but for a cell past the end of the line, which read
`undefined` and now reads a space; the blocks yielded after it are a
subsequence of the blocks yielded before it, so no block is added or changed;
and they are the same blocks when the line is at least as long as every other
line. (A vertical trace passes over a cell past the end of a short line, where
a space makes it fail.) -/
theorem padding_subsequence (text text2 : List Nat) (k n : Nat)
    (h : split newline text2 = padLine (split newline text) k n) :
    (∀ i j : Int, peek (split newline text2) i j = peek (split newline text) i j ∨
      (peek (split newline text) i j = none ∧ peek (split newline text2) i j = some space)) ∧
    (∃ blocks blocks2, getFigureRectangles text = .ok blocks ∧
      getFigureRectangles text2 = .ok blocks2 ∧ blocks2.Sublist blocks) ∧
    ((∀ i : Nat, lineLength (split newline text) i ≤ lineLength (split newline text) k) →
      getFigureRectangles text2 = getFigureRectangles text) := by
  have hp : Padded (split newline text) (split newline text2) := by
    rw [h]; exact padded_padLine _ _ _
  refine ⟨padded_peek hp, ?_, ?_⟩
  · obtain ⟨out, out2, h1, h2, h3⟩ := padded_scan hp
    refine ⟨out.map Prod.snd, out2.map Prod.snd, ?_, ?_, h3.map _⟩
    · simp only [getFigureRectangles, getFigureRectanglesAt, h1]
    · simp only [getFigureRectangles, getFigureRectanglesAt, h2]
  · intro hmax
    have hcols := padLine_longest (split newline text) k n hmax
    rw [← h] at hcols
    simp only [getFigureRectangles, getFigureRectanglesAt, scan_padded hp hcols]

/-- Spaces appended to the middle line of `exampleRagged`, which removes its
block, and to its first line, a longest one, which changes nothing, as instances
of `padding_subsequence`. -/
theorem padding_subsequence_witness :
    split newline examplePadded = padLine (split newline exampleRagged) 2 2 ∧
    (∃ blocks blocks2, getFigureRectangles exampleRagged = .ok blocks ∧
      getFigureRectangles examplePadded = .ok blocks2 ∧ blocks2.Sublist blocks) ∧
    split newline examplePaddedTop = padLine (split newline exampleRagged) 0 2 ∧
    (∀ i : Nat, lineLength (split newline exampleRagged) i ≤
      lineLength (split newline exampleRagged) (0 : Nat)) ∧
    getFigureRectangles examplePaddedTop = getFigureRectangles exampleRagged :=
  ⟨by rfl, (padding_subsequence exampleRagged examplePadded 2 2 (by rfl)).2.1, by rfl,
    exampleRagged_longest,
    (padding_subsequence exampleRagged examplePaddedTop 0 2 (by rfl)).2.2 exampleRagged_longest⟩

/-! ## The closing condition of a trace -/

/-- What a trace to the right returns: a column further right on the line, the
first at which the test of the loop holds, with no space before it. -/
theorem trace_right {figure : List (List Nat)} {row col p : Int} {s : Nat}
    (h : myLoop figure row col 0 1 s = .ok (some p)) :
    ∃ l, rowAt figure row = some l ∧ col < p ∧ 0 ≤ col + 1 ∧ p < l.length ∧
      Hit (peek figure row p) (peek figure (row + 1) p) s ∧
      ∀ k : Int, col < k → k < p →
        ¬ Hit (peek figure row k) (peek figure (row + 1) k) s ∧
        peek figure row k ≠ some space := by
  obtain ⟨l, a, n, hl, -, -, hp, hrange, hhit, hbefore⟩ := myLoop_cols_some h
  have h0 := hrange 0 (Nat.zero_le _)
  have hn := hrange n (le_refl _)
  simp only [Nat.cast_zero, zero_mul, add_zero, mul_one] at h0 hn hp
  refine ⟨l, hl, by omega, h0.1, by omega, hhit, ?_⟩
  intro k hk1 hk2
  have hb := hbefore (k - col - 1).toNat (by omega)
  have e : col + 1 + ((k - col - 1).toNat : Int) * 1 = k := by omega
  rw [e] at hb
  exact hb

/-- What a trace to the left returns: a column further left on the line, the
first at which the test of the loop holds, with no space before it. -/
theorem trace_left {figure : List (List Nat)} {row col p : Int} {s : Nat}
    (h : myLoop figure row col 0 (-1) s = .ok (some p)) :
    ∃ l, rowAt figure row = some l ∧ p < col ∧ 0 ≤ p ∧ col - 1 < l.length ∧
      Hit (peek figure row p) (peek figure (row - 1) p) s ∧
      ∀ k : Int, p < k → k < col →
        ¬ Hit (peek figure row k) (peek figure (row - 1) k) s ∧
        peek figure row k ≠ some space := by
  obtain ⟨l, a, n, hl, -, -, hp, hrange, hhit, hbefore⟩ := myLoop_cols_some h
  have h0 := hrange 0 (Nat.zero_le _)
  have hn := hrange n (le_refl _)
  have er : row + -1 = row - 1 := by ring
  rw [er] at hhit hbefore
  simp only [Nat.cast_zero, zero_mul, add_zero] at h0
  refine ⟨l, hl, by omega, by omega, by omega, hhit, ?_⟩
  intro k hk1 hk2
  have hb := hbefore (col - 1 - k).toNat (by omega)
  have e : col + -1 + ((col - 1 - k).toNat : Int) * -1 = k := by omega
  rw [e] at hb
  exact hb

/-- What a trace down returns: a line further down, the first at which the test
of the loop holds, with no space before it. -/
theorem trace_down {figure : List (List Nat)} {row col p : Int} {s : Nat}
    (h : myLoop figure row col 1 0 s = .ok (some p)) :
    row < p ∧ 0 ≤ row + 1 ∧ p < figure.length ∧
      Hit (peek figure p col) (peek figure p (col - 1)) s ∧
      ∀ k : Int, row < k → k < p →
        ¬ Hit (peek figure k col) (peek figure k (col - 1)) s ∧
        peek figure k col ≠ some space := by
  obtain ⟨n, hp, hrange, hhit, hbefore⟩ := myLoop_rows_some (by decide) h
  have h0 := hrange 0 (Nat.zero_le _)
  have hn := hrange n (le_refl _)
  simp only [Nat.cast_zero, zero_mul, add_zero, mul_one] at h0 hn hp
  refine ⟨by omega, h0.1, by omega, hhit, ?_⟩
  intro k hk1 hk2
  have hb := hbefore (k - row - 1).toNat (by omega)
  have e : row + 1 + ((k - row - 1).toNat : Int) * 1 = k := by omega
  rw [e] at hb
  exact hb

/-- What a trace up returns: a line further up, the first at which the test of
the loop holds, with no space before it. -/
theorem trace_up {figure : List (List Nat)} {row col p : Int} {s : Nat}
    (h : myLoop figure row col (-1) 0 s = .ok (some p)) :
    p < row ∧ 0 ≤ p ∧ row - 1 < figure.length ∧
      Hit (peek figure p col) (peek figure p (col + 1)) s ∧
      ∀ k : Int, p < k → k < row →
        ¬ Hit (peek figure k col) (peek figure k (col + 1)) s ∧
        peek figure k col ≠ some space := by
  obtain ⟨n, hp, hrange, hhit, hbefore⟩ := myLoop_rows_some (by decide) h
  have h0 := hrange 0 (Nat.zero_le _)
  have hn := hrange n (le_refl _)
  have ec : col - -1 = col + 1 := by ring
  rw [ec] at hhit hbefore
  simp only [Nat.cast_zero, zero_mul, add_zero] at h0
  refine ⟨by omega, by omega, by omega, hhit, ?_⟩
  intro k hk1 hk2
  have hb := hbefore (row - 1 - k).toNat (by omega)
  have e : row + -1 + ((row - 1 - k).toNat : Int) * -1 = k := by omega
  rw [e] at hb
  exact hb

/-- C15: whenever `myLoop` returns a position `p` for one of the four traces of
`rec`, (1) the cell at `p` is `+`; (2) the neighbour of `p` across the edge
(below `p` for a trace to the right, left of `p` for a trace down, above `p`
for a trace to the left, right of `p` for a trace up) is `+` or the edge
character of the other axis (`|` for the traces along a line, `-` for the traces
along a column); (3) no cell strictly between the start and `p` is a space; and
(4) no position strictly between the start and `p` satisfies (1) and (2), so
`p` is the nearest one that does. -/
theorem myLoop_closing (figure : List (List Nat)) (row col p : Int) :
    (myLoop figure row col 0 1 bar = .ok (some p) →
      col < p ∧ peek figure row p = some plus ∧
      (peek figure (row + 1) p = some plus ∨ peek figure (row + 1) p = some bar) ∧
      (∀ k : Int, col < k → k < p → peek figure row k ≠ some space) ∧
      ∀ k : Int, col < k → k < p → ¬ (peek figure row k = some plus ∧
        (peek figure (row + 1) k = some plus ∨ peek figure (row + 1) k = some bar))) ∧
    (myLoop figure row col 1 0 minus = .ok (some p) →
      row < p ∧ peek figure p col = some plus ∧
      (peek figure p (col - 1) = some plus ∨ peek figure p (col - 1) = some minus) ∧
      (∀ k : Int, row < k → k < p → peek figure k col ≠ some space) ∧
      ∀ k : Int, row < k → k < p → ¬ (peek figure k col = some plus ∧
        (peek figure k (col - 1) = some plus ∨ peek figure k (col - 1) = some minus))) ∧
    (myLoop figure row col 0 (-1) bar = .ok (some p) →
      p < col ∧ peek figure row p = some plus ∧
      (peek figure (row - 1) p = some plus ∨ peek figure (row - 1) p = some bar) ∧
      (∀ k : Int, p < k → k < col → peek figure row k ≠ some space) ∧
      ∀ k : Int, p < k → k < col → ¬ (peek figure row k = some plus ∧
        (peek figure (row - 1) k = some plus ∨ peek figure (row - 1) k = some bar))) ∧
    (myLoop figure row col (-1) 0 minus = .ok (some p) →
      p < row ∧ peek figure p col = some plus ∧
      (peek figure p (col + 1) = some plus ∨ peek figure p (col + 1) = some minus) ∧
      (∀ k : Int, p < k → k < row → peek figure k col ≠ some space) ∧
      ∀ k : Int, p < k → k < row → ¬ (peek figure k col = some plus ∧
        (peek figure k (col + 1) = some plus ∨ peek figure k (col + 1) = some minus))) := by
  refine ⟨fun h => ?_, fun h => ?_, fun h => ?_, fun h => ?_⟩
  · obtain ⟨l, -, h1, -, -, hhit, hb⟩ := trace_right h
    exact ⟨h1, hhit.1, hhit.2, fun k a b => (hb k a b).2, fun k a b => (hb k a b).1⟩
  · obtain ⟨h1, -, -, hhit, hb⟩ := trace_down h
    exact ⟨h1, hhit.1, hhit.2, fun k a b => (hb k a b).2, fun k a b => (hb k a b).1⟩
  · obtain ⟨l, -, h1, -, -, hhit, hb⟩ := trace_left h
    exact ⟨h1, hhit.1, hhit.2, fun k a b => (hb k a b).2, fun k a b => (hb k a b).1⟩
  · obtain ⟨h1, -, -, hhit, hb⟩ := trace_up h
    exact ⟨h1, hhit.1, hhit.2, fun k a b => (hb k a b).2, fun k a b => (hb k a b).1⟩

/-- The trace to the right from the corner (4, 0) of `exampleTee` stops at the
junction in column 7, as an instance of `myLoop_closing`. -/
theorem myLoop_closing_witness :
    myLoop (split newline exampleTee) 4 0 0 1 bar = .ok (some 7) ∧
    ((0 : Int) < 7 ∧ peek (split newline exampleTee) 4 7 = some plus ∧
      (peek (split newline exampleTee) (4 + 1) 7 = some plus ∨
        peek (split newline exampleTee) (4 + 1) 7 = some bar) ∧
      (∀ k : Int, 0 < k → k < 7 → peek (split newline exampleTee) 4 k ≠ some space) ∧
      ∀ k : Int, 0 < k → k < 7 → ¬ (peek (split newline exampleTee) 4 k = some plus ∧
        (peek (split newline exampleTee) (4 + 1) k = some plus ∨
          peek (split newline exampleTee) (4 + 1) k = some bar))) :=
  ⟨by rfl, (myLoop_closing (split newline exampleTee) 4 0 7).1 (by rfl)⟩

/-! ## Candidates and the cells of a yielded rectangle -/

theorem mem_scan {figure : List (List Nat)} {out : List ((Nat × Nat) × List Nat)}
    (h : scan figure = .ok out) {e : (Nat × Nat) × List Nat} (he : e ∈ out) :
    e.1 ∈ positions figure ∧
      ∃ r, isCandidate figure e.1.1 e.1.2 = .ok true ∧
        rec figure e.1.1 e.1.2 = .ok (some r) ∧ getFigure r = .ok e.2 := by
  rw [scan_eq] at h
  simp only [Except.ok.injEq] at h
  subst h
  rw [List.mem_flatMap] at he
  obtain ⟨p, hp, hy⟩ := he
  rcases scanCell_yields figure p.1 p.2 with h0 | ⟨r, b, hc, hr, hb, hy2⟩
  · rw [h0] at hy; simp at hy
  · rw [hy2] at hy
    simp only [List.mem_singleton] at hy
    subst hy
    exact ⟨hp, r, hc, hr, hb⟩

/-- C16: a block is yielded for a position only if the position is a
top-left-corner candidate: its cell is `+`, the cell below it is `|` or `+` and
the cell to its right is `-` or `+`. At every position of the grid the test of
the scan loop is exactly this; where it fails the body of the scan yields
nothing and `rec` is not run; where it holds the body of the scan is the call
of `rec` and the rendering of what it returns. -/
theorem candidate_rule (text : List Nat) :
    ∃ out, getFigureRectanglesAt text = .ok out ∧
      (∀ e ∈ out, IsCandidate (split newline text) e.1.1 e.1.2) ∧
      (∀ p ∈ positions (split newline text),
        isCandidate (split newline text) p.1 p.2 =
          .ok (decide (IsCandidate (split newline text) p.1 p.2))) ∧
      (∀ p ∈ positions (split newline text), ¬ IsCandidate (split newline text) p.1 p.2 →
        scanCell (split newline text) p.1 p.2 = .ok []) ∧
      (∀ p ∈ positions (split newline text), IsCandidate (split newline text) p.1 p.2 →
        scanCell (split newline text) p.1 p.2 =
          match rec (split newline text) p.1 p.2 with
          | .error e => .error e
          | .ok none => .ok []
          | .ok (some obj) =>
            match getFigure obj with
            | .error e => .error e
            | .ok block => .ok [((p.1, p.2), block)]) := by
  have hrow : ∀ p ∈ positions (split newline text),
      ∃ l, rowAt (split newline text) (p.1 : Int) = some l := by
    intro p hp
    obtain ⟨h1, -⟩ := mem_positions hp
    exact @rowAt_inRange (split newline text) (p.1 : Int) (by omega) (by omega)
  refine ⟨_, scan_eq _, ?_, ?_, ?_, ?_⟩
  · intro e he
    obtain ⟨-, r, hc, -, -⟩ := mem_scan (scan_eq _) he
    exact (isCandidate_true hc).2
  · intro p hp
    obtain ⟨l, hl⟩ := hrow p hp
    exact isCandidate_eq hl p.2
  · intro p hp hn
    obtain ⟨l, hl⟩ := hrow p hp
    unfold scanCell
    rw [isCandidate_eq hl]
    unfold IsCandidate at hn
    simp only [hn, decide_False]
  · intro p hp hc
    obtain ⟨l, hl⟩ := hrow p hp
    unfold IsCandidate at hc
    conv_lhs => unfold scanCell
    rw [isCandidate_eq hl]
    simp only [hc, and_self, decide_True]

theorem peek_inRange {figure : List (List Nat)} {i j : Int} {l : List Nat}
    (hl : rowAt figure i = some l) (h0 : 0 ≤ j) (h1 : j < l.length) :
    ∃ x, peek figure i j = some x := by
  rw [peek_of_rowAt hl]
  exact charAt_inRange h0 h1

/-- The cells on the four sides of a rectangle that `rec` returns. -/
theorem rec_sound {figure : List (List Nat)} {row col : Int} {r : Rect}
    (h : rec figure row col = .ok (some r)) :
    2 ≤ r.width ∧ 2 ≤ r.height ∧
    peek figure row col = some plus ∧
    peek figure row (col + r.width - 1) = some plus ∧
    peek figure (row + r.height - 1) (col + r.width - 1) = some plus ∧
    peek figure (row + r.height - 1) col = some plus ∧
    (∀ k : Int, col ≤ k → k ≤ col + r.width - 1 →
      ∃ x, peek figure row k = some x ∧ x ≠ space) ∧
    (∀ k : Int, col ≤ k → k ≤ col + r.width - 1 →
      ∃ x, peek figure (row + r.height - 1) k = some x ∧ x ≠ space) ∧
    (∀ k : Int, row ≤ k → k ≤ row + r.height - 1 → peek figure k col ≠ some space) ∧
    (∀ k : Int, row ≤ k → k ≤ row + r.height - 1 →
      peek figure k (col + r.width - 1) ≠ some space) := by
  obtain ⟨hw, hh⟩ := rec_dims h
  obtain ⟨column, rowumn, h1, h2, h3, h4, rfl⟩ := rec_some h
  obtain ⟨l1, hl1, a1, a2, a3, hit1, b1⟩ := trace_right h1
  obtain ⟨c1, c2, c3, hit2, b2⟩ := trace_down h2
  obtain ⟨l3, hl3, d1, d2, d3, hit3, b3⟩ := trace_left h3
  obtain ⟨e1, e2, e3, hit4, b4⟩ := trace_up h4
  have ew : col + (column - col + 1) - 1 = column := by ring
  have eh : row + (rowumn - row + 1) - 1 = rowumn := by ring
  simp only [ew, eh]
  have hplus : plus ≠ space := by decide
  refine ⟨hw, hh, hit4.1, hit1.1, hit2.1, hit3.1, ?_, ?_, ?_, ?_⟩
  · intro k hk1 hk2
    rcases eq_or_lt_of_le hk1 with e | hlt
    · subst e; exact ⟨plus, hit4.1, hplus⟩
    · rcases eq_or_lt_of_le hk2 with e | hlt2
      · subst e; exact ⟨plus, hit1.1, hplus⟩
      · obtain ⟨x, hx⟩ := peek_inRange hl1 (by omega : 0 ≤ k) (by omega)
        refine ⟨x, hx, ?_⟩
        intro e
        exact (b1 k hlt hlt2).2 (e ▸ hx)
  · intro k hk1 hk2
    rcases eq_or_lt_of_le hk1 with e | hlt
    · subst e; exact ⟨plus, hit3.1, hplus⟩
    · rcases eq_or_lt_of_le hk2 with e | hlt2
      · subst e; exact ⟨plus, hit2.1, hplus⟩
      · obtain ⟨x, hx⟩ := peek_inRange hl3 (by omega : 0 ≤ k) (by omega)
        refine ⟨x, hx, ?_⟩
        intro e
        exact (b3 k hlt hlt2).2 (e ▸ hx)
  · intro k hk1 hk2
    rcases eq_or_lt_of_le hk1 with e | hlt
    · subst e; rw [hit4.1]; simp
    · rcases eq_or_lt_of_le hk2 with e | hlt2
      · subst e; rw [hit3.1]; simp
      · exact (b4 k hlt hlt2).2
  · intro k hk1 hk2
    rcases eq_or_lt_of_le hk1 with e | hlt
    · subst e; rw [hit1.1]; simp
    · rcases eq_or_lt_of_le hk2 with e | hlt2
      · subst e; rw [hit2.1]; simp
      · exact (b2 k hlt hlt2).2

/-- C17: when a block is yielded for the top-left corner `(r, c)`, it is the
rendering of a `w` by `h` rectangle that `rec` returns there, and in the grid
the four cells `(r, c)`, `(r, c + w - 1)`, `(r + h - 1, c + w - 1)` and
`(r + h - 1, c)` exist and hold `+`, every cell of the top and of the bottom
line segment exists and is not a space, and no cell of the left and of the right
column segment is a space. -/
theorem yielded_rectangle_sound (text : List Nat) (out : List ((Nat × Nat) × List Nat))
    (h : getFigureRectanglesAt text = .ok out) (r c : Nat) (block : List Nat)
    (he : ((r, c), block) ∈ out) :
    ∃ w h : Nat, 2 ≤ w ∧ 2 ≤ h ∧ block = canonical w h ∧
      rec (split newline text) r c = .ok (some { width := w, height := h }) ∧
      peek (split newline text) r c = some plus ∧
      peek (split newline text) r ((c : Int) + w - 1) = some plus ∧
      peek (split newline text) ((r : Int) + h - 1) ((c : Int) + w - 1) = some plus ∧
      peek (split newline text) ((r : Int) + h - 1) c = some plus ∧
      (∀ k : Int, (c : Int) ≤ k → k ≤ (c : Int) + w - 1 →
        ∃ x, peek (split newline text) r k = some x ∧ x ≠ space) ∧
      (∀ k : Int, (c : Int) ≤ k → k ≤ (c : Int) + w - 1 →
        ∃ x, peek (split newline text) ((r : Int) + h - 1) k = some x ∧ x ≠ space) ∧
      (∀ k : Int, (r : Int) ≤ k → k ≤ (r : Int) + h - 1 →
        peek (split newline text) k c ≠ some space) ∧
      (∀ k : Int, (r : Int) ≤ k → k ≤ (r : Int) + h - 1 →
        peek (split newline text) k ((c : Int) + w - 1) ≠ some space) := by
  obtain ⟨-, rect, -, hrec, hb⟩ := mem_scan h he
  simp only at hrec hb
  obtain ⟨hw, hh, hs⟩ := rec_sound hrec
  obtain ⟨w, h⟩ := rect
  simp only at hw hh hs
  obtain ⟨w, rfl⟩ := Int.eq_ofNat_of_zero_le (by omega : 0 ≤ w)
  obtain ⟨h, rfl⟩ := Int.eq_ofNat_of_zero_le (by omega : 0 ≤ h)
  have hw2 : 2 ≤ w := by omega
  have hh2 : 2 ≤ h := by omega
  rw [getFigure_eq hw2 hh2] at hb
  simp only [Except.ok.injEq] at hb
  exact ⟨w, h, hw2, hh2, hb.symm, hrec, hs⟩

/-- The 7 by 4 rectangle yielded at (4, 7) for `exampleTee`, as an instance of
`yielded_rectangle_sound`. -/
theorem yielded_rectangle_sound_witness :
    getFigureRectanglesAt exampleTee =
      .ok [((0, 0), canonical 14 5), ((4, 0), canonical 8 4), ((4, 7), canonical 7 4)] ∧
    ∃ w h : Nat, 2 ≤ w ∧ 2 ≤ h ∧ canonical 7 4 = canonical w h ∧
      rec (split newline exampleTee) (4 : Nat) (7 : Nat) =
        .ok (some { width := w, height := h }) ∧
      peek (split newline exampleTee) (4 : Nat) (7 : Nat) = some plus ∧
      peek (split newline exampleTee) (4 : Nat) (((7 : Nat) : Int) + w - 1) = some plus ∧
      peek (split newline exampleTee) (((4 : Nat) : Int) + h - 1) (((7 : Nat) : Int) + w - 1) =
        some plus ∧
      peek (split newline exampleTee) (((4 : Nat) : Int) + h - 1) (7 : Nat) = some plus ∧
      (∀ k : Int, ((7 : Nat) : Int) ≤ k → k ≤ ((7 : Nat) : Int) + w - 1 →
        ∃ x, peek (split newline exampleTee) (4 : Nat) k = some x ∧ x ≠ space) ∧
      (∀ k : Int, ((7 : Nat) : Int) ≤ k → k ≤ ((7 : Nat) : Int) + w - 1 →
        ∃ x, peek (split newline exampleTee) (((4 : Nat) : Int) + h - 1) k = some x ∧
          x ≠ space) ∧
      (∀ k : Int, ((4 : Nat) : Int) ≤ k → k ≤ ((4 : Nat) : Int) + h - 1 →
        peek (split newline exampleTee) k (7 : Nat) ≠ some space) ∧
      (∀ k : Int, ((4 : Nat) : Int) ≤ k → k ≤ ((4 : Nat) : Int) + h - 1 →
        peek (split newline exampleTee) k (((7 : Nat) : Int) + w - 1) ≠ some space) :=
  ⟨by rfl,
    yielded_rectangle_sound exampleTee
      [((0, 0), canonical 14 5), ((4, 0), canonical 8 4), ((4, 7), canonical 7 4)]
      (by rfl) 4 7 (canonical 7 4) (by simp)⟩

/-! ## `wrapText` -/

theorem split_ne_nil (sep : Nat) (text : List Nat) : split sep text ≠ [] := by
  cases text with
  | nil => simp [split]
  | cons c cs =>
    simp only [split]
    split_ifs
    · simp
    · split <;> simp

theorem jsJoin_cons (sep a : List Nat) {rest : List (List Nat)} (h : rest ≠ []) :
    jsJoin sep (a :: rest) = a ++ sep ++ jsJoin sep rest := by
  cases rest with
  | nil => exact absurd rfl h
  | cons b bs => rfl

/-- Joining the pieces of `split` with the separator gives the text back. -/
theorem jsJoin_split (sep : Nat) (text : List Nat) :
    jsJoin [sep] (split sep text) = text := by
  induction text with
  | nil => rfl
  | cons c cs ih =>
    simp only [split]
    split_ifs with hc
    · rw [jsJoin_cons _ _ (split_ne_nil sep cs), ih, hc]; rfl
    · cases hs : split sep cs with
      | nil => exact absurd hs (split_ne_nil sep cs)
      | cons l ls =>
        rw [hs] at ih
        simp only
        cases ls with
        | nil =>
          simp only [jsJoin] at ih ⊢
          rw [ih]
        | cons b bs =>
          simp only [jsJoin] at ih ⊢
          rw [← ih]; simp

theorem wrapLoop_ne_nil (columns : Int) (ws : List (List Nat)) :
    ∀ ln, wrapLoop columns ln ws ≠ [] := by
  induction ws with
  | nil => intro ln; simp [wrapLoop]
  | cons w ws ih =>
    intro ln
    simp only [wrapLoop]
    split_ifs
    · exact ih _
    · simp

theorem jsJoin_wrapLoop (columns : Int) (ws : List (List Nat)) :
    ∀ ln, jsJoin [space] (wrapLoop columns ln ws) = jsJoin [space] (ln :: ws) := by
  induction ws with
  | nil => intro ln; rfl
  | cons w ws ih =>
    intro ln
    simp only [wrapLoop]
    split_ifs
    · rw [ih]
      cases ws with
      | nil => simp [jsJoin]
      | cons x xs => simp [jsJoin]
    · rw [jsJoin_cons _ _ (wrapLoop_ne_nil columns ws w), ih]
      rfl

theorem jsJoin_append_singleton (sep : List Nat) {g : List (List Nat)} (hg : g ≠ [])
    (w : List Nat) : jsJoin sep (g ++ [w]) = jsJoin sep g ++ sep ++ w := by
  induction g with
  | nil => exact absurd rfl hg
  | cons a rest ih =>
    cases rest with
    | nil => simp [jsJoin]
    | cons b bs =>
      have h1 : jsJoin sep (a :: b :: bs ++ [w]) =
          a ++ sep ++ jsJoin sep (b :: bs ++ [w]) := jsJoin_cons sep a (by simp)
      have h2 : jsJoin sep (a :: b :: bs) = a ++ sep ++ jsJoin sep (b :: bs) :=
        jsJoin_cons sep a (by simp)
      rw [h1, h2, ih (by simp)]
      simp only [List.append_assoc]

/-- The lines `wrapLoop` yields are the words of the line it was given and the
words left, cut into runs, each run joined with single spaces. -/
theorem wrapLoop_groups (columns : Int) (ws : List (List Nat)) :
    ∀ g : List (List Nat), g ≠ [] →
      ∃ groups : List (List (List Nat)), groups.flatten = g ++ ws ∧
        (∀ x ∈ groups, x ≠ []) ∧
        wrapLoop columns (jsJoin [space] g) ws = groups.map (jsJoin [space]) := by
  induction ws with
  | nil => intro g hg; exact ⟨[g], by simp, by simpa using hg, rfl⟩
  | cons w ws ih =>
    intro g hg
    simp only [wrapLoop]
    split_ifs
    · obtain ⟨groups, h1, h2, h3⟩ := ih (g ++ [w]) (by simp)
      refine ⟨groups, by simpa using h1, h2, ?_⟩
      rw [← h3, jsJoin_append_singleton _ hg]
      simp
    · obtain ⟨groups, h1, h2, h3⟩ := ih [w] (by simp)
      refine ⟨g :: groups, by simp [h1], ?_, ?_⟩
      · intro x hx
        rcases List.mem_cons.1 hx with rfl | hx
        · exact hg
        · exact h2 x hx
      · simp only [jsJoin] at h3
        rw [List.map_cons, h3]

/-- A line `wrapLoop` yields is at most `columns` long or is one of the words. -/
theorem wrapLoop_length (columns : Int) (words ws : List (List Nat)) :
    (∀ w ∈ ws, w ∈ words) → ∀ ln, (((ln.length : Nat) : Int) ≤ columns ∨ ln ∈ words) →
      ∀ out ∈ wrapLoop columns ln ws, ((out.length : Nat) : Int) ≤ columns ∨ out ∈ words := by
  induction ws with
  | nil => intro _ ln h out hout; simp [wrapLoop] at hout; subst hout; exact h
  | cons w ws ih =>
    intro hws ln h out hout
    simp only [wrapLoop] at hout
    split_ifs at hout with hc
    · refine ih (fun x hx => hws x (List.mem_cons_of_mem _ hx)) _ (Or.inl ?_) out hout
      simp only [List.length_append, List.length_cons]
      push_cast at hc ⊢
      omega
    · rcases List.mem_cons.1 hout with rfl | hout
      · exact h
      · exact ih (fun x hx => hws x (List.mem_cons_of_mem _ hx)) w
          (Or.inr (hws w (List.mem_cons_self _ _))) out hout

/-- The two examples of the documentation of `wrapText`. -/
theorem wrapText_documented :
    wrapText exampleSentence 26 =
      [units "The String global object", units "is a constructor for",
        units "strings, or a sequence of", units "characters."] ∧
    wrapText exampleSentence 12 =
      [units "The String", units "global", units "object is a", units "constructor",
        units "for strings,", units "or a", units "sequence of", units "characters."] :=
  ⟨by rfl, by rfl⟩

/-- The claim C13 as it was stated fails: with 3 columns the text `abcdef gh`
yields the line `abcdef`, which is 6 long. -/
theorem long_word_exceeds :
    (1 : Int) ≤ 3 ∧ wrapText (units "abcdef gh") 3 = [units "abcdef", units "gh"] ∧
    units "abcdef" ∈ wrapText (units "abcdef gh") 3 ∧
    ¬ (((units "abcdef").length : Int) ≤ 3) := by
  refine ⟨by decide, by rfl, ?_, by decide⟩
  have h : wrapText (units "abcdef gh") 3 = [units "abcdef", units "gh"] := by rfl
  rw [h]
  exact List.mem_cons_self _ _

/-- C13, amended: every line `wrapText` yields is at most `columns` long, or is
a single word of `text.split(' ')` that is itself longer than `columns`; so when
no word of the text is longer than `columns`, no line is. -/
theorem wrapText_length (text : List Nat) (columns : Int) (out : List Nat)
    (h : out ∈ wrapText text columns) :
    (((out.length : Nat) : Int) ≤ columns ∨
      (out ∈ split space text ∧ columns < ((out.length : Nat) : Int))) ∧
    ((∀ w ∈ split space text, ((w.length : Nat) : Int) ≤ columns) →
      ((out.length : Nat) : Int) ≤ columns) := by
  have key : ((out.length : Nat) : Int) ≤ columns ∨ out ∈ split space text := by
    unfold wrapText at h
    cases hs : split space text with
    | nil => rw [hs] at h; simp at h
    | cons w ws =>
      rw [hs] at h
      simp only at h
      exact wrapLoop_length columns (w :: ws) ws (fun x hx => List.mem_cons_of_mem _ hx) w
        (Or.inr (List.mem_cons_self _ _)) out h
  constructor
  · rcases key with h1 | h1
    · exact Or.inl h1
    · by_cases h2 : ((out.length : Nat) : Int) ≤ columns
      · exact Or.inl h2
      · exact Or.inr ⟨h1, by omega⟩
  · intro hw
    rcases key with h1 | h1
    · exact h1
    · exact hw out h1

/-- The line `strings, or a sequence of` of the first example of the
documentation, as an instance of `wrapText_length`. -/
theorem wrapText_length_witness :
    units "strings, or a sequence of" ∈ wrapText exampleSentence 26 ∧
    ((((units "strings, or a sequence of").length : Nat) : Int) ≤ 26 ∨
      (units "strings, or a sequence of" ∈ split space exampleSentence ∧
        (26 : Int) < (((units "strings, or a sequence of").length : Nat) : Int))) ∧
    ((∀ w ∈ split space exampleSentence, ((w.length : Nat) : Int) ≤ 26) →
      (((units "strings, or a sequence of").length : Nat) : Int) ≤ 26) := by
  have hm : units "strings, or a sequence of" ∈ wrapText exampleSentence 26 := by
    rw [wrapText_documented.1]; simp
  exact ⟨hm, wrapText_length exampleSentence 26 _ hm⟩

/-- C14: `wrapText` breaks at word boundaries only and loses nothing: joining
the lines it yields with single spaces gives the text back; the lines are the
words of `text.split(' ')`, cut into runs that are not empty and taken in order,
each run joined with single spaces. -/
theorem wrapText_lossless (text : List Nat) (columns : Int) :
    jsJoin [space] (wrapText text columns) = text ∧
    ∃ groups : List (List (List Nat)), groups.flatten = split space text ∧
      (∀ g ∈ groups, g ≠ []) ∧
      wrapText text columns = groups.map (jsJoin [space]) := by
  unfold wrapText
  cases hs : split space text with
  | nil => exact absurd hs (split_ne_nil space text)
  | cons w ws =>
    simp only
    constructor
    · rw [jsJoin_wrapLoop, ← hs, jsJoin_split]
    · obtain ⟨groups, h1, h2, h3⟩ := wrapLoop_groups columns ws [w] (by simp)
      exact ⟨groups, by simpa using h1, h2, by simpa [jsJoin] using h3⟩

/-! ## `parseBankAccount` -/

/-- A row of the glyph of a digit: three code units, none a line terminator
and none a line feed. -/
theorem glyphRow_eq {k d : Nat} (hk : k < 3) (hd : d < 10) :
    ∃ a b c, glyphRow k d = [a, b, c] ∧ isLineTerminator a = false ∧
      isLineTerminator b = false ∧ isLineTerminator c = false ∧
      a ≠ newline ∧ b ≠ newline ∧ c ≠ newline := by
  interval_cases d <;> interval_cases k <;>
    exact ⟨_, _, _, rfl, by decide, by decide, by decide, by decide, by decide, by decide⟩

/-- The three rows of the glyph of a digit, one after the other, are its key in
the table, and the table gives the digit for it. -/
theorem lookupNumber_glyph {d : Nat} (hd : d < 10) :
    lookupNumber (glyphRow 0 d ++ glyphRow 1 d ++ glyphRow 2 d) = .digit d := by
  interval_cases d <;> rfl

theorem matchTriples_accountRow {k : Nat} (hk : k < 3) (ds : List Nat)
    (hds : ∀ d ∈ ds, d < 10) : matchTriples (accountRow k ds) = ds.map (glyphRow k) := by
  induction ds with
  | nil => rfl
  | cons d ds ih =>
    obtain ⟨a, b, c, h, ha, hb, hc, -⟩ := glyphRow_eq hk (hds d (List.mem_cons_self _ _))
    have hrest := ih (fun x hx => hds x (List.mem_cons_of_mem _ hx))
    unfold accountRow at hrest ⊢
    rw [List.map_cons, List.flatten_cons, h]
    show matchTriples (a :: b :: c :: (List.map (glyphRow k) ds).flatten) = _
    simp only [matchTriples, ha, hb, hc, Bool.or_self, Bool.false_eq_true, if_false, hrest]

theorem newline_not_mem_accountRow {k : Nat} (hk : k < 3) (ds : List Nat)
    (hds : ∀ d ∈ ds, d < 10) : newline ∉ accountRow k ds := by
  unfold accountRow
  rw [List.mem_flatten]
  rintro ⟨l, hl, hn⟩
  rw [List.mem_map] at hl
  obtain ⟨d, hd, rfl⟩ := hl
  obtain ⟨a, b, c, h, -, -, -, na, nb, nc⟩ := glyphRow_eq hk (hds d hd)
  rw [h] at hn
  simp only [List.mem_cons, List.mem_singleton, List.not_mem_nil, or_false] at hn
  rcases hn with e | e | e
  · exact na e.symm
  · exact nb e.symm
  · exact nc e.symm

theorem jsMatch_accountRow {k : Nat} (hk : k < 3) {ds : List Nat} (hne : ds ≠ [])
    (hds : ∀ d ∈ ds, d < 10) : jsMatch (accountRow k ds) = some (ds.map (glyphRow k)) := by
  unfold jsMatch
  rw [matchTriples_accountRow hk ds hds]
  cases ds with
  | nil => exact absurd rfl hne
  | cons d ds => rfl

/-- The callback of `map` on the rows of an account number gives the digits. -/
theorem mapWithIndex_rows (ds : List Nat) (hds : ∀ d ∈ ds, d < 10) :
    ∀ pre suf : List Nat, ds = pre ++ suf →
      mapWithIndex
        (fun item index =>
          entryText (lookupNumber (item ++ chunkText (ds.map (glyphRow 1))[index]? ++
            chunkText (ds.map (glyphRow 2))[index]?)))
        pre.length (suf.map (glyphRow 0)) = suf.map (fun d => [48 + d]) := by
  intro pre suf
  induction suf generalizing pre with
  | nil => intro _; rfl
  | cons d suf ih =>
    intro h
    have hd : d < 10 := hds d (by rw [h]; simp)
    have h1 : (ds.map (glyphRow 1))[pre.length]? = some (glyphRow 1 d) := by
      rw [h, List.map_append, List.map_cons, List.getElem?_append_right (by simp)]
      simp
    have h2 : (ds.map (glyphRow 2))[pre.length]? = some (glyphRow 2 d) := by
      rw [h, List.map_append, List.map_cons, List.getElem?_append_right (by simp)]
      simp
    have hrest := ih (pre ++ [d]) (by rw [h]; simp)
    rw [List.length_append, List.length_singleton] at hrest
    simp only [List.map_cons, mapWithIndex]
    rw [hrest, h1, h2]
    simp only [chunkText]
    rw [lookupNumber_glyph hd]
    rfl

theorem decimalValue_digits (ds : List Nat) (hds : ∀ d ∈ ds, d < 10) :
    decimalValue (ds.map (fun d => [48 + d])).flatten = digitsValue ds := by
  have e : (ds.map (fun d => [48 + d])).flatten = ds.map (fun d => 48 + d) := by
    induction ds with
    | nil => rfl
    | cons d ds ih => simp [ih (fun x hx => hds x (List.mem_cons_of_mem _ hx))]
  rw [e]
  unfold decimalValue digitsValue
  rw [List.foldl_map]
  congr 1
  funext acc d
  omega

theorem toNumber_digits {ds : List Nat} (hne : ds ≠ []) (hlen : ds.length ≤ 15)
    (hds : ∀ d ∈ ds, d < 10) :
    toNumber (ds.map (fun d => [48 + d])).flatten = .int (digitsValue ds) := by
  have e : (ds.map (fun d => [48 + d])).flatten = ds.map (fun d => 48 + d) := by
    clear hne hlen hds
    induction ds with
    | nil => rfl
    | cons d ds ih => simp [ih]
  have h1 : (ds.map (fun d => [48 + d])).flatten ≠ [] := by
    rw [e]; simpa using hne
  have h2 : ((ds.map (fun d => [48 + d])).flatten).all
      (fun c => decide (48 ≤ c ∧ c ≤ 57)) = true := by
    rw [e, List.all_eq_true]
    intro c hc
    rw [List.mem_map] at hc
    obtain ⟨d, hd, rfl⟩ := hc
    have := hds d hd
    simp only [decide_eq_true_eq]
    omega
  have h3 : ((ds.map (fun d => [48 + d])).flatten).length ≤ 15 := by
    rw [e]; simpa using hlen
  unfold toNumber
  rw [if_neg h1, if_pos h2, if_pos h3, decimalValue_digits ds hds]

/-- The function `parseBankAccount` on the text of an account number of at
least one and at most 15 digits. -/
theorem parseBankAccount_render {ds : List Nat} (hne : ds ≠ []) (hlen : ds.length ≤ 15)
    (hds : ∀ d ∈ ds, d < 10) :
    parseBankAccount (renderAccount ds) = .ok (.int (digitsValue ds)) := by
  have hsplit : split newline (renderAccount ds) =
      [accountRow 0 ds, accountRow 1 ds, accountRow 2 ds] ++ [[]] := by
    apply split_unlines
    intro l hl
    simp only [List.mem_cons, List.mem_singleton, List.not_mem_nil, or_false] at hl
    rcases hl with rfl | rfl | rfl
    · exact newline_not_mem_accountRow (by decide) ds hds
    · exact newline_not_mem_accountRow (by decide) ds hds
    · exact newline_not_mem_accountRow (by decide) ds hds
  unfold parseBankAccount
  simp only [hsplit, List.cons_append, List.nil_append, List.take_succ_cons, List.take_zero,
    List.map_cons, List.map_nil, jsMatch_accountRow (by decide : 0 < 3) hne hds,
    jsMatch_accountRow (by decide : 1 < 3) hne hds,
    jsMatch_accountRow (by decide : 2 < 3) hne hds]
  have hm := mapWithIndex_rows ds hds [] ds rfl
  simp only [List.length_nil] at hm
  simp only [List.getElem?_cons_zero, List.getElem?_cons_succ]
  rw [hm, toNumber_digits hne hlen hds]

/-- C12: for nine digits `d1, ..., d9`, `parseBankAccount` on the three lines
made of the rows of their glyphs from the table `numbers`, each line followed
by a line feed, returns the number whose decimal digits are `d1, ..., d9`. -/
theorem parseBankAccount_digits (ds : List Nat) (hlen : ds.length = 9)
    (hds : ∀ d ∈ ds, d < 10) :
    (∀ l ∈ [accountRow 0 ds, accountRow 1 ds, accountRow 2 ds], l.length = 27) ∧
    parseBankAccount (renderAccount ds) = .ok (.int (digitsValue ds)) := by
  have hne : ds ≠ [] := by
    intro e; rw [e] at hlen; simp at hlen
  refine ⟨?_, parseBankAccount_render hne (by omega) hds⟩
  have hrow : ∀ k, k < 3 → (accountRow k ds).length = 27 := by
    intro k hk
    have : ∀ xs : List Nat, (∀ d ∈ xs, d < 10) → (accountRow k xs).length = 3 * xs.length := by
      intro xs
      induction xs with
      | nil => intro _; rfl
      | cons d xs ih =>
        intro h
        obtain ⟨a, b, c, hg, -⟩ := glyphRow_eq hk (h d (List.mem_cons_self _ _))
        have := ih (fun x hx => h x (List.mem_cons_of_mem _ hx))
        unfold accountRow at this ⊢
        rw [List.map_cons, List.flatten_cons, List.length_append, this, hg]
        simp only [List.length_cons, List.length_nil]
        omega
    rw [this ds hds, hlen]
  intro l hl
  simp only [List.mem_cons, List.mem_singleton, List.not_mem_nil, or_false] at hl
  rcases hl with rfl | rfl | rfl
  · exact hrow 0 (by decide)
  · exact hrow 1 (by decide)
  · exact hrow 2 (by decide)

/-- The three examples of the documentation of `parseBankAccount`, as instances
of `parseBankAccount_digits`. -/
theorem parseBankAccount_digits_witness :
    (renderAccount [1, 2, 3, 4, 5, 6, 7, 8, 9] =
        units ("    _  _     _  _  _  _  _ \n" ++
               "  | _| _||_||_ |_   ||_||_|\n" ++
               "  ||_  _|  | _||_|  ||_| _|\n") ∧
      parseBankAccount (renderAccount [1, 2, 3, 4, 5, 6, 7, 8, 9]) = .ok (.int 123456789)) ∧
    (renderAccount [0, 2, 3, 0, 5, 6, 7, 8, 9] =
        units (" _  _  _  _  _  _  _  _  _ \n" ++
               "| | _| _|| ||_ |_   ||_||_|\n" ++
               "|_||_  _||_| _||_|  ||_| _|\n") ∧
      parseBankAccount (renderAccount [0, 2, 3, 0, 5, 6, 7, 8, 9]) = .ok (.int 23056789)) ∧
    (renderAccount [8, 2, 3, 8, 5, 6, 9, 8, 9] =
        units (" _  _  _  _  _  _  _  _  _ \n" ++
               "|_| _| _||_||_ |_ |_||_||_|\n" ++
               "|_||_  _||_| _||_| _||_| _|\n") ∧
      parseBankAccount (renderAccount [8, 2, 3, 8, 5, 6, 9, 8, 9]) = .ok (.int 823856989)) :=
  ⟨⟨by rfl, (parseBankAccount_digits [1, 2, 3, 4, 5, 6, 7, 8, 9] rfl (by decide)).2⟩,
    ⟨by rfl, (parseBankAccount_digits [0, 2, 3, 0, 5, 6, 7, 8, 9] rfl (by decide)).2⟩,
    ⟨by rfl, (parseBankAccount_digits [8, 2, 3, 8, 5, 6, 9, 8, 9] rfl (by decide)).2⟩⟩

/-! ## `getPokerHandRank` -/

/-- The examples of the documentation of `getPokerHandRank`. -/
theorem getPokerHandRank_documented :
    ∀ e ∈ documentedHands, getPokerHandRank e.1 = e.2 := by
  decide

theorem indexOfInt_neg_one_le {α : Type} [DecidableEq α] (l : List α) (x : α) :
    -1 ≤ indexOfInt l x := by
  induction l with
  | nil => simp [indexOfInt]
  | cons y ys ih =>
    simp only [indexOfInt]
    split_ifs <;> omega

theorem indexOfInt_neg_iff {α : Type} [DecidableEq α] (l : List α) (x : α) :
    indexOfInt l x < 0 ↔ x ∉ l := by
  induction l with
  | nil => simp [indexOfInt]
  | cons y ys ih =>
    have hge := indexOfInt_neg_one_le ys x
    by_cases h1 : y = x
    · simp [indexOfInt, h1]
    · have h1' : ¬ x = y := fun e => h1 e.symm
      by_cases h2 : indexOfInt ys x < 0
      · have := ih.1 h2
        simp [indexOfInt, h1, h1', h2, this]
      · have hm : x ∈ ys := by
          by_contra hc
          exact h2 (ih.2 hc)
        simp only [indexOfInt, h1, h2, if_false, List.mem_cons, hm, or_true, not_true_eq_false,
          iff_false]
        omega

theorem incrementAt_map {α : Type} [DecidableEq α] (f : α → Nat) :
    ∀ (l : List α) (x : α), l.Nodup → x ∈ l →
      incrementAt (indexOfInt l x).toNat (l.map f) =
        l.map (fun y => if y = x then f y + 1 else f y) := by
  intro l
  induction l with
  | nil => intro x _ h; simp at h
  | cons y ys ih =>
    intro x hnd hx
    rw [List.nodup_cons] at hnd
    by_cases hyx : y = x
    · subst hyx
      have hrest : ys.map (fun z => if z = y then f z + 1 else f z) = ys.map f := by
        apply List.map_congr_left
        intro z hz
        have : z ≠ y := fun e => hnd.1 (e ▸ hz)
        simp [this]
      simp [indexOfInt, incrementAt, hrest]
    · have hx2 : x ∈ ys := by
        rcases List.mem_cons.1 hx with e | e
        · exact absurd e.symm hyx
        · exact e
      have hpos : ¬ indexOfInt ys x < 0 := by
        rw [indexOfInt_neg_iff]; exact fun h => h hx2
      have e : (indexOfInt ys x + 1).toNat = (indexOfInt ys x).toNat + 1 := by omega
      simp only [indexOfInt, hyx, if_false, hpos, e, List.map_cons, incrementAt]
      rw [ih x hnd.2 hx2]

theorem sum_incrementAt (l : List Nat) : ∀ i, i < l.length →
    (incrementAt i l).sum = l.sum + 1 := by
  induction l with
  | nil => intro i h; simp at h
  | cons c cs ih =>
    intro i h
    cases i with
    | zero => simp [incrementAt]; omega
    | succ i =>
      simp only [incrementAt, List.sum_cons]
      rw [ih i (by simpa using h)]
      omega

theorem indexOfInt_lt_length {α : Type} [DecidableEq α] (l : List α) (x : α) (hx : x ∈ l) :
    (indexOfInt l x).toNat < l.length := by
  induction l with
  | nil => simp at hx
  | cons y ys ih =>
    simp only [indexOfInt]
    split_ifs with h1 h2
    · simp
    · rw [indexOfInt_neg_iff] at h2
      rcases List.mem_cons.1 hx with e | e
      · exact absurd e.symm h1
      · exact absurd e h2
    · have hx2 : x ∈ ys := by
        rcases List.mem_cons.1 hx with e | e
        · exact absurd e.symm h1
        · exact e
      have := ih hx2
      simp only [List.length_cons]
      omega

theorem tallied_nil : Tallied { values := [], count := [], spines := [] } [] := by
  simp [Tallied]

/-- One turn of the loop of `get` keeps the arrays as `Tallied` says. -/
theorem tallied_getStep {q : Quolities} {pre : List (List Nat)} (h : Tallied q pre)
    (v : List Nat) : Tallied (getStep q v) (pre ++ [v]) := by
  obtain ⟨h1, h2, h3, h4, h5, h6⟩ := h
  have hcount : ∀ y : Option Nat,
      (List.map (fun v => v[0]?) (pre ++ [v])).count y =
        if y = v[0]? then (pre.map (fun v => v[0]?)).count y + 1
        else (pre.map (fun v => v[0]?)).count y := by
    intro y
    rw [List.map_append, List.count_append, List.map_singleton, List.count_singleton]
    by_cases e : y = v[0]?
    · simp [e]
    · have e2 : ¬ (v[0]? = y) := fun h => e h.symm
      simp [e, e2]
  -- the spines
  have hsp : ∀ q1 : Quolities, q1.spines = q.spines →
      (if indexOfInt q1.spines (lastUnit v) < 0 then
          { q1 with spines := q1.spines ++ [lastUnit v] } else q1).spines.Nodup ∧
      ∀ y, y ∈ (if indexOfInt q1.spines (lastUnit v) < 0 then
          { q1 with spines := q1.spines ++ [lastUnit v] } else q1).spines ↔
        y ∈ (pre ++ [v]).map lastUnit := by
    intro q1 hq1
    rw [hq1]
    by_cases hs : indexOfInt q.spines (lastUnit v) < 0
    · have hn := (indexOfInt_neg_iff _ _).1 hs
      simp only [hs, if_true]
      constructor
      · rw [List.nodup_append]
        refine ⟨h5, List.nodup_singleton _, ?_⟩
        intro a ha hb
        rw [List.mem_singleton] at hb
        subst hb
        exact hn ha
      · intro y
        simp only [List.mem_append, List.mem_singleton, List.map_append, List.map_singleton,
          h6 y]
    · have hn : lastUnit v ∈ q.spines := by
        by_contra hc
        exact hs ((indexOfInt_neg_iff _ _).2 hc)
      simp only [hs, if_false, hq1]
      refine ⟨h5, ?_⟩
      intro y
      simp only [List.map_append, List.map_singleton, List.mem_append, List.mem_singleton,
        ← h6 y]
      constructor
      · exact Or.inl
      · rintro (e | e)
        · exact e
        · rw [e]; exact hn
  have hsp2 : ∀ q1 : Quolities,
      (if indexOfInt q1.spines (lastUnit v) < 0 then
          { q1 with spines := q1.spines ++ [lastUnit v] } else q1).values = q1.values ∧
      (if indexOfInt q1.spines (lastUnit v) < 0 then
          { q1 with spines := q1.spines ++ [lastUnit v] } else q1).count = q1.count := by
    intro q1
    split_ifs <;> exact ⟨rfl, rfl⟩
  unfold Tallied getStep
  by_cases hv : indexOfInt q.values v[0]? < 0
  · have hn := (indexOfInt_neg_iff _ _).1 hv
    simp only [hv, if_true]
    obtain ⟨e1, e2⟩ := hsp2 { q with values := q.values ++ [v[0]?], count := q.count ++ [1] }
    obtain ⟨s1, s2⟩ := hsp { q with values := q.values ++ [v[0]?], count := q.count ++ [1] } rfl
    rw [e1, e2]
    refine ⟨?_, ?_, ?_, ?_, s1, s2⟩
    · rw [List.nodup_append]
      refine ⟨h1, List.nodup_singleton _, ?_⟩
      intro a ha hb
      rw [List.mem_singleton] at hb
      subst hb
      exact hn ha
    · intro x
      simp only [List.mem_append, List.mem_singleton, List.map_append, List.map_singleton, h2 x]
    · simp only [List.map_append, List.map_singleton] at hcount ⊢
      rw [h3]
      congr 1
      · apply List.map_congr_left
        intro y hy
        rw [hcount y]
        have : y ≠ v[0]? := fun e => hn (e ▸ hy)
        simp [this]
      · rw [hcount]
        have : (pre.map (fun v => v[0]?)).count v[0]? = 0 := by
          rw [List.count_eq_zero]
          exact fun hm => hn ((h2 _).2 hm)
        simp [this]
    · simp only [List.sum_append, List.sum_cons, List.sum_nil, List.length_append,
        List.length_singleton, h4, Nat.add_zero]
  · have hm : v[0]? ∈ q.values := by
      by_contra hc
      exact hv ((indexOfInt_neg_iff _ _).2 hc)
    simp only [hv, if_false]
    obtain ⟨e1, e2⟩ := hsp2
      { q with count := incrementAt (indexOfInt q.values v[0]?).toNat q.count }
    obtain ⟨s1, s2⟩ := hsp
      { q with count := incrementAt (indexOfInt q.values v[0]?).toNat q.count } rfl
    rw [e1, e2]
    refine ⟨h1, ?_, ?_, ?_, s1, s2⟩
    · intro x
      simp only [List.map_append, List.map_singleton, List.mem_append, List.mem_singleton,
        ← h2 x]
      constructor
      · exact Or.inl
      · rintro (e | e)
        · exact e
        · rw [e]; exact hm
    · simp only
      rw [h3, incrementAt_map _ _ _ h1 hm]
      apply List.map_congr_left
      intro y _
      rw [hcount y]
    · simp only
      rw [sum_incrementAt _ _ (by rw [h3, List.length_map]; exact indexOfInt_lt_length _ _ hm),
        h4, List.length_append, List.length_singleton]

/-- The arrays of `get` after its loop. -/
theorem tallied_foldl (hand : List (List Nat)) :
    ∀ (q : Quolities) (pre : List (List Nat)), Tallied q pre →
      Tallied (hand.foldl getStep q) (pre ++ hand) := by
  induction hand with
  | nil => intro q pre h; simpa using h
  | cons v vs ih =>
    intro q pre h
    have := ih (getStep q v) (pre ++ [v]) (tallied_getStep h v)
    simpa using this

/-! ## Cards as strings -/

theorem first_text (c : Card) : (c.text)[0]? = some (rankUnit c.rank) := by
  obtain ⟨r, s⟩ := c
  fin_cases r <;> rfl

theorem lastUnit_text (c : Card) : lastUnit c.text = [suitUnit c.suit] := by
  unfold lastUnit Card.text
  rw [List.length_append, List.length_singleton, Nat.add_sub_cancel, List.drop_left]
  rfl

theorem rankUnit_injective : ∀ r r2 : Fin 13, rankUnit r = rankUnit r2 → r = r2 := by
  decide

theorem suitUnit_injective : ∀ s s2 : Fin 4, suitUnit s = suitUnit s2 → s = s2 := by
  decide

theorem rankIndex_rankUnit : ∀ r : Fin 13, rankIndex (some (rankUnit r)) = (r.val : Int) := by
  decide

theorem rankLastIndex_rankUnit :
    ∀ r : Fin 13, rankLastIndex (some (rankUnit r)) = if r.val = 0 then 13 else (r.val : Int) := by
  decide

theorem firsts_text (hand : List Card) :
    (hand.map Card.text).map (fun v => v[0]?) = hand.map (fun c => some (rankUnit c.rank)) := by
  rw [List.map_map]
  apply List.map_congr_left
  intro c _
  exact first_text c

theorem lasts_text (hand : List Card) :
    (hand.map Card.text).map lastUnit = hand.map (fun c => [suitUnit c.suit]) := by
  rw [List.map_map]
  apply List.map_congr_left
  intro c _
  exact lastUnit_text c

/-- The arrays of `get` for a hand of cards. -/
theorem tallied_hand (hand : List Card) :
    Tallied ((hand.map Card.text).foldl getStep { values := [], count := [], spines := [] })
      (hand.map Card.text) := by
  have := tallied_foldl (hand.map Card.text) _ [] tallied_nil
  simpa using this

theorem count_key (hand : List Card) (r : Fin 13) :
    (hand.map (fun c => some (rankUnit c.rank))).count (some (rankUnit r)) =
      rankCount hand r := by
  unfold rankCount
  induction hand with
  | nil => rfl
  | cons c cs ih =>
    rw [List.map_cons, List.map_cons, List.count_cons, List.count_cons, ih]
    by_cases h : c.rank = r
    · simp [h]
    · have h2 : ¬ rankUnit c.rank = rankUnit r := fun e => h (rankUnit_injective _ _ e)
      simp [h, h2]

/-! ## The tests of `getPokerHandRank` on a hand of cards -/

/-- The method `isFlush` holds when the cards are of one suit. -/
theorem isFlush_iff {hand : List Card} (hne : hand ≠ []) {q : Quolities}
    (hq : Tallied q (hand.map Card.text)) : isFlush q ↔ OneSuit hand := by
  obtain ⟨-, -, -, -, h5, h6⟩ := hq
  rw [lasts_text] at h6
  obtain ⟨c0, hc0⟩ := List.exists_mem_of_ne_nil hand hne
  have hmem : ∀ c ∈ hand, [suitUnit c.suit] ∈ q.spines := by
    intro c hc
    rw [h6]
    exact List.mem_map.2 ⟨c, hc, rfl⟩
  unfold isFlush OneSuit
  constructor
  · intro hlen
    obtain ⟨y, hy⟩ := List.length_eq_one.1 hlen
    refine ⟨c0.suit, fun c hc => ?_⟩
    have h1 := hmem c hc
    have h2 := hmem c0 hc0
    rw [hy, List.mem_singleton] at h1 h2
    have : [suitUnit c.suit] = [suitUnit c0.suit] := h1.trans h2.symm
    exact suitUnit_injective _ _ (by simpa using this)
  · rintro ⟨s, hs⟩
    have hall : ∀ y ∈ q.spines, y = [suitUnit s] := by
      intro y hy
      rw [h6, List.mem_map] at hy
      obtain ⟨c, hc, rfl⟩ := hy
      rw [hs c hc]
    have h0 := hmem c0 hc0
    cases hsp : q.spines with
    | nil => rw [hsp] at h0; simp at h0
    | cons a rest =>
      cases rest with
      | nil => rfl
      | cons b rest2 =>
        rw [hsp] at hall h5
        have ha := hall a (by simp)
        have hb := hall b (by simp)
        rw [List.nodup_cons] at h5
        exact absurd (by rw [ha, hb]; simp) h5.1

/-- The method `getCount(k)` is not 0 when some rank has `k` cards. -/
theorem getCount_ne_zero_iff {hand : List Card} {q : Quolities}
    (hq : Tallied q (hand.map Card.text)) {k : Nat} (hk : 1 ≤ k) :
    getCount q k ≠ 0 ↔ OfAKind hand k := by
  obtain ⟨-, h2, h3, -, -, -⟩ := hq
  rw [firsts_text] at h2 h3
  unfold getCount OfAKind
  rw [Nat.ne_zero_iff_zero_lt, List.count_pos_iff, h3, List.mem_map]
  constructor
  · rintro ⟨x, hx, hcount⟩
    rw [h2, List.mem_map] at hx
    obtain ⟨c, -, rfl⟩ := hx
    exact ⟨c.rank, by rw [← count_key, hcount]⟩
  · rintro ⟨r, hr⟩
    refine ⟨some (rankUnit r), ?_, by rw [count_key, hr]⟩
    rw [h2, ← List.count_pos_iff, count_key, hr]
    exact hk

theorem mul_count_le_sum (k : Nat) (l : List Nat) : k * l.count k ≤ l.sum := by
  induction l with
  | nil => simp
  | cons c cs ih =>
    rw [List.count_cons, List.sum_cons]
    by_cases h : c = k
    · subst h
      simp only [beq_self_eq_true, if_true, Nat.mul_add, Nat.mul_one]
      omega
    · have : (c == k) = false := by simpa using h
      simp only [this, Bool.false_eq_true, if_false, Nat.add_zero]
      omega

/-- The method `getCount(2)` is 2 when two ranks have two cards each, in a hand
of five cards. -/
theorem getCount_two_iff {hand : List Card} (hlen : hand.length = 5) {q : Quolities}
    (hq : Tallied q (hand.map Card.text)) : getCount q 2 = 2 ↔ TwoPairs hand := by
  obtain ⟨h1, h2, h3, h4, -, -⟩ := hq
  rw [firsts_text] at h2 h3
  rw [List.length_map, hlen] at h4
  have hle : getCount q 2 ≤ 2 := by
    have := mul_count_le_sum 2 q.count
    unfold getCount
    omega
  have hfilter : getCount q 2 =
      (q.values.filter (fun x =>
        (hand.map (fun c => some (rankUnit c.rank))).count x == 2)).length := by
    unfold getCount
    rw [h3, List.count_eq_countP, List.countP_map, List.countP_eq_length_filter]
    rfl
  have hnd := List.Nodup.filter (fun x =>
        (hand.map (fun c => some (rankUnit c.rank))).count x == 2) h1
  unfold TwoPairs
  constructor
  · intro h
    rw [hfilter] at h
    obtain ⟨x, y, hxy⟩ := List.length_eq_two.1 h
    rw [hxy] at hnd
    have hx : x ∈ q.values.filter (fun x =>
        (hand.map (fun c => some (rankUnit c.rank))).count x == 2) := by rw [hxy]; simp
    have hy : y ∈ q.values.filter (fun x =>
        (hand.map (fun c => some (rankUnit c.rank))).count x == 2) := by rw [hxy]; simp
    rw [List.mem_filter] at hx hy
    obtain ⟨hx1, hx2⟩ := hx
    obtain ⟨hy1, hy2⟩ := hy
    rw [h2, List.mem_map] at hx1 hy1
    obtain ⟨c, -, rfl⟩ := hx1
    obtain ⟨c2, -, rfl⟩ := hy1
    rw [count_key] at hx2 hy2
    refine ⟨c.rank, c2.rank, ?_, by simpa using hx2, by simpa using hy2⟩
    intro e
    rw [e] at hnd
    simp at hnd
  · rintro ⟨r, r2, hne, hr, hr2⟩
    have hmem : ∀ r : Fin 13, rankCount hand r = 2 → some (rankUnit r) ∈
        q.values.filter (fun x =>
          (hand.map (fun c => some (rankUnit c.rank))).count x == 2) := by
      intro r hr
      rw [List.mem_filter]
      refine ⟨?_, by rw [count_key, hr]; rfl⟩
      rw [h2, ← List.count_pos_iff, count_key, hr]
      decide
    have hsub : [some (rankUnit r), some (rankUnit r2)] ⊆
        q.values.filter (fun x =>
          (hand.map (fun c => some (rankUnit c.rank))).count x == 2) := by
      intro x hx
      simp only [List.mem_cons, List.mem_singleton, List.not_mem_nil, or_false] at hx
      rcases hx with rfl | rfl
      · exact hmem r hr
      · exact hmem r2 hr2
    have hnd2 : [some (rankUnit r), some (rankUnit r2)].Nodup := by
      simp only [List.nodup_cons, List.mem_singleton, List.not_mem_nil, not_false_eq_true,
        List.nodup_nil, and_true, Option.some.injEq]
      exact fun e => hne (rankUnit_injective _ _ e)
    have := (List.subperm_of_subset hnd2 hsub).length_le
    rw [← hfilter] at this
    simp only [List.length_cons, List.length_nil] at this
    omega

/-! ## The sort and the test `isStraight` -/

theorem perm_insertBy {α : Type} (key : α → Int) (a : α) (l : List α) :
    (insertBy key a l).Perm (a :: l) := by
  induction l with
  | nil => exact List.Perm.refl _
  | cons b l ih =>
    simp only [insertBy]
    split_ifs
    · exact List.Perm.refl _
    · exact (List.Perm.cons b ih).trans (List.Perm.swap a b l)

theorem perm_sortBy {α : Type} (key : α → Int) (l : List α) : (sortBy key l).Perm l := by
  induction l with
  | nil => exact List.Perm.refl _
  | cons a l ih => exact (perm_insertBy key a _).trans (List.Perm.cons a ih)

theorem pairwise_insertBy {α : Type} (key : α → Int) (a : α) (l : List α)
    (h : l.Pairwise (fun x y => key x ≤ key y)) :
    (insertBy key a l).Pairwise (fun x y => key x ≤ key y) := by
  induction l with
  | nil => simp [insertBy]
  | cons b l ih =>
    rw [List.pairwise_cons] at h
    simp only [insertBy]
    split_ifs with hab
    · rw [List.pairwise_cons]
      refine ⟨?_, List.pairwise_cons.2 h⟩
      intro y hy
      rcases List.mem_cons.1 hy with rfl | hy
      · exact hab
      · exact le_trans hab (h.1 y hy)
    · rw [List.pairwise_cons]
      refine ⟨?_, ih h.2⟩
      intro y hy
      rcases List.mem_cons.1 ((perm_insertBy key a l).subset hy) with rfl | hy
      · omega
      · exact h.1 y hy

theorem pairwise_sortBy {α : Type} (key : α → Int) (l : List α) :
    (sortBy key l).Pairwise (fun x y => key x ≤ key y) := by
  induction l with
  | nil => simp [sortBy]
  | cons a l ih => exact pairwise_insertBy key a _ ih

theorem length_eq_five {α : Type} {l : List α} (h : l.length = 5) :
    ∃ a b c d e, l = [a, b, c, d, e] := by
  match l, h with
  | [a, b, c, d, e], _ => exact ⟨a, b, c, d, e, rfl⟩

theorem length_sortedValues (q : Quolities) : (sortedValues q).length = q.values.length := by
  have hl := (perm_sortBy rankIndex q.values).length_eq
  unfold sortedValues
  simp only
  split_ifs with h
  · cases hs : sortBy rankIndex q.values with
    | nil => rw [hs] at h; simp at h
    | cons x xs => rw [hs] at hl; simp [← hl]
  · exact hl

theorem rankUnit_eq_ace : ∀ r : Fin 13, rankUnit r = 65 ↔ r.val = 0 := by decide

theorem rankUnit_eq_two : ∀ r : Fin 13, rankUnit r = 50 ↔ r.val = 1 := by decide

/-- The method `isStraight` on values that are sorted to five ranks. -/
theorem isStraight_sorted {q : Quolities} {a b c d e : Fin 13}
    (hs : sortBy rankIndex q.values =
      [some (rankUnit a), some (rankUnit b), some (rankUnit c), some (rankUnit d),
        some (rankUnit e)])
    (hab : a.val < b.val) (hbc : b.val < c.val) (hcd : c.val < d.val) (hde : d.val < e.val) :
    isStraight q ↔
      (b.val = a.val + 1 ∧ c.val = b.val + 1 ∧ d.val = c.val + 1 ∧ e.val = d.val + 1) ∨
      (a.val = 0 ∧ b.val = 9 ∧ c.val = 10 ∧ d.val = 11 ∧ e.val = 12) := by
  have hA1 : rankIndex (some 65) = 0 := by decide
  have hA2 : rankLastIndex (some 65) = 13 := by decide
  have he := e.isLt
  unfold isStraight sortedValues
  simp only [hs, List.getElem?_cons_zero, List.getElem?_cons_succ, Option.some.injEq, ne_eq,
    rankUnit_eq_ace, rankUnit_eq_two]
  by_cases hrot : a.val = 0 ∧ ¬ b.val = 1
  · simp only [hrot, not_false_eq_true, and_self, if_true, List.drop_succ_cons, List.drop_zero,
      List.cons_append, List.nil_append, List.length_cons, List.length_nil, List.mem_cons,
      List.mem_singleton, List.not_mem_nil, or_false, forall_eq_or_imp, forall_eq, follows,
      List.getD_cons_zero, List.getD_cons_succ, rankIndex_rankUnit, rankLastIndex_rankUnit, hA1,
      hA2, Nat.reduceSub]
    have hb := hrot.2
    have ha := hrot.1
    simp only [false_and, true_and, false_or]
    split_ifs <;> constructor <;> intro h <;> omega
  · simp only [hrot, if_false, List.length_cons, List.length_nil, List.mem_cons,
      List.mem_singleton, List.not_mem_nil, or_false, forall_eq_or_imp, forall_eq, follows,
      List.getD_cons_zero, List.getD_cons_succ, rankIndex_rankUnit, rankLastIndex_rankUnit,
      Nat.reduceSub]
    split_ifs <;> constructor <;> intro h <;> omega

theorem nodup_run : ∀ s : Fin 10, ((List.range' s.val 5).map (· % 13)).Nodup := by
  decide

/-- Five ranks in rising order are, in some order, five ranks in a row when
each follows the one before, or when they are the ace and the ten to the king. -/
theorem run_iff {vals : List Nat} {a b c d e : Nat} (hp : vals.Perm [a, b, c, d, e])
    (hab : a < b) (hbc : b < c) (hcd : c < d) (hde : d < e) (he : e < 13) :
    (∃ s : Fin 10, vals.Perm ((List.range' s.val 5).map (· % 13))) ↔
      (b = a + 1 ∧ c = b + 1 ∧ d = c + 1 ∧ e = d + 1) ∨
      (a = 0 ∧ b = 9 ∧ c = 10 ∧ d = 11 ∧ e = 12) := by
  constructor
  · rintro ⟨s, hs⟩
    have hq := hp.symm.trans hs
    have ha := hq.subset (List.mem_cons_self a _)
    have hb := hq.subset (show b ∈ [a, b, c, d, e] by simp)
    have hc := hq.subset (show c ∈ [a, b, c, d, e] by simp)
    have hd := hq.subset (show d ∈ [a, b, c, d, e] by simp)
    have he2 := hq.subset (show e ∈ [a, b, c, d, e] by simp)
    have hbound : ∀ x, x ∈ (List.range' s.val 5).map (· % 13) →
        (s.val ≤ 8 → s.val ≤ x ∧ x ≤ s.val + 4) ∧ (s.val = 9 → x = 0 ∨ 9 ≤ x) := by
      intro x hx
      rw [List.mem_map] at hx
      obtain ⟨y, hy, rfl⟩ := hx
      rw [List.mem_range'_1] at hy
      have := s.isLt
      constructor
      · intro h8
        rw [Nat.mod_eq_of_lt (by omega)]
        omega
      · intro h9
        omega
    have h1 := hbound a ha
    have h2 := hbound b hb
    have h3 := hbound c hc
    have h4 := hbound d hd
    have h5 := hbound e he2
    have := s.isLt
    by_cases h8 : s.val ≤ 8
    · left
      have := (h1.1 h8); have := (h2.1 h8); have := (h3.1 h8); have := (h4.1 h8)
      have := (h5.1 h8)
      omega
    · right
      have h9 : s.val = 9 := by omega
      have := (h1.2 h9); have := (h2.2 h9); have := (h3.2 h9); have := (h4.2 h9)
      have := (h5.2 h9)
      omega
  · rintro (⟨rfl, rfl, rfl, rfl⟩ | ⟨rfl, rfl, rfl, rfl, rfl⟩)
    · refine ⟨⟨a, by omega⟩, ?_⟩
      have e : (List.range' a 5).map (· % 13) = [a, a + 1, a + 1 + 1, a + 1 + 1 + 1,
          a + 1 + 1 + 1 + 1] := by
        simp only [List.range', List.map_cons, List.map_nil]
        rw [Nat.mod_eq_of_lt (by omega), Nat.mod_eq_of_lt (by omega),
          Nat.mod_eq_of_lt (by omega), Nat.mod_eq_of_lt (by omega),
          Nat.mod_eq_of_lt (by omega)]
      simp only [e]
      exact hp
    · refine ⟨⟨9, by omega⟩, ?_⟩
      exact hp.trans (by decide)

/-- The method `isStraight` holds when the ranks are five ranks in a row, in a
hand of five cards. -/
theorem isStraight_iff {hand : List Card} (hlen : hand.length = 5) {q : Quolities}
    (hq : Tallied q (hand.map Card.text)) : isStraight q ↔ Consecutive hand := by
  obtain ⟨h1, h2, -, -, -, -⟩ := hq
  rw [firsts_text] at h2
  have hsub : q.values ⊆ hand.map (fun c => some (rankUnit c.rank)) := fun x hx => (h2 x).1 hx
  have hkeys : (hand.map (fun c => some (rankUnit c.rank))).map
      (fun x => (rankIndex x).toNat) = hand.map (fun c => c.rank.val) := by
    rw [List.map_map]
    apply List.map_congr_left
    intro c _
    simp [rankIndex_rankUnit]
  by_cases hv : q.values.length = 5
  · have hperm : q.values.Perm (hand.map (fun c => some (rankUnit c.rank))) :=
      (List.subperm_of_subset h1 hsub).perm_of_length_le (by simp [hv, hlen])
    have hsp := perm_sortBy rankIndex q.values
    obtain ⟨x0, x1, x2, x3, x4, hs⟩ := length_eq_five (hsp.length_eq.trans hv)
    have hrank : ∀ x ∈ sortBy rankIndex q.values, ∃ r : Fin 13, x = some (rankUnit r) := by
      intro x hx
      have := (hsp.trans hperm).subset hx
      rw [List.mem_map] at this
      obtain ⟨c, -, rfl⟩ := this
      exact ⟨c.rank, rfl⟩
    obtain ⟨a, rfl⟩ := hrank x0 (by rw [hs]; simp)
    obtain ⟨b, rfl⟩ := hrank x1 (by rw [hs]; simp)
    obtain ⟨c, rfl⟩ := hrank x2 (by rw [hs]; simp)
    obtain ⟨d, rfl⟩ := hrank x3 (by rw [hs]; simp)
    obtain ⟨e, rfl⟩ := hrank x4 (by rw [hs]; simp)
    have hpw := pairwise_sortBy rankIndex q.values
    have hnd : (sortBy rankIndex q.values).Nodup := hsp.nodup_iff.2 h1
    rw [hs] at hpw hnd
    simp only [List.pairwise_cons, List.mem_cons, List.mem_singleton, List.not_mem_nil,
      or_false, forall_eq_or_imp, forall_eq, rankIndex_rankUnit, List.Pairwise.nil,
      and_true, IsEmpty.forall_iff, implies_true] at hpw
    have hne : ∀ r r2 : Fin 13, some (rankUnit r) ≠ some (rankUnit r2) → r.val ≠ r2.val := by
      intro r r2 h e
      apply h
      rw [Fin.ext e]
    simp only [List.nodup_cons, List.mem_cons, List.mem_singleton, List.not_mem_nil,
      or_false, not_or, List.nodup_nil, and_true, not_false_eq_true] at hnd
    obtain ⟨⟨n1, -, -, -⟩, ⟨n2, -, -⟩, ⟨n3, -⟩, n4⟩ := hnd
    have m1 := hne _ _ n1
    have m2 := hne _ _ n2
    have m3 := hne _ _ n3
    have m4 := hne _ _ n4
    have hab : a.val < b.val := by omega
    have hbc : b.val < c.val := by omega
    have hcd : c.val < d.val := by omega
    have hde : d.val < e.val := by omega
    have hvals : (hand.map (fun c => c.rank.val)).Perm [a.val, b.val, c.val, d.val, e.val] := by
      have := ((hsp.trans hperm).symm.map (fun x => (rankIndex x).toNat))
      rw [hkeys, hs] at this
      simpa [rankIndex_rankUnit] using this
    rw [isStraight_sorted hs hab hbc hcd hde]
    unfold Consecutive
    rw [run_iff hvals hab hbc hcd hde e.isLt]
  · have hle : q.values.length ≤ 5 := by
      have := (List.subperm_of_subset h1 hsub).length_le
      simpa [hlen] using this
    constructor
    · intro h
      have := h.1
      rw [length_sortedValues] at this
      omega
    · rintro ⟨s, hs⟩
      exfalso
      have hnd : (hand.map (fun c => c.rank.val)).Nodup := hs.nodup_iff.2 (nodup_run s)
      rw [← hkeys] at hnd
      have hnd2 := List.Nodup.of_map _ hnd
      have := (List.subperm_of_subset hnd2 (fun x hx => (h2 x).2 hx)).length_le
      rw [List.length_map, hlen] at this
      omega

/-! ## The examples of the documentation as cards -/

/-- The cards of `documentedCards` are written as the hands of the documentation. -/
theorem documentedCards_text :
    documentedCards.map (fun e => (e.1.map Card.text, e.2)) = documentedHands := by
  decide

/-- The standard rules give the hands of the documentation the ranks the
documentation gives them; the run Q-K-A-2-3 of the last one is no straight. -/
theorem standardRank_documented : ∀ e ∈ documentedCards, standardRank e.1 = e.2 := by
  decide

/-! ## C11 -/

/-- C11: for every hand of five cards of the standard deck, each written as its
rank followed by its suit character and in any order, `getPokerHandRank` returns
the value the standard rules assign: 8 for one suit and five ranks in a row, then
7 for four of a kind, 6 for a full house, 5 for a flush, 4 for a straight, 3 for
three of a kind, 2 for two pairs, 1 for one pair and 0 otherwise, where the ace
is low in A-2-3-4-5 and high in 10-J-Q-K-A and a run does not wrap around. The
five cards need not even be distinct. -/
theorem getPokerHandRank_standard (hand : List Card) (hlen : hand.length = 5) :
    getPokerHandRank (hand.map Card.text) = standardRank hand := by
  have hq := tallied_hand hand
  have hne : hand ≠ [] := by
    intro h
    rw [h] at hlen
    exact absurd hlen (by decide)
  unfold getPokerHandRank standardRank
  simp only [isFlush_iff hne hq, isStraight_iff hlen hq,
    getCount_ne_zero_iff hq (by decide : 1 ≤ 4), getCount_ne_zero_iff hq (by decide : 1 ≤ 3),
    getCount_ne_zero_iff hq (by decide : 1 ≤ 2), getCount_two_iff hlen hq]

/-- C11 at the hand 4♥ 5♥ 6♥ 7♥ 8♥ of the docstring, a straight flush. -/
theorem getPokerHandRank_standard_witness :
    [(⟨3, 1⟩ : Card), ⟨4, 1⟩, ⟨5, 1⟩, ⟨6, 1⟩, ⟨7, 1⟩].length = 5 ∧
      getPokerHandRank ([(⟨3, 1⟩ : Card), ⟨4, 1⟩, ⟨5, 1⟩, ⟨6, 1⟩, ⟨7, 1⟩].map Card.text)
        = standardRank [(⟨3, 1⟩ : Card), ⟨4, 1⟩, ⟨5, 1⟩, ⟨6, 1⟩, ⟨7, 1⟩] :=
  ⟨by decide, getPokerHandRank_standard _ (by decide)⟩

end Katas
